import Mathlib

/-! # MBW: monospaced black-and-white bitmap fonts

A shallow embedding of `mbw.go` (package `mbw`) and a verification of its
data model (`Font`, `Letter`) and of its binary codec (`Read`, `Write`).

Modelling conventions.

* Go's `int` is the 64-bit two's-complement integer (amd64/arm64 targets).
  Values are mathematical integers; every arithmetic result that Go stores in
  an `int` passes through `int`, which wraps modulo `2^64`.  The conversions
  `uint16`, `uint32`, `uint64` and `rune` wrap in the same way.
* A run-time panic (index out of range, `make` with a length that is negative
  or does not fit an `int`) is `none` for the pure operations and
  `Outcome.panic` for `Read` and `Write`.
* The runtime also refuses an allocation that exceeds its allocation limit or
  the free memory (a panic "makeslice: len out of range", or the end of the
  program).  That limit belongs to the machine, not to the program, and is
  not modelled: where the model allocates, the program allocates if the
  runtime grants the request.  The theorems rely on an allocation being
  granted only for sizes bounded by data the program already holds or by the
  16-bit dimensions of a file header; elsewhere they are conditional on the
  call returning, or leave the panic open.
* A byte is a natural number below 256; a byte slice is a `List Nat`.
* The `io.Reader` handed to `Read` is a `bytes.Reader` (the reader of
  `mbw_test.go`), represented by the list of bytes not yet consumed.  The
  `io.Writer` handed to `Write` is a `bytes.Buffer`, whose `Write` never
  fails; it is represented by the list of bytes written so far.
* Errors are the messages of the Go `error` values.
* A `*Letter` returned by `Font.Letter` is represented by the position of
  the letter in `Font.letters`: a `Set` through the pointer writes into the
  pixel slice of that letter, which every copy of the `Letter` value shares.
* In the wrapping functions the literal comes first (`2^63 + z`): the
  definitions then evaluate on numerals and stay inert on variables.
-/

namespace Mbw

/-! ## Machine integers -/

/-- Go's `int`: the value of an integer expression after two's-complement
wrap-around to 64 bits. -/
def int (z : Int) : Int :=
  (9223372036854775808 + z) % 18446744073709551616 - 9223372036854775808

/-- The conversion `uint16(z)`. -/
def uint16 (z : Int) : Nat := (z % 65536).toNat

/-- The conversion `uint32(z)`. -/
def uint32 (z : Int) : Nat := (z % 4294967296).toNat

/-- The conversions `uint64(z)` and `uint(z)`. -/
def uint64 (z : Int) : Nat := (z % 18446744073709551616).toNat

/-- The conversion `rune(u)` of a `uint32` to the signed 32-bit `rune`. -/
def rune (u : Nat) : Int := (2147483648 + (u : Int)) % 4294967296 - 2147483648

/-- Results of an operation that returns `(value, error)` and may panic. -/
inductive Outcome (α : Type) where
  | ok (a : α)
  | error (msg : String)
  | panic
deriving DecidableEq, Repr

/-! ## Slices -/

/-- The expression `s[i]` for an `int` index; `none` is the panic
"index out of range". -/
def index {α : Type} (s : List α) (i : Int) : Option α :=
  if 0 ≤ i then s[i.toNat]? else none

/-- The statement `s[i] = v` for an `int` index; `none` is the panic
"index out of range". -/
def assign {α : Type} (s : List α) (i : Int) (v : α) : Option (List α) :=
  if 0 ≤ i ∧ i < s.length then some (s.set i.toNat v) else none

/-- The allocation `make([]T, n)` of a zero-filled slice for an `int` length;
`none` is the panic "makeslice: len out of range" on a negative length.  For
the other lengths the result is the slice the program gets if the runtime
grants the request; the refusal of a length above the runtime's allocation
limit is not modelled. -/
def make {α : Type} (zero : α) (n : Int) : Option (List α) :=
  if 0 ≤ n then some (List.replicate n.toNat zero) else none

/-- The allocation `make([]T, n)` of a zero-filled slice for a `uint64`
length; `none` is the panic "makeslice: len out of range" on a length that
exceeds the largest `int`.  For the other lengths the result is the slice the
program gets if the runtime grants the request; the refusal of a length above
the runtime's allocation limit is not modelled. -/
def makeUint64 {α : Type} (zero : α) (n : Nat) : Option (List α) :=
  if n ≤ 9223372036854775807 then some (List.replicate n zero) else none

/-! ## Data model -/

/-- A single letter of a font (`type Letter struct`). -/
structure Letter where
  Rune : Int
  width : Int
  height : Int
  set : List Bool
deriving DecidableEq, Repr

/-- A monospaced black and white font (`type Font struct`). -/
structure Font where
  width : Int
  height : Int
  letters : List Letter
deriving DecidableEq, Repr

/-- `func NewFont(width, height int) *Font`. -/
def NewFont (width height : Int) : Font :=
  { width := width, height := height, letters := [] }

/-- `func (f *Font) Width() int`. -/
def Font.Width (f : Font) : Int := f.width

/-- `func (f *Font) Height() int`. -/
def Font.Height (f : Font) : Int := f.height

/-- `func (f *Font) Letters() []Letter`. -/
def Font.Letters (f : Font) : List Letter := f.letters

/-- `func newLetter(r rune, width, height int) Letter`; the allocation of the
pixel slice may panic. -/
def newLetter (r : Int) (width height : Int) : Option Letter :=
  match make false (int (width * height)) with
  | none => none
  | some s => some { Rune := r, width := width, height := height, set := s }

/-- `func (b *Letter) At(x, y int) bool`; the conjunction short-circuits, so
the pixel slice is indexed only for coordinates inside the grid. -/
def Letter.At (b : Letter) (x y : Int) : Option Bool :=
  if x ≥ 0 ∧ x < b.width ∧ y ≥ 0 ∧ y < b.height then
    index b.set (int (x + int (y * b.width)))
  else some false

/-- `func (b *Letter) Set(x, y int, to bool)`. -/
def Letter.Set (b : Letter) (x y : Int) (v : Bool) : Option Letter :=
  if x ≥ 0 ∧ x < b.width ∧ y ≥ 0 ∧ y < b.height then
    match assign b.set (int (x + int (y * b.width))) v with
    | none => none
    | some s => some { b with set := s }
  else some b

/-- The loop `for i := range f.letters` of `Font.Letter`: the first position,
counted from `i`, of a letter whose `Rune` is `r`. -/
def findLetter (r : Int) : List Letter → Nat → Option Nat
  | [], _ => none
  | l :: rest, i => if l.Rune = r then some i else findLetter r rest (i + 1)

/-- `func (f *Font) Letter(r rune) *Letter`: the font after the call and the
position of the letter the returned pointer designates. -/
def Font.Letter (f : Font) (r : Int) : Option (Font × Nat) :=
  match findLetter r f.letters 0 with
  | some i => some (f, i)
  | none =>
    match newLetter r f.width f.height with
    | none => none
    | some l => some ({ f with letters := f.letters ++ [l] }, (f.letters ++ [l]).length - 1)

/-- The call `p.Set(x, y, v)` through a pointer `p` that designates the
letter at position `i` of the font. -/
def Font.SetAt (f : Font) (i : Nat) (x y : Int) (v : Bool) : Option Font :=
  match f.letters[i]? with
  | none => none
  | some l =>
    match l.Set x y v with
    | none => none
    | some l' => some { f with letters := f.letters.set i l' }

/-- The call `p.At(x, y)` through a pointer `p` that designates the letter at
position `i` of the font. -/
def Font.AtAt (f : Font) (i : Nat) (x y : Int) : Option Bool :=
  match f.letters[i]? with
  | none => none
  | some l => l.At x y

/-! ## Byte streams -/

/-- The little-endian value of a byte sequence (`binary.LittleEndian`). -/
def leValue : List Nat → Nat
  | [] => 0
  | b :: rest => b + 256 * leValue rest

/-- The `k` bytes of the little-endian encoding of `v`. -/
def leBytes : Nat → Nat → List Nat
  | 0, _ => []
  | k + 1, v => v % 256 :: leBytes k (v / 256)

/-- `type fileHeader struct`. -/
structure fileHeader where
  Version : List Nat
  FontWidth : Nat
  FontHeight : Nat
  LetterCount : Nat
deriving DecidableEq, Repr

/-- `(*bytes.Reader).Read(b)`: with no unread byte left the call reports
`io.EOF` (also for an empty `b`); otherwise it copies as many unread bytes as
fit to the front of `b` and reports no error.  The result is the buffer after
the copy, the error and the reader after the call. -/
def bytesReaderRead (r : List Nat) (b : List Nat) : List Nat × Option String × List Nat :=
  match r with
  | [] => (b, some "EOF", [])
  | _ :: _ => (r.take b.length ++ b.drop (r.take b.length).length, none, r.drop b.length)

/-- `io.ReadFull(r, buf)` with `len(buf) = n` on a `bytes.Reader`: nothing is
read for `n = 0`; `io.EOF` when no byte is left; `io.ErrUnexpectedEOF` when
fewer than `n` bytes are left (they are consumed); the next `n` bytes
otherwise. -/
def ioReadFull (r : List Nat) (n : Nat) : Except String (List Nat) × List Nat :=
  if n = 0 then (.ok [], r)
  else if r = [] then (.error "EOF", r)
  else if r.length < n then (.error "unexpected EOF", [])
  else (.ok (r.take n), r.drop n)

/-- `binary.Read(r, encoding, &header)`: sixteen bytes, decoded field by
field in declaration order without padding. -/
def binaryReadHeader (r : List Nat) : Except String fileHeader × List Nat :=
  match ioReadFull r 16 with
  | (.error e, r') => (.error e, r')
  | (.ok bs, r') =>
    (.ok { Version := bs.take 4
           FontWidth := leValue ((bs.drop 4).take 2)
           FontHeight := leValue ((bs.drop 6).take 2)
           LetterCount := leValue ((bs.drop 8).take 8) }, r')

/-- The four-byte groups of a byte sequence, each decoded little-endian. -/
def decodeUint32s : Nat → List Nat → List Nat
  | 0, _ => []
  | k + 1, bs => leValue (bs.take 4) :: decodeUint32s k (bs.drop 4)

/-- `binary.Read(r, encoding, runes)` for `runes []uint32` of length `n`:
`binary.Read` allocates `4*n` bytes (an `int` computation), fills them with
`io.ReadFull` and decodes them.  `none` is a panic of the allocation or of
the decoding when `4*n` does not fit an `int`. -/
def binaryReadUint32s (r : List Nat) (n : Nat) : Option (Except String (List Nat) × List Nat) :=
  if 4 * n ≤ 9223372036854775807 then
    match ioReadFull r (4 * n) with
    | (.error e, r') => some (.error e, r')
    | (.ok bs, r') => some (.ok (decodeUint32s n bs), r')
  else none

/-- `binary.Write(w, encoding, &header)` into a `bytes.Buffer`: the bytes
appended. -/
def binaryWriteHeader (h : fileHeader) : List Nat :=
  h.Version ++ leBytes 2 h.FontWidth ++ leBytes 2 h.FontHeight ++ leBytes 8 h.LetterCount

/-- `binary.Write(w, encoding, runes)` for `runes []uint32` into a
`bytes.Buffer`: the bytes appended. -/
def binaryWriteUint32s : List Nat → List Nat
  | [] => []
  | u :: rest => leBytes 4 u ++ binaryWriteUint32s rest

/-! ## Codec -/

/-- The global bit index `n := i*font.width*font.height + y*font.width + x`. -/
def bitIndex (font : Font) (i y x : Int) : Int :=
  int (int (int (int (i * font.width) * font.height) + int (y * font.width)) + x)

/-- The mask `0x80 >> uint(n%8)` as a byte. -/
def mask (n : Int) : Nat := 0x80 >>> uint64 (Int.tmod n 8)

/-- The body of the pixel loop of `Read`: test bit `n` of `bits` and set the
pixel of the letter at position `p` when the bit is one. -/
def Read.pixel (bits : List Nat) (i : Nat) (p : Nat) (y x : Nat) (font : Font) : Option Font :=
  match index bits (Int.tdiv (bitIndex font i y x) 8) with
  | none => none
  | some b =>
    if b &&& mask (bitIndex font i y x) ≠ 0 then font.SetAt p x y true else some font

/-- The loop `for x := 0; x < font.width; x++` of `Read`. -/
def Read.row (bits : List Nat) (i : Nat) (p : Nat) (y : Nat) (font : Font) : Option Font :=
  (List.range font.width.toNat).foldlM (fun f x => Read.pixel bits i p y x f) font

/-- The loop `for y := 0; y < font.height; y++` of `Read`. -/
def Read.rows (bits : List Nat) (i : Nat) (p : Nat) (font : Font) : Option Font :=
  (List.range font.height.toNat).foldlM (fun f y => Read.row bits i p y f) font

/-- The loop `for i := range runes` of `Read`, from position `i` on. -/
def Read.fill (bits : List Nat) : List Nat → Nat → Font → Option Font
  | [], _, font => some font
  | u :: rest, i, font =>
    match font.Letter (rune u) with
    | none => none
    | some (font, p) =>
      match Read.rows bits i p font with
      | none => none
      | some font => Read.fill bits rest (i + 1) font

/-- The part of `Read` that follows the header check: allocate and read the
character table, allocate and read the bitmap data, fill the font. -/
def Read.data (header : fileHeader) (r : List Nat) : Outcome Font :=
  let font := NewFont (header.FontWidth : Int) (header.FontHeight : Int)
  match makeUint64 (0 : Nat) header.LetterCount with
  | none => .panic
  | some _ =>
    match binaryReadUint32s r header.LetterCount with
    | none => .panic
    | some (.error e, _) => .error ("mbw.Read failed to read ´characters: " ++ e)
    | some (.ok runes, r) =>
      match make (0 : Nat) (Int.tdiv (int (int (int (header.LetterCount : Int) *
          (header.FontWidth : Int)) * (header.FontHeight : Int))) 8) with
      | none => .panic
      | some bits =>
        match bytesReaderRead r bits with
        | (_, some e, _) => .error ("mbw.Read failed to read bitmap data: " ++ e)
        | (bits, none, _) =>
          match Read.fill bits runes 0 font with
          | none => .panic
          | some font => .ok font

/-- `func Read(r io.Reader) (*Font, error)` on a `bytes.Reader` holding `r`. -/
def Read (r : List Nat) : Outcome Font :=
  match binaryReadHeader r with
  | (.error e, _) => .error ("mbw.Read failed to read header: " ++ e)
  | (.ok header, r) =>
    if header.Version ≠ [0x4D, 0x42, 0x57, 0x31] ∨
        header.FontWidth = 0 ∨
        header.FontHeight = 0 then
      .error "mbw.Read: unknown file header"
    else Read.data header r

/-- The statement `bits[n/8] |= 0x80 >> uint(n%8)`. -/
def Write.orBit (bits : List Nat) (n : Int) : Option (List Nat) :=
  match index bits (Int.tdiv n 8) with
  | none => none
  | some b => assign bits (Int.tdiv n 8) (b ||| mask n)

/-- The body of the pixel loop of `Write`. -/
def Write.pixel (font : Font) (i : Nat) (letter : Letter) (y x : Nat) (bits : List Nat) :
    Option (List Nat) :=
  match letter.At x y with
  | none => none
  | some false => some bits
  | some true => Write.orBit bits (bitIndex font i y x)

/-- The loop `for x := 0; x < font.width; x++` of `Write`. -/
def Write.row (font : Font) (i : Nat) (letter : Letter) (y : Nat) (bits : List Nat) :
    Option (List Nat) :=
  (List.range font.width.toNat).foldlM (fun b x => Write.pixel font i letter y x b) bits

/-- The loop `for y := 0; y < font.height; y++` of `Write`. -/
def Write.rows (font : Font) (i : Nat) (letter : Letter) (bits : List Nat) :
    Option (List Nat) :=
  (List.range font.height.toNat).foldlM (fun b y => Write.row font i letter y b) bits

/-- The loop `for i, letter := range font.letters` of `Write`, from position
`i` on. -/
def Write.fill (font : Font) : List Letter → Nat → List Nat → Option (List Nat)
  | [], _, bits => some bits
  | letter :: rest, i, bits =>
    match Write.rows font i letter bits with
    | none => none
    | some bits => Write.fill font rest (i + 1) bits

/-- `func Write(w io.Writer, font *Font) error` on an empty `bytes.Buffer`:
the contents of the buffer when `Write` ends and how it ends. -/
def Write (font : Font) : List Nat × Outcome Unit :=
  let header : fileHeader :=
    { Version := [0x4D, 0x42, 0x57, 0x31]
      FontWidth := uint16 font.width
      FontHeight := uint16 font.height
      LetterCount := uint64 font.letters.length }
  let out := binaryWriteHeader header
  let runes := font.letters.map (fun l => uint32 l.Rune)
  let out := out ++ binaryWriteUint32s runes
  match make (0 : Nat) (Int.tdiv (int (int ((font.letters.length : Int) * font.width) *
      font.height)) 8) with
  | none => (out, .panic)
  | some bits =>
    match Write.fill font font.letters 0 bits with
    | none => (out, .panic)
    | some bits => (out ++ bits, .ok ())

/-! ## Well-formed values -/

/-- A letter of size `w × h` whose pixel slice holds `w * h` cells. -/
def Letter.Sized (l : Letter) (w h : Int) : Prop :=
  l.width = w ∧ l.height = h ∧ (l.set.length : Int) = w * h

instance (l : Letter) (w h : Int) : Decidable (l.Sized w h) := by
  unfold Letter.Sized; infer_instance

/-- The font of `TestReadWrittenFont`: 14 x 8 pixels, letter `A` with pixel
(1, 2) set and letter `B` with pixels (2, 3) and (3, 4) set. -/
def testFont : Font :=
  { width := 14
    height := 8
    letters :=
      [ { Rune := 65, width := 14, height := 8,
          set := (List.replicate 112 false).set 29 true },
        { Rune := 66, width := 14, height := 8,
          set := ((List.replicate 112 false).set 44 true).set 59 true } ] }

/-- The bit of global index `n` of a packed bitmap: the bit with mask
`0x80 >> (n mod 8)` of byte `n / 8`; a byte past the end counts as zero. -/
def bitSet (bits : List Nat) (n : Nat) : Prop :=
  bits.getD (n / 8) 0 &&& (0x80 >>> (n % 8)) ≠ 0

instance (bits : List Nat) (n : Nat) : Decidable (bitSet bits n) := by
  unfold bitSet; infer_instance

/-- The fonts met inside the pixel loops of `Read` while the letter at
position `p` is filled: they have size `W × H` and differ from the font `f0`
at the start of the loops only in the pixels of letter `p`, which has size
`W × H` and rune `c`. -/
def Read.Frame (f0 : Font) (p : Nat) (W H : Nat) (c : Int) (f : Font) : Prop :=
  f.width = W ∧ f.height = H ∧ p < f0.letters.length ∧
    ∃ l : Letter, f.letters = f0.letters.set p l ∧ l.Sized W H ∧ l.Rune = c

/-- The set pixels, by offset in the pixel slice, of the letter at position
`p` of a font. -/
def Read.lit (p : Nat) (f : Font) (k : Nat) : Prop :=
  ∃ l : Letter, f.letters[p]? = some l ∧ l.set[k]? = some true

/-! ## Building a font through the public interface -/

/-- A call a client makes on a font: `font.Letter(c)`, or
`font.Letter(c).Set(x, y, v)`, a `Set` through the pointer that `Letter(c)`
returns. -/
inductive Op where
  | letter (c : Int)
  | set (c : Int) (x y : Int) (v : Bool)
deriving DecidableEq, Repr

/-- The rune argument of a call. -/
def Op.rune : Op → Int
  | .letter c => c
  | .set c _ _ _ => c

/-- The font after one call; `none` is a panic. -/
def Op.run (f : Font) : Op → Option Font
  | .letter c =>
    match f.Letter c with
    | none => none
    | some (f', _) => some f'
  | .set c x y v =>
    match f.Letter c with
    | none => none
    | some (f', i) => f'.SetAt i x y v

/-- The font after a sequence of calls; `none` is a panic. -/
def runOps (f : Font) : List Op → Option Font
  | [] => some f
  | op :: rest =>
    match op.run f with
    | none => none
    | some f' => runOps f' rest

/-- The invariants of the data model: every letter has the font's size and
holds `width * height` pixels, no two letters carry the same rune, and every
rune is a 32-bit signed value. -/
def WellFormed (f : Font) : Prop :=
  (∀ l ∈ f.letters, l.Sized f.width f.height) ∧
    (f.letters.map Letter.Rune).Nodup ∧
    ∀ l ∈ f.letters, -2147483648 ≤ l.Rune ∧ l.Rune ≤ 2147483647

/-! ## Sorting -/

/-- `func (x sortable) Len() int`; a `sortable` wraps the `*Font`. -/
def sortable.Len (x : Font) : Int := x.letters.length

/-- `func (x sortable) Less(i, j int) bool`; `none` is the panic
"index out of range". -/
def sortable.Less (x : Font) (i j : Int) : Option Bool :=
  match index x.letters i, index x.letters j with
  | some a, some b => some (decide (a.Rune < b.Rune))
  | _, _ => none

/-- `func (x sortable) Swap(i, j int)`: the tuple assignment
`x.letters[i], x.letters[j] = x.letters[j], x.letters[i]` reads both elements
and then stores them. -/
def sortable.Swap (x : Font) (i j : Int) : Option Font :=
  match index x.letters j, index x.letters i with
  | some b, some a =>
    match assign x.letters i b with
    | none => none
    | some ls =>
      match assign ls j a with
      | none => none
      | some ls' => some { x with letters := ls' }
  | _, _ => none

/-- The inner loop of `insertionSort` in package `sort`, for the range
starting at 0: `for j := i; j > 0 && data.Less(j, j-1); j-- { data.Swap(j, j-1) }`. -/
def sort.insert (x : Font) : Nat → Option Font
  | 0 => some x
  | j + 1 =>
    match sortable.Less x ((j + 1 : Nat) : Int) (j : Int) with
    | none => none
    | some false => some x
    | some true =>
      match sortable.Swap x ((j + 1 : Nat) : Int) (j : Int) with
      | none => none
      | some x' => sort.insert x' j

/-- `insertionSort(data, 0, n)` of package `sort`:
`for i := 1; i < n; i++ { ... }`. -/
def sort.insertionSort (x : Font) (n : Nat) : Option Font :=
  (List.range' 1 (n - 1)).foldlM (fun x i => sort.insert x i) x

/-- `sort.Sort(data)` on a `sortable`.  Package `sort` belongs to the Go
standard library, not to this package; it is modelled by its insertion sort,
the algorithm it applies to short inputs.  On longer inputs package `sort`
switches to a quicksort variant, which returns a sorted permutation as well
(not necessarily the same one when two letters carry the same rune). -/
def sort.Sort (x : Font) : Option Font :=
  sort.insertionSort x (sortable.Len x).toNat

/-- `func (f *Font) Sort()`: the font after the call; `none` is a panic. -/
def Font.Sort (f : Font) : Option Font := sort.Sort f

/-- A call of the public interface that changes a font: a `Letter` or `Set`
call, or `font.Sort()`. -/
inductive Call where
  | op (o : Op)
  | sort
deriving DecidableEq, Repr

/-- The font after one call; `none` is a panic. -/
def Call.run (f : Font) : Call → Option Font
  | .op o => o.run f
  | .sort => f.Sort

/-- The font after a sequence of calls; `none` is a panic. -/
def runCalls (f : Font) : List Call → Option Font
  | [] => some f
  | c :: rest =>
    match c.run f with
    | none => none
    | some f' => runCalls f' rest

/-- Every letter of the font has the font's width and height and holds `n`
pixels, and no two letters carry the same rune. -/
def Invariant (n : Int) (f : Font) : Prop :=
  (∀ l ∈ f.letters, l.width = f.width ∧ l.height = f.height ∧ (l.set.length : Int) = n) ∧
    (f.letters.map Letter.Rune).Nodup

/-! ## Machine-integer lemmas -/

theorem int_eq_self {z : Int} (h1 : -9223372036854775808 ≤ z)
    (h2 : z ≤ 9223372036854775807) : int z = z := by
  unfold int; omega

/-- Inside a grid of `w * h` cells that fits an `int`, the cell offset `x + y*w` is computed
without wrap-around and lies inside the grid. -/
theorem cell_offset {w h x y : Int} (hx0 : 0 ≤ x) (hx : x < w) (hy0 : 0 ≤ y) (hy : y < h)
    (hfit : w * h ≤ 9223372036854775807) :
    int (x + int (y * w)) = x + y * w ∧ 0 ≤ x + y * w ∧ x + y * w < w * h := by
  have hw : 0 < w := by omega
  have h1 : y * w ≤ (h - 1) * w := mul_le_mul_of_nonneg_right (by omega) (by omega)
  have h2 : (h - 1) * w = w * h - w := by ring
  have h3 : 0 ≤ y * w := mul_nonneg hy0 (by omega)
  have e1 : int (y * w) = y * w := int_eq_self (by omega) (by omega)
  rw [e1, int_eq_self (by omega) (by omega)]
  omega

theorem index_eq_getElem? {α : Type} (s : List α) {i : Int} (h : 0 ≤ i) :
    index s i = s[i.toNat]? := by
  simp [index, h]

/-! ## Letters -/

theorem Letter.At_of_outside (l : Letter) (x y : Int)
    (h : ¬ (x ≥ 0 ∧ x < l.width ∧ y ≥ 0 ∧ y < l.height)) : l.At x y = some false := by
  simp only [Letter.At, if_neg h]

theorem Letter.At_of_inside {l : Letter} {w h : Int} (hl : l.Sized w h)
    (hfit : w * h ≤ 9223372036854775807) {x y : Int}
    (hx0 : 0 ≤ x) (hx : x < w) (hy0 : 0 ≤ y) (hy : y < h) :
    l.At x y = l.set[(x + y * w).toNat]? ∧ (x + y * w).toNat < l.set.length := by
  obtain ⟨hw, hh, hlen⟩ := hl
  obtain ⟨e, h0, h1⟩ := cell_offset hx0 hx hy0 hy hfit
  have hin : x ≥ 0 ∧ x < l.width ∧ y ≥ 0 ∧ y < l.height := by omega
  refine ⟨?_, by omega⟩
  rw [Letter.At, if_pos hin, hw, e]
  exact index_eq_getElem? _ h0

/-! ## Lookup-or-create -/

theorem findLetter_eq_none {r : Int} {ls : List Letter} {i : Nat} :
    findLetter r ls i = none ↔ ∀ l ∈ ls, l.Rune ≠ r := by
  induction ls generalizing i with
  | nil => simp [findLetter]
  | cons l rest ih =>
    by_cases hl : l.Rune = r
    · simp [findLetter, hl]
    · simp [findLetter, hl, ih]

/-- The position found is the first one, counted from `i`, that carries the rune. -/
theorem findLetter_eq_some {r : Int} {ls : List Letter} {i j : Nat}
    (h : findLetter r ls i = some j) :
    ∃ k, j = i + k ∧ k < ls.length ∧ (ls[k]?.map Letter.Rune = some r) ∧
      ∀ m, m < k → ls[m]?.map Letter.Rune ≠ some r := by
  induction ls generalizing i with
  | nil => simp [findLetter] at h
  | cons l rest ih =>
    by_cases hl : l.Rune = r
    · simp only [findLetter, if_pos hl, Option.some.injEq] at h
      exact ⟨0, by omega, by simp, by simp [hl], by intro m hm; omega⟩
    · simp only [findLetter, if_neg hl] at h
      obtain ⟨k, hj, hk, hr, hfirst⟩ := ih h
      refine ⟨k + 1, by omega, by simp; omega, by simpa using hr, ?_⟩
      intro m hm
      cases m with
      | zero => simpa using hl
      | succ m => simpa using hfirst m (by omega)

theorem findLetter_isSome {r : Int} {ls : List Letter} (i : Nat)
    (h : ∃ l ∈ ls, l.Rune = r) : ∃ j, findLetter r ls i = some j := by
  cases hf : findLetter r ls i with
  | some j => exact ⟨j, rfl⟩
  | none =>
    obtain ⟨l, hl, hr⟩ := h
    exact absurd hr (findLetter_eq_none.mp hf l hl)

/-- `Font.Letter` on a rune the font carries: the font is unchanged and the
first letter with that rune is designated. -/
theorem fontLetter_of_mem {f : Font} {c : Int} (h : ∃ l ∈ f.letters, l.Rune = c) :
    ∃ i, f.Letter c = some (f, i) ∧ i < f.letters.length ∧
      f.letters[i]?.map Letter.Rune = some c ∧
      ∀ m, m < i → f.letters[m]?.map Letter.Rune ≠ some c := by
  obtain ⟨j, hj⟩ := findLetter_isSome 0 h
  obtain ⟨k, hk, hlen, hr, hfirst⟩ := findLetter_eq_some hj
  have : j = k := by omega
  subst this
  exact ⟨j, by simp [Font.Letter, hj], hlen, hr, hfirst⟩

theorem Letter.Set_Rune {l l' : Letter} {x y : Int} {v : Bool} (h : l.Set x y v = some l') :
    l'.Rune = l.Rune ∧ l'.width = l.width ∧ l'.height = l.height ∧
      l'.set.length = l.set.length := by
  unfold Letter.Set at h
  split at h
  · cases ha : assign l.set (int (x + int (y * l.width))) v with
    | none => simp [ha] at h
    | some s =>
      simp only [ha, Option.some.injEq] at h
      subst h
      unfold assign at ha
      split at ha
      · simp only [Option.some.injEq] at ha
        subst ha
        simp
      · simp at ha
  · simp only [Option.some.injEq] at h
    subst h
    simp

theorem fontSetAt_letters {f f' : Font} {i : Nat} {x y : Int} {v : Bool}
    (h : f.SetAt i x y v = some f') :
    ∃ l l', f.letters[i]? = some l ∧ l.Set x y v = some l' ∧
      f' = { f with letters := f.letters.set i l' } := by
  unfold Font.SetAt at h
  cases hl : f.letters[i]? with
  | none => simp [hl] at h
  | some l =>
    cases hs : l.Set x y v with
    | none => simp [hl, hs] at h
    | some l' =>
      simp only [hl, hs, Option.some.injEq] at h
      exact ⟨l, l', rfl, hs, h.symm⟩

/-- Setting a pixel does not change the runes of a list of letters. -/
theorem map_Rune_set {ls : List Letter} {i : Nat} {l l' : Letter}
    (hl : ls[i]? = some l) (hr : l'.Rune = l.Rune) :
    (ls.set i l').map Letter.Rune = ls.map Letter.Rune := by
  induction ls generalizing i with
  | nil => simp
  | cons a rest ih =>
    cases i with
    | zero =>
      simp only [List.getElem?_cons_zero, Option.some.injEq] at hl
      subst hl
      simp [hr]
    | succ i =>
      simp only [List.getElem?_cons_succ] at hl
      simp [ih hl]

theorem findLetter_congr {r : Int} {ls ls' : List Letter} (i : Nat)
    (h : ls.map Letter.Rune = ls'.map Letter.Rune) :
    findLetter r ls i = findLetter r ls' i := by
  induction ls generalizing ls' i with
  | nil =>
    cases ls' with
    | nil => rfl
    | cons b rest' => simp at h
  | cons a rest ih =>
    cases ls' with
    | nil => simp at h
    | cons b rest' =>
      simp only [List.map_cons, List.cons.injEq] at h
      simp only [findLetter, h.1, ih (i + 1) h.2]

theorem Letter.At_Set_same {l : Letter} {w h : Int} (hl : l.Sized w h)
    (hfit : w * h ≤ 9223372036854775807) {x y : Int} {v : Bool}
    (hx0 : 0 ≤ x) (hx : x < w) (hy0 : 0 ≤ y) (hy : y < h) :
    ∃ l', l.Set x y v = some l' ∧ l'.Sized w h ∧ l'.Rune = l.Rune ∧
      l'.set = l.set.set (x + y * w).toNat v ∧ l'.At x y = some v := by
  obtain ⟨hw, hh, hlen⟩ := hl
  obtain ⟨e, h0, h1⟩ := cell_offset hx0 hx hy0 hy hfit
  have hin : x ≥ 0 ∧ x < l.width ∧ y ≥ 0 ∧ y < l.height := by omega
  have ha : assign l.set (x + y * w) v = some (l.set.set (x + y * w).toNat v) := by
    simp only [assign]
    rw [if_pos ⟨h0, by omega⟩]
  refine ⟨{ l with set := l.set.set (x + y * w).toNat v }, ?_, ?_, rfl, rfl, ?_⟩
  · rw [Letter.Set, if_pos hin, hw, e, ha]
  · exact ⟨hw, hh, by simpa using hlen⟩
  · have hs : Letter.Sized { l with set := l.set.set (x + y * w).toNat v } w h :=
      ⟨hw, hh, by simpa using hlen⟩
    rw [(Letter.At_of_inside hs hfit hx0 hx hy0 hy).1]
    simp only [List.getElem?_set, if_true]
    rw [if_pos (by omega)]


/-! ## Claims on lookup-or-create -/

/-- C9: lookup-or-create idempotence.  When some letter of `f` has rune `c`,
`f.Letter c` returns the font unchanged (same letters, same order, same
bitmaps) and designates the first position whose rune is `c`; a second call
designates the same position and adds nothing; and after any `Set` made
through the first result, `Letter c` still designates that position, where
`At` reads the letter the `Set` produced, so that an in-range `Set` of `v` on
a letter holding its `width * height` pixels is read back as `v`. -/
theorem C9_letter_lookup_idempotent (f : Font) (c : Int)
    (h : ∃ l ∈ f.letters, l.Rune = c) :
    ∃ i, f.Letter c = some (f, i) ∧
      i < f.letters.length ∧
      f.letters[i]?.map Letter.Rune = some c ∧
      (∀ m, m < i → f.letters[m]?.map Letter.Rune ≠ some c) ∧
      ((f.Letter c).bind fun p => p.1.Letter c) = some (f, i) ∧
      (∀ x y v f1, f.SetAt i x y v = some f1 →
        f1.Letter c = some (f1, i) ∧ f1.letters.length = f.letters.length ∧
        ∃ l l1, f.letters[i]? = some l ∧ l.Set x y v = some l1 ∧
          ∀ x1 y1, f1.AtAt i x1 y1 = l1.At x1 y1) ∧
      (∀ l x y v, f.letters[i]? = some l → l.Sized l.width l.height →
        l.width * l.height ≤ 9223372036854775807 →
        0 ≤ x → x < l.width → 0 ≤ y → y < l.height →
        ∃ f1, f.SetAt i x y v = some f1 ∧ f1.Letter c = some (f1, i) ∧
          f1.AtAt i x y = some v) := by
  obtain ⟨i, hL, hlen, hr, hfirst⟩ := fontLetter_of_mem h
  have key : ∀ x y v f1, f.SetAt i x y v = some f1 →
      f1.Letter c = some (f1, i) ∧ f1.letters.length = f.letters.length ∧
      ∃ l l1, f.letters[i]? = some l ∧ l.Set x y v = some l1 ∧
        ∀ x1 y1, f1.AtAt i x1 y1 = l1.At x1 y1 := by
    intro x y v f1 hs
    obtain ⟨l, l1, hl, hset, hf1⟩ := fontSetAt_letters hs
    have hrunes : f1.letters.map Letter.Rune = f.letters.map Letter.Rune := by
      rw [hf1]
      exact map_Rune_set hl (Letter.Set_Rune hset).1
    have hfind : findLetter c f1.letters 0 = some i := by
      rw [findLetter_congr 0 hrunes]
      unfold Font.Letter at hL
      cases hf : findLetter c f.letters 0 with
      | some j =>
        simp only [hf, Option.some.injEq, Prod.mk.injEq, true_and] at hL
        rw [hL]
      | none =>
        obtain ⟨l0, hl0, hr0⟩ := h
        exact absurd hr0 (findLetter_eq_none.mp hf l0 hl0)
    refine ⟨by simp [Font.Letter, hfind], by simp [hf1], l, l1, hl, hset, ?_⟩
    intro x1 y1
    simp [Font.AtAt, hf1, List.getElem?_set, hlen]
  refine ⟨i, hL, hlen, hr, hfirst, by simp [hL], key, ?_⟩
  intro l x y v hl hsz hfit hx0 hx hy0 hy
  obtain ⟨l1, hset, -, -, -, hat⟩ := Letter.At_Set_same (v := v) hsz hfit hx0 hx hy0 hy
  have hs : f.SetAt i x y v = some { f with letters := f.letters.set i l1 } := by
    simp [Font.SetAt, hl, hset]
  obtain ⟨hL1, -, l2, l3, hl2, hset2, hat2⟩ := key x y v _ hs
  refine ⟨_, hs, hL1, ?_⟩
  rw [hat2]
  rw [hl] at hl2
  cases hl2
  rw [hset] at hset2
  cases hset2
  exact hat

/-- Witness for C9: the font of the test and its letter `B`. -/
theorem C9_letter_lookup_idempotent_witness :
    (∃ l ∈ testFont.letters, l.Rune = 66) ∧ ∃ i, testFont.Letter 66 = some (testFont, i) :=
  have h : ∃ l ∈ testFont.letters, l.Rune = 66 :=
    ⟨{ Rune := 66, width := 14, height := 8,
       set := ((List.replicate 112 false).set 44 true).set 59 true }, by simp [testFont], rfl⟩
  ⟨h, (C9_letter_lookup_idempotent testFont 66 h).imp fun _ hi => hi.1⟩

/-- C10 (as amended): creation on first reference.  For a font of positive
size `w × h` whose pixel count `w * h` fits an `int`, and a rune `c` that no
letter carries: whenever `Letter c` returns (it allocates the pixels of the
new letter, which the runtime may refuse), it has appended exactly one letter
to the unchanged old sequence and designates it; the new letter has rune `c`,
size `w × h`, `w * h` pixels, and `At` is false on it everywhere.  `Letter c`
does return when the font already holds a letter of `w * h` pixels. -/
theorem C10_letter_creates (f : Font) (c : Int) (hw : 0 < f.width) (hh : 0 < f.height)
    (hfit : f.width * f.height ≤ 9223372036854775807)
    (hc : ∀ l ∈ f.letters, l.Rune ≠ c) :
    (∀ f' i, f.Letter c = some (f', i) →
      ∃ l, f' = { f with letters := f.letters ++ [l] } ∧ i = f.letters.length ∧
        l.Rune = c ∧ l.width = f.width ∧ l.height = f.height ∧
        (l.set.length : Int) = f.width * f.height ∧
        ∀ x y, l.At x y = some false) ∧
    ((∃ l0 ∈ f.letters, (l0.set.length : Int) = f.width * f.height) →
      ∃ f' i, f.Letter c = some (f', i)) := by
  have hpos : 0 ≤ f.width * f.height := by positivity
  have hint : int (f.width * f.height) = f.width * f.height :=
    int_eq_self (by omega) hfit
  constructor
  · intro f' i hL
    unfold Font.Letter at hL
    rw [findLetter_eq_none.mpr hc] at hL
    cases hnew : newLetter c f.width f.height with
    | none => simp [hnew] at hL
    | some l =>
      simp only [hnew, Option.some.injEq, Prod.mk.injEq] at hL
      unfold newLetter at hnew
      cases hmk : make false (int (f.width * f.height)) with
      | none => simp [hmk] at hnew
      | some px =>
        simp only [hmk, Option.some.injEq] at hnew
        rw [hint] at hmk
        unfold make at hmk
        rw [if_pos hpos] at hmk
        simp only [Option.some.injEq] at hmk
        have hlen : (l.set.length : Int) = f.width * f.height := by
          rw [← hnew, ← hmk]
          simp only [List.length_replicate]
          omega
        refine ⟨l, hL.1.symm, by rw [← hL.2]; simp, by rw [← hnew], by rw [← hnew],
          by rw [← hnew], hlen, ?_⟩
        intro x y
        by_cases hin : x ≥ 0 ∧ x < l.width ∧ y ≥ 0 ∧ y < l.height
        · have hs : l.Sized f.width f.height := ⟨by rw [← hnew], by rw [← hnew], hlen⟩
          rw [hs.1, hs.2.1] at hin
          obtain ⟨e, hlt⟩ := Letter.At_of_inside hs hfit hin.1 hin.2.1 hin.2.2.1 hin.2.2.2
          rw [e]
          have hset : l.set = List.replicate (f.width * f.height).toNat false := by
            rw [← hnew, ← hmk]
          rw [hset, List.getElem?_replicate]
          rw [hset, List.length_replicate] at hlt
          simp [hlt]
        · exact Letter.At_of_outside _ x y hin
  · intro _
    have hmk : newLetter c f.width f.height =
        some { Rune := c, width := f.width, height := f.height,
               set := List.replicate (f.width * f.height).toNat false } := by
      simp only [newLetter, hint, make]
      rw [if_pos hpos]
    exact ⟨{ f with letters := f.letters ++
        [{ Rune := c, width := f.width, height := f.height,
           set := List.replicate (f.width * f.height).toNat false }] }, f.letters.length,
      by simp [Font.Letter, findLetter_eq_none.mpr hc, hmk]⟩

/-- Witness for C10: the letter `C` is new in the font of the test, whose
letters hold 14 * 8 pixels each. -/
theorem C10_letter_creates_witness :
    ∃ f' i l, testFont.Letter 67 = some (f', i) ∧
      f' = { testFont with letters := testFont.letters ++ [l] } ∧
      i = testFont.letters.length := by
  obtain ⟨h1, h2⟩ := C10_letter_creates testFont 67 (by decide) (by decide) (by decide)
    (by simp [testFont])
  obtain ⟨f', i, hL⟩ := h2 (by decide)
  obtain ⟨l, hf, hi, -⟩ := h1 f' i hL
  exact ⟨f', i, l, hL, hf, hi⟩

/-- C10 fails as stated: in a font of size `2^32 × 2^32` the product of the
dimensions wraps to zero, so the letter created for `A` holds no pixel and
`At(0, 0)` on it panics instead of returning false. -/
theorem C10_counterexample :
    (0 : Int) < 4294967296 ∧
    (NewFont 4294967296 4294967296).Letter 65 =
      some ({ width := 4294967296, height := 4294967296,
              letters := [{ Rune := 65, width := 4294967296, height := 4294967296, set := [] }] },
            0) ∧
    Letter.At { Rune := 65, width := 4294967296, height := 4294967296, set := [] } 0 0 = none := by
  refine ⟨by decide, by decide, by decide⟩

/-! ## Reading: the phases of `Read` -/

theorem ioReadFull_error {r r' : List Nat} {n : Nat} {e : String}
    (h : ioReadFull r n = (.error e, r')) : e = "EOF" ∨ e = "unexpected EOF" := by
  unfold ioReadFull at h
  split at h
  · simp at h
  · split at h
    · simp only [Prod.mk.injEq, Except.error.injEq] at h
      exact Or.inl h.1.symm
    · split at h
      · simp only [Prod.mk.injEq, Except.error.injEq] at h
        exact Or.inr h.1.symm
      · simp at h

theorem ioReadFull_of_le {r : List Nat} {n : Nat} (h : n ≤ r.length) :
    ioReadFull r n = (.ok (r.take n), r.drop n) := by
  unfold ioReadFull
  by_cases hn : n = 0
  · simp [hn]
  · have hr : r ≠ [] := by
      intro hr
      rw [hr] at h
      simp at h
      exact hn h
    rw [if_neg hn, if_neg hr, if_neg (by omega)]

theorem ioReadFull_of_lt {r : List Nat} {n : Nat} (h : r.length < n) :
    ∃ e r', ioReadFull r n = (.error e, r') ∧ (e = "EOF" ∨ e = "unexpected EOF") := by
  unfold ioReadFull
  have hn : n ≠ 0 := by omega
  rw [if_neg hn]
  by_cases hr : r = []
  · rw [if_pos hr]
    exact ⟨_, _, rfl, Or.inl rfl⟩
  · rw [if_neg hr, if_pos h]
    exact ⟨_, _, rfl, Or.inr rfl⟩

/-- The header a stream of at least sixteen bytes starts with. -/
theorem binaryReadHeader_of_le {s : List Nat} (h : 16 ≤ s.length) :
    binaryReadHeader s =
      (.ok { Version := s.take 4
             FontWidth := leValue ((s.drop 4).take 2)
             FontHeight := leValue ((s.drop 6).take 2)
             LetterCount := leValue ((s.drop 8).take 8) }, s.drop 16) := by
  unfold binaryReadHeader
  rw [ioReadFull_of_le h]
  simp only [List.take_take, List.drop_take]
  rfl

theorem Read_of_le {s : List Nat} (h : 16 ≤ s.length) :
    Read s =
      if s.take 4 ≠ [0x4D, 0x42, 0x57, 0x31] ∨ leValue ((s.drop 4).take 2) = 0 ∨
          leValue ((s.drop 6).take 2) = 0 then
        .error "mbw.Read: unknown file header"
      else
        Read.data { Version := s.take 4
                    FontWidth := leValue ((s.drop 4).take 2)
                    FontHeight := leValue ((s.drop 6).take 2)
                    LetterCount := leValue ((s.drop 8).take 8) } (s.drop 16) := by
  unfold Read
  rw [binaryReadHeader_of_le h]


theorem bytesReaderRead_error {r b b' r' : List Nat} {e : String}
    (h : bytesReaderRead r b = (b', some e, r')) : e = "EOF" ∧ r = [] := by
  unfold bytesReaderRead at h
  cases r with
  | nil =>
    simp only [Prod.mk.injEq, Option.some.injEq] at h
    exact ⟨h.2.1.symm, rfl⟩
  | cons a rest => simp at h

theorem binaryReadUint32s_error {r r' : List Nat} {n : Nat} {e : String}
    (h : binaryReadUint32s r n = some (.error e, r')) : e = "EOF" ∨ e = "unexpected EOF" := by
  unfold binaryReadUint32s at h
  split at h
  · split at h
    · rename_i e' r'' hio
      simp only [Option.some.injEq, Prod.mk.injEq, Except.error.injEq] at h
      rw [← h.1]
      exact ioReadFull_error hio
    · simp at h
  · simp at h

/-- After a valid header `Read` ends in a panic, in a font, in the
character-table error or in the bitmap-data error. -/
theorem Read.data_cases (header : fileHeader) (r : List Nat) :
    Read.data header r = .panic ∨ (∃ f, Read.data header r = .ok f) ∨
      Read.data header r = .error "mbw.Read failed to read ´characters: EOF" ∨
      Read.data header r = .error "mbw.Read failed to read ´characters: unexpected EOF" ∨
      Read.data header r = .error "mbw.Read failed to read bitmap data: EOF" := by
  rw [Read.data]
  cases hm : makeUint64 (0 : Nat) header.LetterCount with
  | none => exact Or.inl rfl
  | some t =>
    cases hr : binaryReadUint32s r header.LetterCount with
    | none => exact Or.inl rfl
    | some res =>
      obtain ⟨res1, r1⟩ := res
      cases res1 with
      | error e =>
        rcases binaryReadUint32s_error hr with he | he
        · subst he; exact Or.inr (Or.inr (Or.inl rfl))
        · subst he; exact Or.inr (Or.inr (Or.inr (Or.inl rfl)))
      | ok runes =>
        simp only []
        cases hb : make (0 : Nat) (Int.tdiv (int (int (int (header.LetterCount : Int) *
            (header.FontWidth : Int)) * (header.FontHeight : Int))) 8) with
        | none => exact Or.inl rfl
        | some bits =>
          simp only []
          cases hrd : bytesReaderRead r1 bits with
          | mk bits1 rest =>
            obtain ⟨err, r2⟩ := rest
            cases err with
            | some e =>
              obtain ⟨he, -⟩ := bytesReaderRead_error hrd
              subst he
              exact Or.inr (Or.inr (Or.inr (Or.inr rfl)))
            | none =>
              simp only []
              cases hf : Read.fill bits1 runes 0
                  (NewFont (header.FontWidth : Int) (header.FontHeight : Int)) with
              | none => exact Or.inl rfl
              | some f => exact Or.inr (Or.inl ⟨f, rfl⟩)

/-! ## Claims on rejected streams -/

/-- C6: bad header rejection.  On a stream of at least sixteen bytes `Read`
fails with the header-validation error exactly when the first four bytes are
not "MBW1" or the little-endian width (bytes 4-5) is zero or the little-endian
height (bytes 6-7) is zero, whatever the letter count and the later bytes. -/
theorem C6_bad_header_rejected (s : List Nat) (h : 16 ≤ s.length) :
    Read s = .error "mbw.Read: unknown file header" ↔
      (s.take 4 ≠ [0x4D, 0x42, 0x57, 0x31] ∨ leValue ((s.drop 4).take 2) = 0 ∨
        leValue ((s.drop 6).take 2) = 0) := by
  rw [Read_of_le h]
  constructor
  · intro hr
    by_contra hbad
    rw [if_neg hbad] at hr
    rcases Read.data_cases _ (s.drop 16) with hc | ⟨f, hc⟩ | hc | hc | hc
    · rw [hc] at hr; cases hr
    · rw [hc] at hr; cases hr
    · rw [hc] at hr; revert hr; decide
    · rw [hc] at hr; revert hr; decide
    · rw [hc] at hr; revert hr; decide
  · intro hbad
    rw [if_pos hbad]

/-- Witness for C6: sixteen zero bytes. -/
theorem C6_bad_header_rejected_witness :
    16 ≤ (List.replicate 16 0).length ∧
      Read (List.replicate 16 0) = .error "mbw.Read: unknown file header" :=
  ⟨by decide, (C6_bad_header_rejected (List.replicate 16 0) (by decide)).mpr (by decide)⟩

/-- C7 fails on the code: the header announces one 8 x 2 letter (two bitmap
bytes) but the stream ends after one bitmap byte.  The single `r.Read(bits)`
returns the one byte without an error and `Read` returns a font whose second
row is left unset. -/
theorem C7_short_bitmap_accepted :
    Read [0x4D, 0x42, 0x57, 0x31, 8, 0, 2, 0, 1, 0, 0, 0, 0, 0, 0, 0, 65, 0, 0, 0, 255] =
      .ok { width := 8, height := 2,
            letters := [{ Rune := 65, width := 8, height := 2,
                          set := List.replicate 8 true ++ List.replicate 8 false }] } := by
  decide

theorem Read_of_lt {s : List Nat} (h : s.length < 16) :
    Read s = .error "mbw.Read failed to read header: EOF" ∨
      Read s = .error "mbw.Read failed to read header: unexpected EOF" := by
  obtain ⟨e, r', hio, he⟩ := ioReadFull_of_lt h
  have hh : binaryReadHeader s = (.error e, r') := by
    unfold binaryReadHeader
    rw [hio]
  unfold Read
  rw [hh]
  rcases he with he | he
  · subst he; exact Or.inl rfl
  · subst he; exact Or.inr rfl

theorem Read.data_of_short_table {header : fileHeader} {r : List Nat}
    (hn : 4 * header.LetterCount ≤ 9223372036854775807)
    (hr : r.length < 4 * header.LetterCount) :
    Read.data header r = .error "mbw.Read failed to read ´characters: EOF" ∨
      Read.data header r = .error "mbw.Read failed to read ´characters: unexpected EOF" := by
  obtain ⟨e, r', hio, he⟩ := ioReadFull_of_lt hr
  have hm : makeUint64 (0 : Nat) header.LetterCount =
      some (List.replicate header.LetterCount 0) := by
    unfold makeUint64
    rw [if_pos (by omega)]
  have hb : binaryReadUint32s r header.LetterCount = some (.error e, r') := by
    unfold binaryReadUint32s
    rw [if_pos hn, hio]
  rw [Read.data]
  simp only [hm, hb]
  rcases he with he | he
  · subst he; exact Or.inl rfl
  · subst he; exact Or.inr rfl

theorem Read.data_of_large_table {header : fileHeader} {r : List Nat}
    (hn : 9223372036854775807 < 4 * header.LetterCount) : Read.data header r = .panic := by
  have hb : binaryReadUint32s r header.LetterCount = none := by
    unfold binaryReadUint32s
    rw [if_neg (by omega)]
  rw [Read.data]
  cases hm : makeUint64 (0 : Nat) header.LetterCount with
  | none => rfl
  | some t => simp only [hb]

/-- C8 (as amended): truncated header or character table.  A stream shorter
than sixteen bytes fails with the header-read error.  A stream with a valid
header announcing `N` letters that is followed by fewer than `4 * N` bytes
never yields a font or another error: `Read` either panics in the allocation
of the table, which precedes the reading of the table, or fails with the
character-table read error.  It panics whenever `4 * N` exceeds `2^63 - 1`,
and it fails with the character-table read error whenever the `4 * N` table
bytes are no more than the stream itself holds (a byte slice, so its length
fits an `int`).  The header-read error, the
header-validation error, the character-table error and the bitmap-data error
are pairwise different whatever the underlying I/O error text is. -/
theorem C8_truncated_stream_rejected (s : List Nat) :
    (s.length < 16 →
      Read s = .error "mbw.Read failed to read header: EOF" ∨
        Read s = .error "mbw.Read failed to read header: unexpected EOF") ∧
    (16 ≤ s.length → s.take 4 = [0x4D, 0x42, 0x57, 0x31] →
      leValue ((s.drop 4).take 2) ≠ 0 → leValue ((s.drop 6).take 2) ≠ 0 →
      s.length - 16 < 4 * leValue ((s.drop 8).take 8) →
      (Read s = .panic ∨
        Read s = .error "mbw.Read failed to read ´characters: EOF" ∨
        Read s = .error "mbw.Read failed to read ´characters: unexpected EOF") ∧
      (9223372036854775807 < 4 * leValue ((s.drop 8).take 8) → Read s = .panic) ∧
      (4 * leValue ((s.drop 8).take 8) ≤ s.length → s.length ≤ 9223372036854775807 →
        Read s = .error "mbw.Read failed to read ´characters: EOF" ∨
          Read s = .error "mbw.Read failed to read ´characters: unexpected EOF")) ∧
    (∀ e1 e2 e3 : String,
      "mbw.Read failed to read header: " ++ e1 ≠ "mbw.Read: unknown file header" ∧
      "mbw.Read failed to read header: " ++ e1 ≠ "mbw.Read failed to read ´characters: " ++ e2 ∧
      "mbw.Read failed to read header: " ++ e1 ≠ "mbw.Read failed to read bitmap data: " ++ e3 ∧
      "mbw.Read failed to read ´characters: " ++ e2 ≠ "mbw.Read: unknown file header" ∧
      "mbw.Read failed to read ´characters: " ++ e2 ≠
        "mbw.Read failed to read bitmap data: " ++ e3 ∧
      "mbw.Read failed to read bitmap data: " ++ e3 ≠ "mbw.Read: unknown file header") := by
  refine ⟨Read_of_lt, ?_, ?_⟩
  · intro h16 hmagic hw hh hshort
    rw [Read_of_le h16, if_neg (by simp [hmagic, hw, hh])]
    have hshort' : (s.drop 16).length < 4 * leValue ((s.drop 8).take 8) := by
      simpa using hshort
    have herr : 4 * leValue ((s.drop 8).take 8) ≤ 9223372036854775807 →
        Read.data { Version := s.take 4
                    FontWidth := leValue ((s.drop 4).take 2)
                    FontHeight := leValue ((s.drop 6).take 2)
                    LetterCount := leValue ((s.drop 8).take 8) } (s.drop 16) =
            .error "mbw.Read failed to read ´characters: EOF" ∨
          Read.data { Version := s.take 4
                      FontWidth := leValue ((s.drop 4).take 2)
                      FontHeight := leValue ((s.drop 6).take 2)
                      LetterCount := leValue ((s.drop 8).take 8) } (s.drop 16) =
            .error "mbw.Read failed to read ´characters: unexpected EOF" :=
      fun hn => Read.data_of_short_table hn hshort'
    refine ⟨?_, fun hn => Read.data_of_large_table hn, ?_⟩
    · by_cases hn : 4 * leValue ((s.drop 8).take 8) ≤ 9223372036854775807
      · exact Or.inr (herr hn)
      · have hbig : 9223372036854775807 < 4 * leValue ((s.drop 8).take 8) := by omega
        exact Or.inl (Read.data_of_large_table hbig)
    · intro hle hlen
      exact herr (by omega)
  · intro e1 e2 e3
    simp [String.ext_iff]

/-- Witness for C8: the empty stream, and a valid header announcing one letter
with nothing after it. -/
theorem C8_truncated_stream_rejected_witness :
    (Read [] = .error "mbw.Read failed to read header: EOF" ∨
      Read [] = .error "mbw.Read failed to read header: unexpected EOF") ∧
    (Read [0x4D, 0x42, 0x57, 0x31, 1, 0, 1, 0, 1, 0, 0, 0, 0, 0, 0, 0] =
        .error "mbw.Read failed to read ´characters: EOF" ∨
      Read [0x4D, 0x42, 0x57, 0x31, 1, 0, 1, 0, 1, 0, 0, 0, 0, 0, 0, 0] =
        .error "mbw.Read failed to read ´characters: unexpected EOF") :=
  ⟨(C8_truncated_stream_rejected []).1 (by decide),
   ((C8_truncated_stream_rejected
      [0x4D, 0x42, 0x57, 0x31, 1, 0, 1, 0, 1, 0, 0, 0, 0, 0, 0, 0]).2.1
      (by decide) (by decide) (by decide) (by decide) (by decide)).2.2
      (by decide) (by decide)⟩

/-- C8 fails as stated: a valid header that announces `2^63` letters and is
followed by no byte at all.  `make([]uint32, header.LetterCount)` panics
before the character table is read, so `Read` ends in a panic and not in the
character-table read error. -/
theorem C8_counterexample :
    List.take 4 [0x4D, 0x42, 0x57, 0x31, 1, 0, 1, 0, 0, 0, 0, 0, 0, 0, 0, 128] =
      [0x4D, 0x42, 0x57, 0x31] ∧
    leValue [1, 0] ≠ 0 ∧
    leValue [0, 0, 0, 0, 0, 0, 0, 128] = 9223372036854775808 ∧
    Read [0x4D, 0x42, 0x57, 0x31, 1, 0, 1, 0, 0, 0, 0, 0, 0, 0, 0, 128] = .panic := by
  decide

/-! ## Little-endian encoding -/

theorem length_leBytes (k v : Nat) : (leBytes k v).length = k := by
  induction k generalizing v with
  | zero => rfl
  | succ k ih => simp [leBytes, ih]

theorem leValue_leBytes (k v : Nat) : leValue (leBytes k v) = v % 256 ^ k := by
  induction k generalizing v with
  | zero => simp [leBytes, leValue, Nat.mod_one]
  | succ k ih =>
    simp only [leBytes, leValue, ih]
    rw [pow_succ, Nat.mul_comm (256 ^ k) 256, Nat.mod_mul]

theorem leBytes_lt (k v : Nat) : ∀ b ∈ leBytes k v, b < 256 := by
  induction k generalizing v with
  | zero => simp [leBytes]
  | succ k ih =>
    intro b hb
    simp only [leBytes, List.mem_cons] at hb
    rcases hb with hb | hb
    · omega
    · exact ih _ b hb

theorem length_binaryWriteUint32s (us : List Nat) :
    (binaryWriteUint32s us).length = 4 * us.length := by
  induction us with
  | nil => rfl
  | cons u rest ih =>
    simp only [binaryWriteUint32s, List.length_append, length_leBytes, ih, List.length_cons]
    omega

/-- Decoding the character table that `binary.Write` produced gives the table back, modulo
`2^32` entry by entry, whatever follows it. -/
theorem decodeUint32s_binaryWriteUint32s (us tail : List Nat) :
    decodeUint32s us.length (binaryWriteUint32s us ++ tail) = us.map (· % 4294967296) := by
  induction us with
  | nil => rfl
  | cons u rest ih =>
    have h4 : (leBytes 4 u).length = 4 := length_leBytes 4 u
    simp only [binaryWriteUint32s, List.length_cons, decodeUint32s, List.append_assoc,
      List.map_cons]
    rw [List.take_append_of_le_length (by omega), List.drop_append_of_le_length (by omega)]
    rw [List.take_of_length_le (by omega), List.drop_of_length_le (by omega : (leBytes 4 u).length ≤ 4)]
    rw [leValue_leBytes, List.nil_append, ih]
    norm_num

theorem uint16_of_range {z : Int} (h0 : 0 ≤ z) (h1 : z ≤ 65535) : (uint16 z : Int) = z := by
  unfold uint16; omega

theorem uint64_of_range {z : Int} (h0 : 0 ≤ z) (h1 : z ≤ 18446744073709551615) :
    (uint64 z : Int) = z := by
  unfold uint64; omega

theorem uint32_lt (z : Int) : uint32 z < 4294967296 := by
  unfold uint32; omega

theorem rune_uint32 {r : Int} (h0 : -2147483648 ≤ r) (h1 : r ≤ 2147483647) :
    rune (uint32 r) = r := by
  unfold rune uint32; omega

/-! ## Bits -/

theorem mask_eq_two_pow {a : Nat} (h : a < 8) : 0x80 >>> a = 2 ^ (7 - a) := by
  interval_cases a <;> rfl

theorem and_two_pow_ne_zero (b i : Nat) : b &&& 2 ^ i ≠ 0 ↔ b.testBit i = true := by
  rw [Nat.and_two_pow]
  cases b.testBit i <;> simp

/-- Testing bit `j` of a byte into which bit `a` was or-ed. -/
theorem or_mask_and_mask (b : Nat) {a j : Nat} (ha : a < 8) (hj : j < 8) :
    (b ||| 0x80 >>> a) &&& 0x80 >>> j ≠ 0 ↔ b &&& 0x80 >>> j ≠ 0 ∨ a = j := by
  rw [mask_eq_two_pow ha, mask_eq_two_pow hj, and_two_pow_ne_zero, and_two_pow_ne_zero,
    Nat.testBit_or, Nat.testBit_two_pow]
  simp only [Bool.or_eq_true, decide_eq_true_eq]
  constructor
  · rintro (h | h)
    · exact Or.inl h
    · exact Or.inr (by omega)
  · rintro (h | h)
    · exact Or.inl h
    · exact Or.inr (by omega)

theorem mask_of_nat (n : Nat) : mask (n : Int) = 0x80 >>> (n % 8) := by
  unfold mask uint64
  have h : Int.tmod (n : Int) 8 = ((n % 8 : Nat) : Int) := by
    rw [Int.tmod_eq_emod (by omega) (by omega)]
    omega
  rw [h]
  congr 1
  omega

theorem tdiv_of_nat (n : Nat) : Int.tdiv (n : Int) 8 = ((n / 8 : Nat) : Int) := by
  rw [Int.tdiv_eq_ediv (by omega) (by omega)]
  omega

theorem bitSet_replicate_zero (k n : Nat) : ¬ bitSet (List.replicate k 0) n := by
  unfold bitSet
  have : (List.replicate k 0).getD (n / 8) 0 = 0 := by
    rw [List.getD_eq_getElem?_getD, List.getElem?_replicate]
    split <;> rfl
  rw [this]
  simp

/-- The statement `bits[n/8] |= 0x80 >> uint(n%8)` for an index inside the buffer: bit `n`
becomes set and no other bit changes. -/
theorem Write.orBit_spec (bits : List Nat) (n : Nat) (hn : n / 8 < bits.length) :
    ∃ bits', Write.orBit bits (n : Int) = some bits' ∧ bits'.length = bits.length ∧
      ∀ m, bitSet bits' m ↔ bitSet bits m ∨ m = n := by
  have hidx : index bits (Int.tdiv (n : Int) 8) = some (bits.getD (n / 8) 0) := by
    rw [tdiv_of_nat, index_eq_getElem? _ (Int.ofNat_nonneg _), Int.toNat_ofNat,
      List.getD_eq_getElem?_getD, List.getElem?_eq_getElem hn]
    rfl
  have hasg : ∀ v, assign bits (Int.tdiv (n : Int) 8) v = some (bits.set (n / 8) v) := by
    intro v
    rw [tdiv_of_nat]
    unfold assign
    rw [if_pos ⟨Int.ofNat_nonneg _, by omega⟩, Int.toNat_ofNat]
  refine ⟨_, by rw [Write.orBit, hidx]; exact hasg _, by simp, ?_⟩
  intro m
  unfold bitSet
  rw [mask_of_nat]
  by_cases hm : m / 8 = n / 8
  · have hget : (bits.set (n / 8) (bits.getD (n / 8) 0 ||| 0x80 >>> (n % 8))).getD (m / 8) 0 =
        bits.getD (n / 8) 0 ||| 0x80 >>> (n % 8) := by
      rw [hm, List.getD_eq_getElem?_getD, List.getElem?_set]
      simp [hn]
    rw [hget, or_mask_and_mask _ (Nat.mod_lt _ (by omega)) (Nat.mod_lt _ (by omega)), hm]
    constructor
    · rintro (h | h)
      · exact Or.inl h
      · exact Or.inr (by omega)
    · rintro (h | h)
      · exact Or.inl h
      · exact Or.inr (by omega)
  · have hget : (bits.set (n / 8) (bits.getD (n / 8) 0 ||| 0x80 >>> (n % 8))).getD (m / 8) 0 =
        bits.getD (m / 8) 0 := by
      rw [List.getD_eq_getElem?_getD, List.getElem?_set, if_neg (by omega),
        ← List.getD_eq_getElem?_getD]
    rw [hget]
    constructor
    · exact Or.inl
    · rintro (h | h)
      · exact h
      · exact absurd (by rw [h]) hm

/-! ## Loops -/

/-- A loop whose every step keeps an invariant and adds the points `S a` to an observed set
keeps the invariant and adds the points of all its steps. -/
theorem foldlM_effect {σ α : Type} (Inv : σ → Prop) (obs : σ → Nat → Prop)
    (F : σ → α → Option σ) (S : α → Nat → Prop) (l : List α)
    (hF : ∀ a ∈ l, ∀ s, Inv s →
      ∃ s', F s a = some s' ∧ Inv s' ∧ ∀ m, obs s' m ↔ obs s m ∨ S a m) :
    ∀ s, Inv s →
      ∃ s', l.foldlM F s = some s' ∧ Inv s' ∧ ∀ m, obs s' m ↔ obs s m ∨ ∃ a ∈ l, S a m := by
  induction l with
  | nil =>
    intro s hs
    exact ⟨s, rfl, hs, by simp⟩
  | cons a rest ih =>
    intro s hs
    obtain ⟨s1, h1, hs1, ho1⟩ := hF a (List.mem_cons_self _ _) s hs
    obtain ⟨s2, h2, hs2, ho2⟩ :=
      ih (fun b hb => hF b (List.mem_cons_of_mem _ hb)) s1 hs1
    refine ⟨s2, ?_, hs2, ?_⟩
    · rw [List.foldlM_cons, h1]
      exact h2
    · intro m
      rw [ho2, ho1]
      simp only [List.mem_cons, exists_eq_or_imp]
      tauto

/-! ## The global bit index -/

/-- Inside a font of `N` letters whose `N * W * H` pixels fit an `int`, the global bit index is
computed without wrap-around and is below the pixel count. -/
theorem bitIndex_eq {font : Font} {W H N : Nat} (hW : font.width = W) (hH : font.height = H)
    (hfit : N * W * H ≤ 9223372036854775807) {i y x : Nat} (hi : i < N) (hy : y < H)
    (hx : x < W) :
    bitIndex font i y x = ((i * W * H + y * W + x : Nat) : Int) ∧
      i * W * H + y * W + x < N * W * H := by
  have h1 : i * W ≤ i * W * H := Nat.le_mul_of_pos_right _ (by omega)
  have h2 : y * W + W ≤ H * W := by
    have : (y + 1) * W ≤ H * W := Nat.mul_le_mul_right _ (by omega)
    rw [Nat.succ_mul] at this
    exact this
  have h3 : i * W * H + W * H ≤ N * W * H := by
    have : (i + 1) * (W * H) ≤ N * (W * H) := Nat.mul_le_mul_right _ (by omega)
    rw [Nat.succ_mul, ← Nat.mul_assoc, ← Nat.mul_assoc] at this
    exact this
  have h4 : H * W = W * H := Nat.mul_comm _ _
  refine ⟨?_, by omega⟩
  unfold bitIndex
  rw [hW, hH]
  have e1 : int ((i : Int) * (W : Int)) = ((i * W : Nat) : Int) := by
    rw [← Nat.cast_mul]
    exact int_eq_self (by omega) (by omega)
  have e2 : int (((i * W : Nat) : Int) * (H : Int)) = ((i * W * H : Nat) : Int) := by
    rw [← Nat.cast_mul]
    exact int_eq_self (by omega) (by omega)
  have e3 : int ((y : Int) * (W : Int)) = ((y * W : Nat) : Int) := by
    rw [← Nat.cast_mul]
    exact int_eq_self (by omega) (by omega)
  have e4 : int (((i * W * H : Nat) : Int) + ((y * W : Nat) : Int)) =
      ((i * W * H + y * W : Nat) : Int) := by
    rw [← Nat.cast_add]
    exact int_eq_self (by omega) (by omega)
  have e5 : int (((i * W * H + y * W : Nat) : Int) + (x : Int)) =
      ((i * W * H + y * W + x : Nat) : Int) := by
    rw [← Nat.cast_add]
    exact int_eq_self (by omega) (by omega)
  rw [e1, e2, e3, e4, e5]

/-- The global bit index determines the letter and the pixel. -/
theorem bitIndex_inj {W H : Nat} {i y x j v u : Nat} (hy : y < H) (hx : x < W) (hv : v < H)
    (hu : u < W) (h : i * W * H + y * W + x = j * W * H + v * W + u) :
    i = j ∧ y = v ∧ x = u := by
  have hWpos : 0 < W := by omega
  have e1 : ∀ a b c : Nat, c < W → (a * W * H + b * W + c) % W = c := by
    intro a b c hc
    have : a * W * H + b * W + c = c + W * (a * H + b) := by ring
    rw [this, Nat.add_mul_mod_self_left, Nat.mod_eq_of_lt hc]
  have e2 : ∀ a b c : Nat, c < W → (a * W * H + b * W + c) / W = a * H + b := by
    intro a b c hc
    have : a * W * H + b * W + c = c + W * (a * H + b) := by ring
    rw [this, Nat.add_mul_div_left _ _ hWpos, Nat.div_eq_of_lt hc, Nat.zero_add]
  have hx' : x = u := by
    have := congrArg (· % W) h
    simp only [e1 _ _ _ hx, e1 _ _ _ hu] at this
    exact this
  have hq : i * H + y = j * H + v := by
    have := congrArg (· / W) h
    simp only [e2 _ _ _ hx, e2 _ _ _ hu] at this
    exact this
  have hy' : y = v := by
    have := congrArg (· % H) hq
    simp only [Nat.add_comm (_ * H), Nat.add_mul_mod_self_right, Nat.mod_eq_of_lt hy,
      Nat.mod_eq_of_lt hv] at this
    exact this
  have hi' : i = j := by
    subst hy'
    have : i * H = j * H := by omega
    exact Nat.eq_of_mul_eq_mul_right (by omega) this
  exact ⟨hi', hy', hx'⟩

/-- A pixel inside a letter of size `W × H`, with natural coordinates. -/
theorem Letter.At_nat {l : Letter} {W H : Nat} (hl : l.Sized W H)
    (hfit : W * H ≤ 9223372036854775807) {x y : Nat} (hx : x < W) (hy : y < H) :
    l.At x y = l.set[x + y * W]? ∧ x + y * W < l.set.length := by
  have hfit' : (W : Int) * (H : Int) ≤ 9223372036854775807 := by
    rw [← Nat.cast_mul]; omega
  obtain ⟨e, hlt⟩ := Letter.At_of_inside hl hfit' (x := x) (y := y)
    (by omega) (by omega) (by omega) (by omega)
  have hc : ((x : Int) + (y : Int) * (W : Int)).toNat = x + y * W := by
    rw [← Nat.cast_mul, ← Nat.cast_add, Int.toNat_ofNat]
  rw [hc] at e hlt
  exact ⟨e, hlt⟩

/-! ## Writing: the bitmap loops -/

/-- The pixel step of `Write`: the bit of pixel `(x, y)` of letter `i` is or-ed in exactly when
the pixel is set. -/
theorem Write.pixel_spec {font : Font} {W H N : Nat} (hW : font.width = W)
    (hH : font.height = H) (hfit : N * W * H ≤ 9223372036854775807) {l : Letter}
    (hl : l.Sized W H) {i y x : Nat} (hi : i < N) (hy : y < H) (hx : x < W)
    {bits : List Nat} (hlen : N * W * H ≤ 8 * bits.length) :
    ∃ bits', Write.pixel font i l y x bits = some bits' ∧ bits'.length = bits.length ∧
      ∀ m, bitSet bits' m ↔
        bitSet bits m ∨ (l.At x y = some true ∧ m = i * W * H + y * W + x) := by
  obtain ⟨hn, hlt⟩ := bitIndex_eq hW hH hfit hi hy hx
  have hWH : W * H ≤ 9223372036854775807 := by
    have : 1 * (W * H) ≤ N * (W * H) := Nat.mul_le_mul_right _ (by omega)
    rw [Nat.one_mul, ← Nat.mul_assoc] at this
    omega
  obtain ⟨hat, hin⟩ := Letter.At_nat hl hWH hx hy
  rw [List.getElem?_eq_getElem hin] at hat
  unfold Write.pixel
  rw [hn]
  cases hb : l.set[x + y * W] with
  | false =>
    rw [hb] at hat
    rw [hat]
    exact ⟨bits, rfl, rfl, by simp⟩
  | true =>
    rw [hb] at hat
    rw [hat]
    obtain ⟨bits', h1, h2, h3⟩ :=
      Write.orBit_spec bits (i * W * H + y * W + x) (by omega)
    exact ⟨bits', h1, h2, by simpa using h3⟩

/-- The row loop of `Write`. -/
theorem Write.row_spec {font : Font} {W H N : Nat} (hW : font.width = W)
    (hH : font.height = H) (hfit : N * W * H ≤ 9223372036854775807) {l : Letter}
    (hl : l.Sized W H) {i y : Nat} (hi : i < N) (hy : y < H)
    {bits : List Nat} (hlen : N * W * H ≤ 8 * bits.length) :
    ∃ bits', Write.row font i l y bits = some bits' ∧ bits'.length = bits.length ∧
      ∀ m, bitSet bits' m ↔
        bitSet bits m ∨ ∃ x, x < W ∧ l.At x y = some true ∧ m = i * W * H + y * W + x := by
  have key := foldlM_effect (fun b : List Nat => b.length = bits.length) bitSet
    (fun b x => Write.pixel font i l y x b)
    (fun x m => l.At x y = some true ∧ m = i * W * H + y * W + x) (List.range W)
    (by
      intro x hx b hb
      obtain ⟨b', h1, h2, h3⟩ := Write.pixel_spec hW hH hfit hl hi hy
        (List.mem_range.mp hx) (show N * W * H ≤ 8 * b.length by omega)
      exact ⟨b', h1, by omega, h3⟩)
    bits rfl
  obtain ⟨bits', h1, h2, h3⟩ := key
  refine ⟨bits', ?_, h2, ?_⟩
  · unfold Write.row
    rw [hW, Int.toNat_ofNat]
    exact h1
  · intro m
    rw [h3]
    simp only [List.mem_range]

/-- The loop over the rows of one letter in `Write`. -/
theorem Write.rows_spec {font : Font} {W H N : Nat} (hW : font.width = W)
    (hH : font.height = H) (hfit : N * W * H ≤ 9223372036854775807) {l : Letter}
    (hl : l.Sized W H) {i : Nat} (hi : i < N)
    {bits : List Nat} (hlen : N * W * H ≤ 8 * bits.length) :
    ∃ bits', Write.rows font i l bits = some bits' ∧ bits'.length = bits.length ∧
      ∀ m, bitSet bits' m ↔
        bitSet bits m ∨
          ∃ y x, y < H ∧ x < W ∧ l.At x y = some true ∧ m = i * W * H + y * W + x := by
  have key := foldlM_effect (fun b : List Nat => b.length = bits.length) bitSet
    (fun b y => Write.row font i l y b)
    (fun y m => ∃ x, x < W ∧ l.At x y = some true ∧ m = i * W * H + y * W + x)
    (List.range H)
    (by
      intro y hy b hb
      obtain ⟨b', h1, h2, h3⟩ := Write.row_spec hW hH hfit hl hi
        (List.mem_range.mp hy) (show N * W * H ≤ 8 * b.length by omega)
      exact ⟨b', h1, by omega, h3⟩)
    bits rfl
  obtain ⟨bits', h1, h2, h3⟩ := key
  refine ⟨bits', ?_, h2, ?_⟩
  · unfold Write.rows
    rw [hH, Int.toNat_ofNat]
    exact h1
  · intro m
    rw [h3]
    simp only [List.mem_range]
    constructor
    · rintro (h | ⟨y, hy, x, hx, h⟩)
      · exact Or.inl h
      · exact Or.inr ⟨y, x, hy, hx, h⟩
    · rintro (h | ⟨y, x, hy, hx, h⟩)
      · exact Or.inl h
      · exact Or.inr ⟨y, hy, x, hx, h⟩

/-- The loop over the letters in `Write`: the buffer keeps its length and receives exactly the
bits of the set pixels. -/
theorem Write.fill_spec {font : Font} {W H N : Nat} (hW : font.width = W)
    (hH : font.height = H) (hfit : N * W * H ≤ 9223372036854775807) :
    ∀ (ls : List Letter) (i : Nat) (bits : List Nat), (∀ l ∈ ls, l.Sized W H) →
      i + ls.length ≤ N → N * W * H ≤ 8 * bits.length →
      ∃ bits', Write.fill font ls i bits = some bits' ∧ bits'.length = bits.length ∧
        ∀ m, bitSet bits' m ↔
          bitSet bits m ∨
            ∃ j y x l, ls[j]? = some l ∧ y < H ∧ x < W ∧ l.At x y = some true ∧
              m = (i + j) * W * H + y * W + x := by
  intro ls
  induction ls with
  | nil =>
    intro i bits _ _ _
    exact ⟨bits, rfl, rfl, by simp⟩
  | cons l rest ih =>
    intro i bits hs hN hlen
    obtain ⟨b1, h1, hl1, ho1⟩ := Write.rows_spec hW hH hfit
      (hs l (List.mem_cons_self _ _)) (i := i) (by simp at hN; omega) hlen
    obtain ⟨b2, h2, hl2, ho2⟩ := ih (i + 1) b1
      (fun a ha => hs a (List.mem_cons_of_mem _ ha)) (by simp at hN; omega) (by omega)
    refine ⟨b2, ?_, by omega, ?_⟩
    · simp only [Write.fill, h1]
      exact h2
    · intro m
      rw [ho2, ho1]
      constructor
      · rintro ((h | ⟨y, x, hy, hx, hat, hm⟩) | ⟨j, y, x, a, ha, hy, hx, hat, hm⟩)
        · exact Or.inl h
        · exact Or.inr ⟨0, y, x, l, by simp, hy, hx, hat, by simpa using hm⟩
        · exact Or.inr ⟨j + 1, y, x, a, by simpa using ha, hy, hx, hat, by
            rw [hm]; ring⟩
      · rintro (h | ⟨j, y, x, a, ha, hy, hx, hat, hm⟩)
        · exact Or.inl (Or.inl h)
        · cases j with
          | zero =>
            simp only [List.getElem?_cons_zero, Option.some.injEq] at ha
            subst ha
            exact Or.inl (Or.inr ⟨y, x, hy, hx, hat, by simpa using hm⟩)
          | succ j =>
            simp only [List.getElem?_cons_succ] at ha
            exact Or.inr ⟨j, y, x, a, ha, hy, hx, hat, by rw [hm]; ring⟩

/-! ## Writing: the layout of the output -/

theorem foldlM_length {α : Type} (F : List Nat → α → Option (List Nat)) (l : List α)
    (hF : ∀ b a b', F b a = some b' → b'.length = b.length) :
    ∀ b b', l.foldlM F b = some b' → b'.length = b.length := by
  induction l with
  | nil =>
    intro b b' h
    simp only [List.foldlM_nil, Option.pure_def, Option.some.injEq] at h
    rw [h]
  | cons a rest ih =>
    intro b b' h
    rw [List.foldlM_cons] at h
    cases h1 : F b a with
    | none => simp [h1] at h
    | some b1 =>
      rw [h1] at h
      have := ih b1 b' h
      rw [this, hF b a b1 h1]

theorem Write.orBit_length {bits bits' : List Nat} {n : Int}
    (h : Write.orBit bits n = some bits') : bits'.length = bits.length := by
  unfold Write.orBit at h
  cases hi : index bits (Int.tdiv n 8) with
  | none => simp [hi] at h
  | some b =>
    simp only [hi] at h
    unfold assign at h
    split at h
    · simp only [Option.some.injEq] at h
      rw [← h]
      simp
    · simp at h

theorem Write.pixel_length {font : Font} {i y x : Nat} {l : Letter} {bits bits' : List Nat}
    (h : Write.pixel font i l y x bits = some bits') : bits'.length = bits.length := by
  unfold Write.pixel at h
  cases ha : l.At x y with
  | none => simp [ha] at h
  | some v =>
    cases v with
    | false =>
      simp only [ha, Option.some.injEq] at h
      rw [h]
    | true =>
      simp only [ha] at h
      exact Write.orBit_length h

theorem Write.fill_length {font : Font} :
    ∀ (ls : List Letter) (i : Nat) (bits bits' : List Nat),
      Write.fill font ls i bits = some bits' → bits'.length = bits.length := by
  intro ls
  induction ls with
  | nil =>
    intro i bits bits' h
    simp only [Write.fill, Option.some.injEq] at h
    rw [h]
  | cons l rest ih =>
    intro i bits bits' h
    cases h1 : Write.rows font i l bits with
    | none => simp [Write.fill, h1] at h
    | some b1 =>
      simp only [Write.fill, h1] at h
      rw [ih (i + 1) b1 bits' h]
      exact foldlM_length _ _
        (fun b y b' hb => foldlM_length _ _ (fun b x b' hb => Write.pixel_length hb) b b' hb)
        bits b1 h1

/-- The length of the bitmap buffer `Write` allocates when the pixel count fits an `int`. -/
theorem bitmap_length {N W H : Nat} (hfit : N * W * H ≤ 9223372036854775807) :
    Int.tdiv (int (int ((N : Int) * (W : Int)) * (H : Int))) 8 = ((N * W * H / 8 : Nat) : Int) := by
  have h1 : W = 0 ∨ N * W ≤ N * W * H ∨ H = 0 := by
    rcases Nat.eq_zero_or_pos H with h | h
    · exact Or.inr (Or.inr h)
    · exact Or.inr (Or.inl (Nat.le_mul_of_pos_right _ h))
  have h2 : H = 0 → N * W * H = 0 := by intro h; rw [h]; simp
  have e1 : int ((N : Int) * (W : Int)) * (H : Int) = ((N * W * H : Nat) : Int) := by
    rcases Nat.eq_zero_or_pos H with h | h
    · subst h; simp
    · have : N * W ≤ N * W * H := Nat.le_mul_of_pos_right _ h
      rw [← Nat.cast_mul, int_eq_self (by omega) (by omega), ← Nat.cast_mul]
  rw [e1, int_eq_self (by omega) (by omega), tdiv_of_nat]

/-- The shape of the output of a `Write` that ends without panic. -/
theorem Write_ok {font : Font} {out : List Nat} (h : Write font = (out, .ok ())) :
    ∃ bits0 bits,
      make (0 : Nat) (Int.tdiv (int (int ((font.letters.length : Int) * font.width) *
        font.height)) 8) = some bits0 ∧
      Write.fill font font.letters 0 bits0 = some bits ∧
      out = ([0x4D, 0x42, 0x57, 0x31] ++ leBytes 2 (uint16 font.width) ++
        leBytes 2 (uint16 font.height) ++ leBytes 8 (uint64 font.letters.length)) ++
        binaryWriteUint32s (font.letters.map fun l => uint32 l.Rune) ++ bits := by
  unfold Write at h
  simp only [binaryWriteHeader] at h
  cases hm : make (0 : Nat) (Int.tdiv (int (int ((font.letters.length : Int) * font.width) *
      font.height)) 8) with
  | none =>
    rw [hm] at h
    simp at h
  | some bits0 =>
    rw [hm] at h
    simp only [] at h
    cases hf : Write.fill font font.letters 0 bits0 with
    | none =>
      rw [hf] at h
      simp at h
    | some bits =>
      rw [hf] at h
      simp only [Prod.mk.injEq, and_true] at h
      exact ⟨bits0, bits, rfl, hf, h.symm⟩

theorem Write_of_fill {font : Font} {bits0 bits : List Nat}
    (hm : make (0 : Nat) (Int.tdiv (int (int ((font.letters.length : Int) * font.width) *
        font.height)) 8) = some bits0)
    (hf : Write.fill font font.letters 0 bits0 = some bits) :
    Write font = (([0x4D, 0x42, 0x57, 0x31] ++ leBytes 2 (uint16 font.width) ++
        leBytes 2 (uint16 font.height) ++ leBytes 8 (uint64 font.letters.length)) ++
        binaryWriteUint32s (font.letters.map fun l => uint32 l.Rune) ++ bits, .ok ()) := by
  unfold Write
  simp only [binaryWriteHeader]
  rw [hm]
  simp only []
  rw [hf]

/-- The `i`-th group of four bytes of an encoded character table. -/
theorem binaryWriteUint32s_group (us tail : List Nat) (i u : Nat) (h : us[i]? = some u) :
    ((binaryWriteUint32s us ++ tail).drop (4 * i)).take 4 = leBytes 4 u := by
  induction us generalizing i with
  | nil => simp at h
  | cons a rest ih =>
    have h4 : (leBytes 4 a).length = 4 := length_leBytes 4 a
    cases i with
    | zero =>
      simp only [List.getElem?_cons_zero, Option.some.injEq] at h
      subst h
      simp only [binaryWriteUint32s, Nat.mul_zero, List.drop_zero, List.append_assoc]
      exact List.take_left' h4
    | succ i =>
      simp only [List.getElem?_cons_succ] at h
      simp only [binaryWriteUint32s, List.append_assoc]
      have : 4 * (i + 1) = 4 + 4 * i := by ring
      rw [this, ← List.drop_drop, List.drop_left' h4]
      exact ih i h

theorem binaryWriteUint32s_lt (us : List Nat) : ∀ b ∈ binaryWriteUint32s us, b < 256 := by
  induction us with
  | nil => simp [binaryWriteUint32s]
  | cons u rest ih =>
    intro b hb
    simp only [binaryWriteUint32s, List.mem_append] at hb
    rcases hb with hb | hb
    · exact leBytes_lt _ _ b hb
    · exact ih b hb

/-! ## Claims on the output of `Write` -/

/-- C4: header and character table on encode.  For a font with
`1 ≤ width, height ≤ 65535` and `N` letters (the `N * width * height`
pixels fitting an `int`) on which `Write` succeeds, the output starts with the
bytes of "MBW1", then the width and the height as 16-bit little-endian
integers and `N` as a 64-bit little-endian integer, then `N` 32-bit
little-endian integers of which the `i`-th is `uint32` of the rune of
`letters[i]`; these `16 + 4 * N` bytes are bytes, and the total length is
`16 + 4 * N + N * width * height / 8`. -/
theorem C4_write_header_and_table (font : Font) (out : List Nat)
    (hw1 : 1 ≤ font.width) (hw2 : font.width ≤ 65535)
    (hh1 : 1 ≤ font.height) (hh2 : font.height ≤ 65535)
    (hfit : (font.letters.length : Int) * font.width * font.height ≤ 9223372036854775807)
    (hok : Write font = (out, .ok ())) :
    out.take 4 = [0x4D, 0x42, 0x57, 0x31] ∧
    (leValue ((out.drop 4).take 2) : Int) = font.width ∧
    (leValue ((out.drop 6).take 2) : Int) = font.height ∧
    leValue ((out.drop 8).take 8) = font.letters.length ∧
    (∀ i l, font.letters[i]? = some l →
      leValue ((out.drop (16 + 4 * i)).take 4) = uint32 l.Rune) ∧
    (∀ b ∈ out.take (16 + 4 * font.letters.length), b < 256) ∧
    (out.length : Int) =
      16 + 4 * (font.letters.length : Int) +
        (font.letters.length : Int) * font.width * font.height / 8 := by
  obtain ⟨W, hW⟩ : ∃ W : Nat, font.width = W := ⟨font.width.toNat, by omega⟩
  obtain ⟨H, hH⟩ : ∃ H : Nat, font.height = H := ⟨font.height.toNat, by omega⟩
  have hfitN : font.letters.length * W * H ≤ 9223372036854775807 := by
    rw [hW, hH] at hfit
    exact_mod_cast hfit
  have hN : font.letters.length ≤ 9223372036854775807 := by
    have h1 : font.letters.length * 1 ≤ font.letters.length * W :=
      Nat.mul_le_mul_left _ (by omega)
    have h2 : font.letters.length * W * 1 ≤ font.letters.length * W * H :=
      Nat.mul_le_mul_left _ (by omega)
    omega
  obtain ⟨bits0, bits, hm, hf, hout⟩ := Write_ok hok
  have hlen : bits.length = font.letters.length * W * H / 8 := by
    rw [Write.fill_length _ _ _ _ hf]
    rw [hW, hH, bitmap_length hfitN] at hm
    unfold make at hm
    rw [if_pos (Int.ofNat_nonneg _)] at hm
    simp only [Option.some.injEq] at hm
    rw [← hm, List.length_replicate, Int.toNat_ofNat]
  have e16 : uint16 font.width = W := by
    have := uint16_of_range (z := font.width) (by omega) hw2
    omega
  have e16h : uint16 font.height = H := by
    have := uint16_of_range (z := font.height) (by omega) hh2
    omega
  have e64 : uint64 (font.letters.length : Int) = font.letters.length := by
    have := uint64_of_range (z := (font.letters.length : Int)) (by omega) (by omega)
    omega
  rw [e16, e16h, e64] at hout
  have hA : ([0x4D, 0x42, 0x57, 0x31] : List Nat).length = 4 := rfl
  have hB : (leBytes 2 W).length = 2 := length_leBytes 2 W
  have hC : (leBytes 2 H).length = 2 := length_leBytes 2 H
  have hD : (leBytes 8 font.letters.length).length = 8 := length_leBytes 8 _
  have hT : (binaryWriteUint32s (font.letters.map fun l => uint32 l.Rune)).length =
      4 * font.letters.length := by
    rw [length_binaryWriteUint32s, List.length_map]
  have hpre : (([0x4D, 0x42, 0x57, 0x31] : List Nat) ++ leBytes 2 W ++ leBytes 2 H ++
      leBytes 8 font.letters.length).length = 16 := by
    simp only [List.length_append, hB, hC, hD, hA]
  subst hout
  refine ⟨?_, ?_, ?_, ?_, ?_, ?_, ?_⟩
  · simp only [List.append_assoc]
    exact List.take_left' hA
  · simp only [List.append_assoc]
    rw [List.drop_left' hA, List.take_left' hB, leValue_leBytes, hW]
    norm_cast
    omega
  · simp only [List.append_assoc]
    rw [← List.append_assoc, List.drop_left' (by simp only [List.length_append, hA, hB]),
      List.take_left' hC, leValue_leBytes, hH]
    norm_cast
    omega
  · simp only [List.append_assoc]
    rw [← List.append_assoc, ← List.append_assoc,
      List.drop_left' (by simp only [List.length_append, hA, hB, hC]),
      List.take_left' hD, leValue_leBytes]
    norm_num
    omega
  · intro i l hl
    rw [List.append_assoc, ← List.drop_drop, List.drop_left' hpre]
    rw [binaryWriteUint32s_group _ _ i (uint32 l.Rune) (by simp [hl]), leValue_leBytes]
    have := uint32_lt l.Rune
    norm_num
    omega
  · intro b hb
    rw [List.take_left' (by simp only [List.length_append, hpre, hT])] at hb
    simp only [List.mem_append, List.mem_cons, List.mem_singleton, List.not_mem_nil,
      or_false] at hb
    rcases hb with (((hb | hb) | hb) | hb) | hb
    · rcases hb with hb | hb | hb | hb <;> omega
    · exact leBytes_lt _ _ b hb
    · exact leBytes_lt _ _ b hb
    · exact leBytes_lt _ _ b hb
    · exact binaryWriteUint32s_lt _ b hb
  · simp only [List.length_append, hpre, hT, hlen, hW, hH]
    push_cast
    rfl

/-- Witness for C4: the font of the test. -/
theorem C4_write_header_and_table_witness :
    Write testFont = ((Write testFont).1, .ok ()) ∧
      List.take 4 (Write testFont).1 = [0x4D, 0x42, 0x57, 0x31] :=
  ⟨by decide,
   (C4_write_header_and_table testFont (Write testFont).1 (by decide) (by decide) (by decide)
      (by decide) (by decide) (by decide)).1⟩

/-- The output of `Write` on a font of positive size whose letters all have the font's size and
whose pixel count is a multiple of eight that fits an `int`: header, character table and a
bitmap holding exactly the bits of the set pixels. -/
theorem Write_spec {font : Font} {W H : Nat} (hW : font.width = W) (hH : font.height = H)
    (hs : ∀ l ∈ font.letters, l.Sized W H)
    (hfit : font.letters.length * W * H ≤ 9223372036854775807)
    (h8 : font.letters.length * W * H % 8 = 0) :
    ∃ bits,
      Write font = (([0x4D, 0x42, 0x57, 0x31] ++ leBytes 2 (uint16 font.width) ++
        leBytes 2 (uint16 font.height) ++ leBytes 8 (uint64 font.letters.length)) ++
        binaryWriteUint32s (font.letters.map fun l => uint32 l.Rune) ++ bits, .ok ()) ∧
      8 * bits.length = font.letters.length * W * H ∧
      ∀ m, bitSet bits m ↔
        ∃ j y x l, font.letters[j]? = some l ∧ y < H ∧ x < W ∧ l.At x y = some true ∧
          m = j * W * H + y * W + x := by
  have hm : make (0 : Nat) (Int.tdiv (int (int ((font.letters.length : Int) * font.width) *
      font.height)) 8) = some (List.replicate (font.letters.length * W * H / 8) 0) := by
    rw [hW, hH, bitmap_length hfit]
    unfold make
    rw [if_pos (Int.ofNat_nonneg _), Int.toNat_ofNat]
  have hlen0 : 8 * (List.replicate (font.letters.length * W * H / 8) 0).length =
      font.letters.length * W * H := by
    rw [List.length_replicate]
    omega
  obtain ⟨bits, hf, hlen, hbits⟩ := Write.fill_spec hW hH hfit font.letters 0
    (List.replicate (font.letters.length * W * H / 8) 0) hs (by omega) (by omega)
  refine ⟨bits, Write_of_fill hm hf, by omega, ?_⟩
  intro m
  rw [hbits]
  simp only [Nat.zero_add]
  constructor
  · rintro (h | h)
    · exact absurd h (bitSet_replicate_zero _ _)
    · exact h
  · exact Or.inr

/-- C3: bit packing on encode.  For a font of positive size `w × h` with `N`
letters, each of the font's size and holding `w * h` pixels, with `N * w * h`
a multiple of eight that fits an `int`, `Write` succeeds; the bitmap section
it emits after the 16-byte header and the `4 * N`-byte character table is
exactly `N * w * h / 8` bytes long, and for each letter index `i` and pixel
`(x, y)` inside the grid, with `n = i * w * h + y * w + x`, the bit with mask
`0x80 >> (n mod 8)` of byte `n / 8` of that section is set if and only if
`letters[i].At(x, y)` is true. -/
theorem C3_write_bit_packing (font : Font) (hw : 1 ≤ font.width) (hh : 1 ≤ font.height)
    (hs : ∀ l ∈ font.letters, l.Sized font.width font.height)
    (hfit : (font.letters.length : Int) * font.width * font.height ≤ 9223372036854775807)
    (h8 : ((font.letters.length : Int) * font.width * font.height) % 8 = 0) :
    ∃ out, Write font = (out, .ok ()) ∧
      ((out.drop (16 + 4 * font.letters.length)).length : Int) =
        (font.letters.length : Int) * font.width * font.height / 8 ∧
      ∀ (i : Nat) (l : Letter) (x y : Int), font.letters[i]? = some l →
        0 ≤ x → x < font.width → 0 ≤ y → y < font.height →
        (bitSet (out.drop (16 + 4 * font.letters.length))
            ((i : Int) * font.width * font.height + y * font.width + x).toNat ↔
          l.At x y = some true) := by
  obtain ⟨W, hW⟩ : ∃ W : Nat, font.width = W := ⟨font.width.toNat, by omega⟩
  obtain ⟨H, hH⟩ : ∃ H : Nat, font.height = H := ⟨font.height.toNat, by omega⟩
  rw [hW, hH] at hfit h8 hs
  have hfitN : font.letters.length * W * H ≤ 9223372036854775807 := by exact_mod_cast hfit
  have h8N : font.letters.length * W * H % 8 = 0 := by exact_mod_cast h8
  obtain ⟨bits, hwr, hlen, hbits⟩ := Write_spec hW hH hs hfitN h8N
  have hpre : (([0x4D, 0x42, 0x57, 0x31] ++ leBytes 2 (uint16 font.width) ++
      leBytes 2 (uint16 font.height) ++ leBytes 8 (uint64 font.letters.length)) ++
      binaryWriteUint32s (font.letters.map fun l : Letter => uint32 l.Rune)).length =
      16 + 4 * font.letters.length := by
    simp only [List.length_append, length_leBytes, length_binaryWriteUint32s, List.length_map,
      List.length_cons, List.length_nil]
  refine ⟨_, hwr, ?_, ?_⟩
  · rw [List.drop_left' hpre, hW, hH]
    have : (bits.length : Int) = ((font.letters.length * W * H / 8 : Nat) : Int) := by
      congr 1; omega
    rw [this]
    push_cast
    rfl
  · intro i l x y hl hx0 hx hy0 hy
    rw [List.drop_left' hpre, hW, hH]
    obtain ⟨x', rfl⟩ : ∃ x' : Nat, x = x' := ⟨x.toNat, by omega⟩
    obtain ⟨y', rfl⟩ : ∃ y' : Nat, y = y' := ⟨y.toNat, by omega⟩
    have hx' : x' < W := by omega
    have hy' : y' < H := by omega
    have hc : ((i : Int) * (W : Int) * (H : Int) + (y' : Int) * (W : Int) + (x' : Int)).toNat =
        i * W * H + y' * W + x' := by
      rw [← Nat.cast_mul, ← Nat.cast_mul, ← Nat.cast_mul, ← Nat.cast_add, ← Nat.cast_add,
        Int.toNat_ofNat]
    rw [hc, hbits]
    constructor
    · rintro ⟨j, v, u, a, ha, hv, hu, hat, hm⟩
      obtain ⟨rfl, rfl, rfl⟩ := bitIndex_inj hy' hx' hv hu hm
      rw [hl] at ha
      cases ha
      exact hat
    · intro hat
      exact ⟨i, y', x', l, hl, hy', hx', hat, rfl⟩

/-- Witness for C3: the font of the test (14 x 8 pixels, two letters, 224 bits). -/
theorem C3_write_bit_packing_witness :
    ∃ out, Write testFont = (out, .ok ()) ∧
      ((out.drop (16 + 4 * testFont.letters.length)).length : Int) =
        (testFont.letters.length : Int) * testFont.width * testFont.height / 8 :=
  (C3_write_bit_packing testFont (by decide) (by decide) (by decide) (by decide)
    (by decide)).imp fun _ h => ⟨h.1, h.2.1⟩

/-! ## Reading: the bitmap loops -/

theorem Letter.Set_nat {l : Letter} {W H : Nat} (hl : l.Sized W H)
    (hfit : W * H ≤ 9223372036854775807) {x y : Nat} (hx : x < W) (hy : y < H) (v : Bool) :
    ∃ l', l.Set x y v = some l' ∧ l'.Sized W H ∧ l'.Rune = l.Rune ∧
      l'.set = l.set.set (x + y * W) v ∧ x + y * W < l.set.length := by
  have hfit' : (W : Int) * (H : Int) ≤ 9223372036854775807 := by
    rw [← Nat.cast_mul]; omega
  obtain ⟨l', h1, h2, h3, h4, -⟩ := Letter.At_Set_same (v := v) hl hfit' (x := x) (y := y)
    (by omega) (by omega) (by omega) (by omega)
  have hc : ((x : Int) + (y : Int) * (W : Int)).toNat = x + y * W := by
    rw [← Nat.cast_mul, ← Nat.cast_add, Int.toNat_ofNat]
  rw [hc] at h4
  exact ⟨l', h1, h2, h3, h4, (Letter.At_nat hl hfit hx hy).2⟩

/-- The pixel step of `Read`: pixel `(x, y)` of letter `p` becomes set exactly when bit
`i * W * H + y * W + x` of the bitmap is one, and nothing else changes. -/
theorem Read.pixel_reads {bits : List Nat} {W H N : Nat}
    (hfit : N * W * H ≤ 9223372036854775807) (hlen : N * W * H ≤ 8 * bits.length)
    {f0 : Font} {p : Nat} {c : Int} {i y x : Nat} (hi : i < N) (hy : y < H) (hx : x < W)
    {f : Font} (hf : Read.Frame f0 p W H c f) :
    ∃ f', Read.pixel bits i p y x f = some f' ∧ Read.Frame f0 p W H c f' ∧
      ∀ k, Read.lit p f' k ↔
        Read.lit p f k ∨ (bitSet bits (i * W * H + y * W + x) ∧ k = x + y * W) := by
  obtain ⟨hW, hH, hp, l, hl, hsz, hr⟩ := hf
  obtain ⟨hn, hlt⟩ := bitIndex_eq hW hH hfit hi hy hx
  have hWH : W * H ≤ 9223372036854775807 := by
    have : 1 * (W * H) ≤ N * (W * H) := Nat.mul_le_mul_right _ (by omega)
    rw [Nat.one_mul, ← Nat.mul_assoc] at this
    omega
  have hn8 : (i * W * H + y * W + x) / 8 < bits.length := by omega
  have hidx : index bits (Int.tdiv ((i * W * H + y * W + x : Nat) : Int) 8) =
      some (bits.getD ((i * W * H + y * W + x) / 8) 0) := by
    rw [tdiv_of_nat, index_eq_getElem? _ (Int.ofNat_nonneg _), Int.toNat_ofNat,
      List.getD_eq_getElem?_getD, List.getElem?_eq_getElem hn8]
    rfl
  have hget : f.letters[p]? = some l := by
    rw [hl, List.getElem?_set]
    simp [hp]
  unfold Read.pixel
  rw [hn, hidx]
  simp only [mask_of_nat]
  by_cases hb : bitSet bits (i * W * H + y * W + x)
  · have hb' : bits.getD ((i * W * H + y * W + x) / 8) 0 &&&
        0x80 >>> ((i * W * H + y * W + x) % 8) ≠ 0 := hb
    rw [if_pos hb']
    obtain ⟨l', hset, hsz', hr', hs', hin⟩ := Letter.Set_nat hsz hWH hx hy true
    refine ⟨{ f with letters := f.letters.set p l' }, ?_, ?_, ?_⟩
    · simp [Font.SetAt, hget, hset]
    · exact ⟨hW, hH, hp, l', by simp [hl], hsz', by rw [hr', hr]⟩
    · intro k
      unfold Read.lit
      have hp' : p < f.letters.length := by rw [hl]; simpa using hp
      simp only [List.getElem?_set, hp', if_true, hget, Option.some.injEq, exists_eq_left', hs']
      by_cases hk : x + y * W = k
      · subst hk
        simp [hin, hb]
      · simp only [if_neg hk]
        constructor
        · exact Or.inl
        · rintro (h | ⟨-, h⟩)
          · exact h
          · exact absurd h.symm hk
  · have hb' : ¬ bits.getD ((i * W * H + y * W + x) / 8) 0 &&&
        0x80 >>> ((i * W * H + y * W + x) % 8) ≠ 0 := hb
    rw [if_neg hb']
    refine ⟨f, rfl, ⟨hW, hH, hp, l, hl, hsz, hr⟩, ?_⟩
    intro k
    constructor
    · exact Or.inl
    · rintro (h | ⟨h, -⟩)
      · exact h
      · exact absurd h hb

/-- The row loop of `Read`. -/
theorem Read.row_reads {bits : List Nat} {W H N : Nat}
    (hfit : N * W * H ≤ 9223372036854775807) (hlen : N * W * H ≤ 8 * bits.length)
    {f0 : Font} {p : Nat} {c : Int} {i y : Nat} (hi : i < N) (hy : y < H)
    {f : Font} (hf : Read.Frame f0 p W H c f) :
    ∃ f', Read.row bits i p y f = some f' ∧ Read.Frame f0 p W H c f' ∧
      ∀ k, Read.lit p f' k ↔
        Read.lit p f k ∨ ∃ x, x < W ∧ bitSet bits (i * W * H + y * W + x) ∧ k = x + y * W := by
  obtain ⟨f', h1, h2, h3⟩ := foldlM_effect (Read.Frame f0 p W H c) (Read.lit p)
    (fun g x => Read.pixel bits i p y x g)
    (fun x k => bitSet bits (i * W * H + y * W + x) ∧ k = x + y * W) (List.range W)
    (fun x hx g hg => Read.pixel_reads hfit hlen hi hy (List.mem_range.mp hx) hg) f hf
  refine ⟨f', ?_, h2, ?_⟩
  · unfold Read.row
    rw [hf.1, Int.toNat_ofNat]
    exact h1
  · intro k
    rw [h3]
    simp only [List.mem_range]

/-- The loop over the rows of one letter in `Read`. -/
theorem Read.rows_reads {bits : List Nat} {W H N : Nat}
    (hfit : N * W * H ≤ 9223372036854775807) (hlen : N * W * H ≤ 8 * bits.length)
    {f0 : Font} {p : Nat} {c : Int} {i : Nat} (hi : i < N)
    {f : Font} (hf : Read.Frame f0 p W H c f) :
    ∃ f', Read.rows bits i p f = some f' ∧ Read.Frame f0 p W H c f' ∧
      ∀ k, Read.lit p f' k ↔
        Read.lit p f k ∨
          ∃ y x, y < H ∧ x < W ∧ bitSet bits (i * W * H + y * W + x) ∧ k = x + y * W := by
  obtain ⟨f', h1, h2, h3⟩ := foldlM_effect (Read.Frame f0 p W H c) (Read.lit p)
    (fun g y => Read.row bits i p y g)
    (fun y k => ∃ x, x < W ∧ bitSet bits (i * W * H + y * W + x) ∧ k = x + y * W)
    (List.range H)
    (fun y hy g hg => Read.row_reads hfit hlen hi (List.mem_range.mp hy) hg) f hf
  refine ⟨f', ?_, h2, ?_⟩
  · unfold Read.rows
    rw [hf.2.1, Int.toNat_ofNat]
    exact h1
  · intro k
    rw [h3]
    simp only [List.mem_range]
    constructor
    · rintro (h | ⟨y, hy, x, hx, h⟩)
      · exact Or.inl h
      · exact Or.inr ⟨y, x, hy, hx, h⟩
    · rintro (h | ⟨y, x, hy, hx, h⟩)
      · exact Or.inl h
      · exact Or.inr ⟨y, hy, x, hx, h⟩

/-- `Font.Letter` on a rune the font does not carry, in a font whose `W * H` pixels per letter
fit an `int`: a blank letter is appended and designated. -/
theorem fontLetter_of_not_mem {f : Font} {c : Int} {W H : Nat} (hW : f.width = W)
    (hH : f.height = H) (hfit : W * H ≤ 9223372036854775807)
    (hc : ∀ l ∈ f.letters, l.Rune ≠ c) :
    f.Letter c =
      some ({ f with letters := f.letters ++
                [{ Rune := c, width := f.width, height := f.height,
                   set := List.replicate (W * H) false }] },
            f.letters.length) := by
  have hmk : newLetter c f.width f.height =
      some { Rune := c, width := f.width, height := f.height,
             set := List.replicate (W * H) false } := by
    unfold newLetter
    rw [hW, hH, ← Nat.cast_mul, int_eq_self (by omega) (by omega)]
    unfold make
    rw [if_pos (Int.ofNat_nonneg _), Int.toNat_ofNat]
  simp [Font.Letter, findLetter_eq_none.mpr hc, hmk]

theorem offset_inj {W : Nat} {x y u v : Nat} (hx : x < W) (hu : u < W)
    (h : x + y * W = u + v * W) : x = u ∧ y = v := by
  have hWpos : 0 < W := by omega
  have h1 := congrArg (· % W) h
  have h2 := congrArg (· / W) h
  simp only [Nat.add_mul_mod_self_right, Nat.mod_eq_of_lt hx, Nat.mod_eq_of_lt hu] at h1
  simp only [Nat.add_mul_div_right _ _ hWpos, Nat.div_eq_of_lt hx, Nat.div_eq_of_lt hu,
    Nat.zero_add] at h2
  exact ⟨h1, h2⟩

theorem set_length_append {α : Type} (ls : List α) (a b : α) :
    (ls ++ [a]).set ls.length b = ls ++ [b] := by
  induction ls with
  | nil => rfl
  | cons c rest ih => simp [ih]

/-- The loop over the character table in `Read`: every table entry that is new to the font
appends one letter of the font's size whose pixels are the bits of its block. -/
theorem Read.fill_reads {bits : List Nat} {W H N : Nat}
    (hfit : N * W * H ≤ 9223372036854775807) (hlen : N * W * H ≤ 8 * bits.length) :
    ∀ (us : List Nat) (i : Nat) (f : Font), f.width = W → f.height = H →
      f.letters.length = i → i + us.length ≤ N → (∀ l ∈ f.letters, l.Sized W H) →
      (f.letters.map Letter.Rune ++ us.map rune).Nodup →
      ∃ f', Read.fill bits us i f = some f' ∧ f'.width = W ∧ f'.height = H ∧
        f'.letters.map Letter.Rune = f.letters.map Letter.Rune ++ us.map rune ∧
        (∀ l ∈ f'.letters, l.Sized W H) ∧
        (∀ q, q < i → f'.letters[q]? = f.letters[q]?) ∧
        ∀ j l y x, i ≤ j → f'.letters[j]? = some l → y < H → x < W →
          (l.At x y = some true ↔ bitSet bits (j * W * H + y * W + x)) := by
  intro us
  induction us with
  | nil =>
    intro i f hW hH hi _ hs _
    refine ⟨f, rfl, hW, hH, by simp, hs, fun q _ => rfl, ?_⟩
    intro j l y x hij hl
    have : j < f.letters.length := by
      by_contra hcon
      rw [List.getElem?_eq_none (by omega)] at hl
      cases hl
    omega
  | cons u rest ih =>
    intro i f hW hH hi hN hs hnd
    have hN1 : i < N := by simp at hN; omega
    have hWH : W * H ≤ 9223372036854775807 := by
      have : 1 * (W * H) ≤ N * (W * H) := Nat.mul_le_mul_right _ (by omega)
      rw [Nat.one_mul, ← Nat.mul_assoc] at this
      omega
    have hc : ∀ l ∈ f.letters, l.Rune ≠ rune u := by
      intro l hl heq
      rw [List.nodup_append] at hnd
      exact hnd.2.2 (List.mem_map_of_mem _ hl) (by rw [heq]; simp)
    have hL := fontLetter_of_not_mem hW hH hWH hc
    rw [hi] at hL
    have hframe : Read.Frame
        { f with letters := f.letters ++
            [{ Rune := rune u, width := f.width, height := f.height,
               set := List.replicate (W * H) false }] } i W H (rune u)
        { f with letters := f.letters ++
            [{ Rune := rune u, width := f.width, height := f.height,
               set := List.replicate (W * H) false }] } := by
      refine ⟨hW, hH, by simp; omega,
        { Rune := rune u, width := f.width, height := f.height,
          set := List.replicate (W * H) false }, ?_, ⟨hW, hH, ?_⟩, rfl⟩
      · show _ = List.set _ i _
        rw [← hi, set_length_append]
      · simp
    obtain ⟨f2, hrows, ⟨hW2, hH2, -, l2, hl2, hsz2, hr2⟩, hlit⟩ :=
      Read.rows_reads hfit hlen hN1 hframe
    have hl2' : f2.letters = f.letters ++ [l2] := by
      rw [hl2]
      show List.set (f.letters ++ _) i l2 = _
      rw [← hi, set_length_append]
    have hs2 : ∀ l ∈ f2.letters, l.Sized W H := by
      intro l hl
      rw [hl2'] at hl
      simp only [List.mem_append, List.mem_singleton] at hl
      rcases hl with hl | hl
      · exact hs l hl
      · rw [hl]; exact hsz2
    have hnd2 : (f2.letters.map Letter.Rune ++ rest.map rune).Nodup := by
      rw [hl2']
      simpa [hr2] using hnd
    obtain ⟨f', hfill, hW', hH', hrunes, hs', hpre, hpix⟩ :=
      ih (i + 1) f2 hW2 hH2 (by rw [hl2']; simp; omega) (by simp at hN; omega) hs2 hnd2
    refine ⟨f', ?_, hW', hH', ?_, hs', ?_, ?_⟩
    · simp only [Read.fill, hL, hrows]
      exact hfill
    · rw [hrunes, hl2']
      simp [hr2]
    · intro q hq
      rw [hpre q (by omega), hl2', List.getElem?_append_left (by omega)]
    · intro j l y x hij hl hy hx
      rcases Nat.eq_or_lt_of_le hij with hji | hji
      · subst hji
        have hget2 : f2.letters[i]? = some l2 := by
          rw [hl2', ← hi]
          simp
        rw [hpre i (by omega), hget2] at hl
        cases hl
        obtain ⟨hat, hin⟩ := Letter.At_nat hsz2 hWH hx hy
        have hlit2 : (l2.At x y = some true) ↔ Read.lit i f2 (x + y * W) := by
          unfold Read.lit
          rw [hat]
          simp [hget2]
        rw [hlit2, hlit]
        constructor
        · rintro (⟨l0, h0, h1⟩ | ⟨v, w, hv, hw, hb, hk⟩)
          · exfalso
            have : ((f.letters ++
                [({ Rune := rune u, width := f.width, height := f.height,
                    set := List.replicate (W * H) false } : Letter)])[i]?) =
                some { Rune := rune u, width := f.width, height := f.height,
                       set := List.replicate (W * H) false } := by
              rw [← hi]; simp
            rw [this] at h0
            cases h0
            simp only [List.getElem?_replicate] at h1
            split at h1 <;> cases h1
          · obtain ⟨rfl, rfl⟩ := offset_inj hx hw hk
            exact hb
        · intro hb
          exact Or.inr ⟨y, x, hy, hx, hb, rfl⟩
      · exact hpix j l y x (by omega) hl hy hx

/-! ## Reading: from the stream to the font -/

/-- The decoded character table, entry by entry. -/
theorem decodeUint32s_eq_map (n : Nat) (bs : List Nat) :
    decodeUint32s n bs = (List.range n).map fun i => leValue ((bs.drop (4 * i)).take 4) := by
  induction n generalizing bs with
  | zero => rfl
  | succ n ih =>
    rw [decodeUint32s, ih, List.range_succ_eq_map, List.map_cons, List.map_map]
    simp only [Nat.mul_zero, List.drop_zero, List.cons.injEq, true_and]
    apply List.map_congr_left
    intro i _
    simp only [Function.comp, List.drop_drop]
    have : 4 + 4 * i = 4 * (i + 1) := by ring
    rw [this]

theorem length_decodeUint32s (n : Nat) (bs : List Nat) : (decodeUint32s n bs).length = n := by
  rw [decodeUint32s_eq_map, List.length_map, List.length_range]

theorem bitSet_take {bits : List Nat} {L n : Nat} (h : n / 8 < L) :
    bitSet (bits.take L) n ↔ bitSet bits n := by
  unfold bitSet
  rw [List.getD_eq_getElem?_getD, List.getD_eq_getElem?_getD, List.getElem?_take_of_lt h]

/-- The part of `Read` after the header check, on a stream that holds a complete table of `N`
pairwise distinct characters and a complete bitmap of `N * W * H / 8 ≥ 1` bytes. -/
theorem Read.data_reads (header : fileHeader) (r : List Nat) {W H N : Nat}
    (hW : header.FontWidth = W) (hH : header.FontHeight = H) (hN : header.LetterCount = N)
    (hN1 : 1 ≤ N) (hW1 : 1 ≤ W) (hH1 : 1 ≤ H) (h8 : N * W * H % 8 = 0)
    (h4N : 4 * N ≤ 9223372036854775807) (hfit : N * W * H ≤ 9223372036854775807)
    (hlen : 4 * N + N * W * H / 8 ≤ r.length)
    (hnd : ((decodeUint32s N r).map rune).Nodup) :
    ∃ f, Read.data header r = .ok f ∧ f.width = W ∧ f.height = H ∧
      f.letters.map Letter.Rune = (decodeUint32s N r).map rune ∧
      (∀ l ∈ f.letters, l.Sized W H) ∧
      ∀ j l y x, f.letters[j]? = some l → y < H → x < W →
        (l.At x y = some true ↔ bitSet (r.drop (4 * N)) (j * W * H + y * W + x)) := by
  have hNle : N ≤ N * W * H := by
    have h1 : N * 1 ≤ N * W := Nat.mul_le_mul_left _ hW1
    have h2 : N * W * 1 ≤ N * W * H := Nat.mul_le_mul_left _ hH1
    omega
  have hWHle : 1 ≤ W * H := Nat.mul_pos hW1 hH1
  have hL1 : 1 ≤ N * W * H / 8 := by
    have : 8 ≤ N * W * H := by
      have := Nat.mul_pos (Nat.mul_pos hN1 hW1) hH1
      omega
    omega
  have hm : makeUint64 (0 : Nat) header.LetterCount = some (List.replicate N 0) := by
    unfold makeUint64
    rw [hN, if_pos (by omega)]
  have htab : decodeUint32s N (r.take (4 * N)) = decodeUint32s N r := by
    rw [decodeUint32s_eq_map, decodeUint32s_eq_map]
    apply List.map_congr_left
    intro i hi
    have hi' : i < N := List.mem_range.mp hi
    rw [List.drop_take, List.take_take, Nat.min_eq_left (by omega)]
  have hrd : binaryReadUint32s r header.LetterCount =
      some (.ok (decodeUint32s N r), r.drop (4 * N)) := by
    unfold binaryReadUint32s
    rw [hN, if_pos h4N, ioReadFull_of_le (by omega)]
    simp only [htab]
  have hmk : make (0 : Nat) (Int.tdiv (int (int (int (header.LetterCount : Int) *
      (header.FontWidth : Int)) * (header.FontHeight : Int))) 8) =
      some (List.replicate (N * W * H / 8) 0) := by
    rw [hN, hW, hH, int_eq_self (z := (N : Int)) (by omega) (by omega), bitmap_length hfit]
    unfold make
    rw [if_pos (Int.ofNat_nonneg _), Int.toNat_ofNat]
  have hbr : bytesReaderRead (r.drop (4 * N)) (List.replicate (N * W * H / 8) 0) =
      ((r.drop (4 * N)).take (N * W * H / 8), none,
        (r.drop (4 * N)).drop (N * W * H / 8)) := by
    have hlen' : N * W * H / 8 ≤ (r.drop (4 * N)).length := by
      rw [List.length_drop]; omega
    unfold bytesReaderRead
    cases hr : r.drop (4 * N) with
    | nil =>
      rw [hr] at hlen'
      simp at hlen'
      omega
    | cons a rest =>
      rw [hr] at hlen'
      simp only [List.length_replicate, List.length_take, Prod.mk.injEq, and_true]
      rw [Nat.min_eq_left hlen', List.drop_of_length_le (by simp), List.append_nil]
  obtain ⟨f, hfill, hfW, hfH, hrunes, hs, -, hpix⟩ :=
    Read.fill_reads hfit
      (show N * W * H ≤ 8 * ((r.drop (4 * N)).take (N * W * H / 8)).length by
        rw [List.length_take, List.length_drop, Nat.min_eq_left (by omega)]; omega)
      (decodeUint32s N r) 0 (NewFont (W : Int) (H : Int)) rfl rfl rfl
      (by rw [length_decodeUint32s]; omega) (by simp [NewFont])
      (by simpa [NewFont] using hnd)
  refine ⟨f, ?_, hfW, hfH, by simpa [NewFont] using hrunes, hs, ?_⟩
  · rw [Read.data]
    simp only [hm, hrd, hmk, hbr]
    rw [hW, hH, hfill]
  · intro j l y x hl hy hx
    rw [hpix j l y x (Nat.zero_le _) hl hy hx]
    apply bitSet_take
    have hj : j < f.letters.length := by
      by_contra hcon
      rw [List.getElem?_eq_none (by omega)] at hl
      cases hl
    have hlenf : f.letters.length = N := by
      have := congrArg List.length hrunes
      simpa [NewFont, length_decodeUint32s] using this
    have := (bitIndex_eq (show (NewFont (W : Int) (H : Int)).width = W from rfl)
      (show (NewFont (W : Int) (H : Int)).height = H from rfl) hfit
      (show j < N by omega) hy hx).2
    omega

theorem Letter.At_isSome {l : Letter} {W H : Nat} (hl : l.Sized W H)
    (hfit : W * H ≤ 9223372036854775807) (x y : Int) : ∃ b, l.At x y = some b := by
  by_cases hin : x ≥ 0 ∧ x < l.width ∧ y ≥ 0 ∧ y < l.height
  · obtain ⟨x', rfl⟩ : ∃ x' : Nat, x = x' := ⟨x.toNat, by omega⟩
    obtain ⟨y', rfl⟩ : ∃ y' : Nat, y = y' := ⟨y.toNat, by omega⟩
    rw [hl.1, hl.2.1] at hin
    obtain ⟨e, hlt⟩ := Letter.At_nat hl hfit (x := x') (y := y') (by omega) (by omega)
    rw [e, List.getElem?_eq_getElem hlt]
    exact ⟨_, rfl⟩
  · exact ⟨false, Letter.At_of_outside l x y hin⟩

/-- C5: bit mapping on decode.  For a stream that starts with a valid header
("MBW1", non-zero width `W` and height `H`, letter count `N ≥ 1` with
`N * W * H` a multiple of eight; the `4 * N` table bytes and the `N * W * H`
pixels fitting an `int`) and holds a complete character table of `N` pairwise
distinct characters and a complete bitmap section of `N * W * H / 8` bytes,
`Read` succeeds and returns a font of width `W` and height `H` with exactly
`N` letters whose runes are the table entries in table order; every letter
has the font's size, and for every letter index `i` and pixel `(x, y)` inside
the grid `At(x, y)` is the bit with mask `0x80 >> (n mod 8)` of bitmap byte
`n / 8`, where `n = i * W * H + y * W + x`. -/
theorem C5_read_bit_mapping (s : List Nat) (W H N : Nat)
    (hmagic : s.take 4 = [0x4D, 0x42, 0x57, 0x31])
    (hW : leValue ((s.drop 4).take 2) = W) (hH : leValue ((s.drop 6).take 2) = H)
    (hN : leValue ((s.drop 8).take 8) = N)
    (hW0 : W ≠ 0) (hH0 : H ≠ 0) (hN1 : 1 ≤ N) (h8 : N * W * H % 8 = 0)
    (h4N : 4 * N ≤ 9223372036854775807) (hfit : N * W * H ≤ 9223372036854775807)
    (hlen : 16 + 4 * N + N * W * H / 8 ≤ s.length)
    (hnd : ((List.range N).map fun i =>
      rune (leValue ((s.drop (16 + 4 * i)).take 4))).Nodup) :
    ∃ f, Read s = .ok f ∧ f.width = W ∧ f.height = H ∧ f.letters.length = N ∧
      (f.letters.map Letter.Rune =
        (List.range N).map fun i => rune (leValue ((s.drop (16 + 4 * i)).take 4))) ∧
      (∀ l ∈ f.letters, l.Sized W H) ∧
      ∀ (i : Nat) (l : Letter) (x y : Int), f.letters[i]? = some l →
        0 ≤ x → x < W → 0 ≤ y → y < H →
        l.At x y = some (decide (bitSet (s.drop (16 + 4 * N))
          ((i : Int) * W * H + y * W + x).toNat)) := by
  have htable : (decodeUint32s N (s.drop 16)).map rune =
      (List.range N).map fun i => rune (leValue ((s.drop (16 + 4 * i)).take 4)) := by
    rw [decodeUint32s_eq_map, List.map_map]
    apply List.map_congr_left
    intro i _
    simp only [Function.comp, List.drop_drop]
  have hWH : W * H ≤ 9223372036854775807 := by
    have : 1 * (W * H) ≤ N * (W * H) := Nat.mul_le_mul_right _ hN1
    rw [Nat.one_mul, ← Nat.mul_assoc] at this
    omega
  obtain ⟨f, hread, hfW, hfH, hrunes, hs, hpix⟩ :=
    Read.data_reads
      { Version := s.take 4, FontWidth := leValue ((s.drop 4).take 2),
        FontHeight := leValue ((s.drop 6).take 2),
        LetterCount := leValue ((s.drop 8).take 8) }
      (s.drop 16) hW hH hN hN1 (by omega) (by omega) h8 h4N hfit
      (by rw [List.length_drop]; omega) (by rw [htable]; exact hnd)
  refine ⟨f, ?_, hfW, hfH, ?_, by rw [hrunes, htable], hs, ?_⟩
  · rw [Read_of_le (by omega), if_neg (by simp [hmagic, hW, hH, hW0, hH0])]
    exact hread
  · have := congrArg List.length hrunes
    simpa [length_decodeUint32s] using this
  · intro i l x y hl hx0 hx hy0 hy
    obtain ⟨x', rfl⟩ : ∃ x' : Nat, x = x' := ⟨x.toNat, by omega⟩
    obtain ⟨y', rfl⟩ : ∃ y' : Nat, y = y' := ⟨y.toNat, by omega⟩
    have hc : ((i : Int) * (W : Int) * (H : Int) + (y' : Int) * (W : Int) + (x' : Int)).toNat =
        i * W * H + y' * W + x' := by
      rw [← Nat.cast_mul, ← Nat.cast_mul, ← Nat.cast_mul, ← Nat.cast_add, ← Nat.cast_add,
        Int.toNat_ofNat]
    have hp := hpix i l y' x' hl (by omega) (by omega)
    rw [List.drop_drop] at hp
    rw [hc]
    obtain ⟨b, hb⟩ := Letter.At_isSome (hs l (List.getElem?_mem hl)) hWH x' y'
    rw [hb] at hp ⊢
    cases b with
    | true => simp [hp.mp rfl]
    | false =>
      have : ¬ bitSet (s.drop (16 + 4 * N)) (i * W * H + y' * W + x') := by
        intro h
        have := hp.mpr h
        cases this
      simp [this]

/-- Witness for C5: the stream `Write` produces for the font of the test. -/
theorem C5_read_bit_mapping_witness : ∃ f, Read (Write testFont).1 = .ok f ∧ f.width = 14 :=
  (C5_read_bit_mapping (Write testFont).1 14 8 2 (by decide) (by decide) (by decide)
    (by decide) (by decide) (by decide) (by decide) (by decide) (by decide) (by decide)
    (by decide) (by decide)).imp fun _ h => ⟨h.1, h.2.1⟩

/-! ## Round trip -/

/-- Two letters of the same size that agree on the set pixels inside the grid agree
everywhere. -/
theorem Letter.At_eq_of_iff {l l' : Letter} {W H : Nat} (hl : l.Sized W H)
    (hl' : l'.Sized W H) (hfit : W * H ≤ 9223372036854775807)
    (h : ∀ x y : Nat, x < W → y < H → (l'.At x y = some true ↔ l.At x y = some true))
    (x y : Int) : l'.At x y = l.At x y := by
  by_cases hin : x ≥ 0 ∧ x < (W : Int) ∧ y ≥ 0 ∧ y < (H : Int)
  · obtain ⟨x', rfl⟩ : ∃ x' : Nat, x = x' := ⟨x.toNat, by omega⟩
    obtain ⟨y', rfl⟩ : ∃ y' : Nat, y = y' := ⟨y.toNat, by omega⟩
    have hxy := h x' y' (by omega) (by omega)
    obtain ⟨b, hb⟩ := Letter.At_isSome hl hfit x' y'
    obtain ⟨b', hb'⟩ := Letter.At_isSome hl' hfit x' y'
    rw [hb, hb'] at hxy ⊢
    cases b <;> cases b' <;> simp_all
  · rw [Letter.At_of_outside l x y (by rw [hl.1, hl.2.1]; exact hin),
      Letter.At_of_outside l' x y (by rw [hl'.1, hl'.2.1]; exact hin)]

/-- At most `2^32` pairwise distinct runes exist. -/
theorem length_le_of_nodup_runes {rs : List Int} (hnd : rs.Nodup)
    (hr : ∀ r ∈ rs, -2147483648 ≤ r ∧ r ≤ 2147483647) : rs.length ≤ 4294967296 := by
  have hinj : ∀ a ∈ rs, ∀ b ∈ rs, (a + 2147483648).toNat = (b + 2147483648).toNat → a = b := by
    intro a ha b hb hab
    have := hr a ha
    have := hr b hb
    omega
  have hnd' : (rs.map fun r => (r + 2147483648).toNat).Nodup :=
    (List.nodup_map_iff_inj_on hnd).mpr hinj
  have hsub : (rs.map fun r => (r + 2147483648).toNat).toFinset ⊆ Finset.range 4294967296 := by
    intro n hn
    simp only [List.mem_toFinset, List.mem_map] at hn
    obtain ⟨r, hrm, rfl⟩ := hn
    have := hr r hrm
    simp only [Finset.mem_range]
    omega
  have hcard := Finset.card_le_card hsub
  rw [List.toFinset_card_of_nodup hnd', List.length_map, Finset.card_range] at hcard
  exact hcard

/-- The round trip of a well-formed font through `Write` and `Read`. -/
theorem roundtrip {font : Font} {W H : Nat} (hW : font.width = W) (hH : font.height = H)
    (hW1 : 1 ≤ W) (hW2 : W ≤ 65535) (hH1 : 1 ≤ H) (hH2 : H ≤ 65535)
    (hne : font.letters ≠ [])
    (hnd : (font.letters.map Letter.Rune).Nodup)
    (hrune : ∀ l ∈ font.letters, -2147483648 ≤ l.Rune ∧ l.Rune ≤ 2147483647)
    (hs : ∀ l ∈ font.letters, l.Sized W H)
    (hfit : font.letters.length * W * H ≤ 9223372036854775807)
    (h8 : font.letters.length * W * H % 8 = 0) :
    ∃ out f, Write font = (out, .ok ()) ∧ Read out = .ok f ∧
      f.width = font.width ∧ f.height = font.height ∧
      f.letters.map Letter.Rune = font.letters.map Letter.Rune ∧
      (∀ l ∈ f.letters, l.Sized W H) ∧
      ∀ (i : Nat) (l l' : Letter), font.letters[i]? = some l → f.letters[i]? = some l' →
        ∀ x y : Int, l'.At x y = l.At x y := by
  have hN1 : 1 ≤ font.letters.length := by
    cases hl : font.letters with
    | nil => exact absurd hl hne
    | cons a rest => simp
  have hN32 : font.letters.length ≤ 4294967296 := by
    have := length_le_of_nodup_runes hnd (by
      intro r hr
      simp only [List.mem_map] at hr
      obtain ⟨l, hl, rfl⟩ := hr
      exact hrune l hl)
    simpa using this
  have hWH : W * H ≤ 9223372036854775807 := by
    have : 1 * (W * H) ≤ font.letters.length * (W * H) := Nat.mul_le_mul_right _ hN1
    rw [Nat.one_mul, ← Nat.mul_assoc] at this
    omega
  obtain ⟨bits, hwr, hlen, hbits⟩ := Write_spec hW hH hs hfit h8
  have e16 : uint16 font.width = W := by
    have := uint16_of_range (z := font.width) (by omega) (by omega)
    omega
  have e16h : uint16 font.height = H := by
    have := uint16_of_range (z := font.height) (by omega) (by omega)
    omega
  have e64 : uint64 (font.letters.length : Int) = font.letters.length := by
    have := uint64_of_range (z := (font.letters.length : Int)) (by omega) (by omega)
    omega
  rw [e16, e16h, e64] at hwr
  have hA : ([0x4D, 0x42, 0x57, 0x31] : List Nat).length = 4 := rfl
  have hB : (leBytes 2 W).length = 2 := length_leBytes 2 W
  have hC : (leBytes 2 H).length = 2 := length_leBytes 2 H
  have hD : (leBytes 8 font.letters.length).length = 8 := length_leBytes 8 _
  have hT : (binaryWriteUint32s (font.letters.map fun l : Letter => uint32 l.Rune)).length =
      4 * font.letters.length := by
    rw [length_binaryWriteUint32s, List.length_map]
  have hpre : (([0x4D, 0x42, 0x57, 0x31] : List Nat) ++ leBytes 2 W ++ leBytes 2 H ++
      leBytes 8 font.letters.length).length = 16 := by
    simp only [List.length_append, hB, hC, hD, hA]
  -- the stream `Write` produced
  generalize hout : ([0x4D, 0x42, 0x57, 0x31] ++ leBytes 2 W ++ leBytes 2 H ++
      leBytes 8 font.letters.length) ++
      binaryWriteUint32s (font.letters.map fun l : Letter => uint32 l.Rune) ++ bits = out at hwr
  have hlen16 : 16 ≤ out.length := by
    rw [← hout]
    simp only [List.length_append, hpre]
    omega
  have h1 : out.take 4 = [0x4D, 0x42, 0x57, 0x31] := by
    rw [← hout]
    simp only [List.append_assoc]
    exact List.take_left' hA
  have h2 : leValue ((out.drop 4).take 2) = W := by
    rw [← hout]
    simp only [List.append_assoc]
    rw [List.drop_left' hA, List.take_left' hB, leValue_leBytes]
    norm_num
    omega
  have h3 : leValue ((out.drop 6).take 2) = H := by
    rw [← hout]
    simp only [List.append_assoc]
    rw [← List.append_assoc, List.drop_left' (by simp only [List.length_append, hA, hB]),
      List.take_left' hC, leValue_leBytes]
    norm_num
    omega
  have h4 : leValue ((out.drop 8).take 8) = font.letters.length := by
    rw [← hout]
    simp only [List.append_assoc]
    rw [← List.append_assoc, ← List.append_assoc,
      List.drop_left' (by simp only [List.length_append, hA, hB, hC]),
      List.take_left' hD, leValue_leBytes]
    norm_num
    omega
  have h5 : out.drop 16 =
      binaryWriteUint32s (font.letters.map fun l : Letter => uint32 l.Rune) ++ bits := by
    rw [← hout, List.append_assoc, List.drop_left' hpre]
  have htab : (decodeUint32s font.letters.length (out.drop 16)).map rune =
      font.letters.map Letter.Rune := by
    rw [h5]
    have := decodeUint32s_binaryWriteUint32s
      (font.letters.map fun l : Letter => uint32 l.Rune) bits
    rw [List.length_map] at this
    rw [this, List.map_map, List.map_map]
    apply List.map_congr_left
    intro l hl
    simp only [Function.comp]
    rw [Nat.mod_eq_of_lt (uint32_lt _)]
    exact rune_uint32 (hrune l hl).1 (hrune l hl).2
  obtain ⟨f, hread, hfW, hfH, hrunes, hfs, hpix⟩ :=
    Read.data_reads
      { Version := out.take 4, FontWidth := leValue ((out.drop 4).take 2),
        FontHeight := leValue ((out.drop 6).take 2),
        LetterCount := leValue ((out.drop 8).take 8) }
      (out.drop 16) h2 h3 h4 hN1 hW1 hH1 h8 (by omega) hfit
      (by rw [h5, List.length_append, hT]; omega) (by rw [htab]; exact hnd)
  refine ⟨out, f, hwr, ?_, by rw [hfW, hW], by rw [hfH, hH], by rw [hrunes, htab], hfs, ?_⟩
  · rw [Read_of_le hlen16, if_neg (by simp [h1, h2, h3]; omega)]
    exact hread
  · intro i l l' hl hl' x y
    apply Letter.At_eq_of_iff (hs l (List.getElem?_mem hl)) (hfs l' (List.getElem?_mem hl')) hWH
    intro x' y' hx' hy'
    rw [hpix i l' y' x' hl' hy' hx', h5, List.drop_left' hT, hbits]
    constructor
    · rintro ⟨j, v, u, a, ha, hv, hu, hat, hm⟩
      obtain ⟨rfl, rfl, rfl⟩ := bitIndex_inj hy' hx' hv hu hm
      rw [hl] at ha
      cases ha
      exact hat
    · intro hat
      exact ⟨i, y', x', l, hl, hy', hx', hat, rfl⟩

/-- C2: byte-aligned round trip.  For a font with `1 ≤ width ≤ 65535`,
`1 ≤ height ≤ 65535`, at least one letter, pairwise distinct runes (32-bit
signed values), every letter of the font's size holding `width * height`
pixels, and a pixel count `len(letters) * width * height` that is a multiple
of eight and fits an `int`, `Write` succeeds and `Read` over a `bytes.Reader`
of the output succeeds and returns a font with the same width and height, the
same runes in the same order, and for every letter index and every `(x, y)`
the same `At(x, y)` as the original. -/
theorem C2_byte_aligned_round_trip (font : Font)
    (hw1 : 1 ≤ font.width) (hw2 : font.width ≤ 65535)
    (hh1 : 1 ≤ font.height) (hh2 : font.height ≤ 65535)
    (hne : font.letters ≠ [])
    (hnd : (font.letters.map Letter.Rune).Nodup)
    (hrune : ∀ l ∈ font.letters, -2147483648 ≤ l.Rune ∧ l.Rune ≤ 2147483647)
    (hs : ∀ l ∈ font.letters, l.Sized font.width font.height)
    (hfit : (font.letters.length : Int) * font.width * font.height ≤ 9223372036854775807)
    (h8 : ((font.letters.length : Int) * font.width * font.height) % 8 = 0) :
    ∃ out f, Write font = (out, .ok ()) ∧ Read out = .ok f ∧
      f.width = font.width ∧ f.height = font.height ∧
      f.letters.map Letter.Rune = font.letters.map Letter.Rune ∧
      ∀ (i : Nat) (l : Letter), font.letters[i]? = some l →
        ∃ l', f.letters[i]? = some l' ∧
          ∀ x y : Int, ∃ b, l.At x y = some b ∧ l'.At x y = some b := by
  obtain ⟨W, hW⟩ : ∃ W : Nat, font.width = W := ⟨font.width.toNat, by omega⟩
  obtain ⟨H, hH⟩ : ∃ H : Nat, font.height = H := ⟨font.height.toNat, by omega⟩
  rw [hW, hH] at hfit h8 hs
  have hfitN : font.letters.length * W * H ≤ 9223372036854775807 := by exact_mod_cast hfit
  have h8N : font.letters.length * W * H % 8 = 0 := by exact_mod_cast h8
  have hWH : W * H ≤ 9223372036854775807 := by
    have : W * H ≤ 65535 * 65535 := Nat.mul_le_mul (by omega) (by omega)
    omega
  obtain ⟨out, f, hwr, hrd, hfW, hfH, hrunes, hfs, hat⟩ :=
    roundtrip hW hH (by omega) (by omega) (by omega) (by omega) hne hnd hrune hs hfitN h8N
  refine ⟨out, f, hwr, hrd, hfW, hfH, hrunes, ?_⟩
  intro i l hl
  have hi : i < f.letters.length := by
    have h1 := congrArg List.length hrunes
    simp only [List.length_map] at h1
    have : i < font.letters.length := by
      by_contra hcon
      rw [List.getElem?_eq_none (by omega)] at hl
      cases hl
    omega
  refine ⟨f.letters[i], List.getElem?_eq_getElem hi, ?_⟩
  intro x y
  obtain ⟨b, hb⟩ := Letter.At_isSome (hs l (List.getElem?_mem hl)) hWH x y
  exact ⟨b, hb, by rw [hat i l _ hl (List.getElem?_eq_getElem hi) x y, hb]⟩

/-- Witness for C2: the 14 x 8 font of the test with `A` and `B` (224 bits). -/
theorem C2_byte_aligned_round_trip_witness :
    ∃ out f, Write testFont = (out, .ok ()) ∧ Read out = .ok f ∧
      f.width = testFont.width ∧ f.height = testFont.height :=
  (C2_byte_aligned_round_trip testFont (by decide) (by decide) (by decide) (by decide)
    (by decide) (by decide) (by decide) (by decide) (by decide) (by decide)).imp
    fun _ h => h.imp fun _ h => ⟨h.1, h.2.1, h.2.2.1, h.2.2.2.1⟩

/-! ## Fonts built through the public interface -/

/-- `Font.Letter` keeps the invariants of the data model when the pixels of one letter fit an
`int`. -/
theorem WellFormed.fontLetter {f f' : Font} {c : Int} {i : Nat} (hf : WellFormed f)
    (hw : 0 ≤ f.width) (hh : 0 ≤ f.height)
    (hfit : f.width * f.height ≤ 9223372036854775807)
    (hc : -2147483648 ≤ c ∧ c ≤ 2147483647) (h : f.Letter c = some (f', i)) :
    WellFormed f' ∧ f'.width = f.width ∧ f'.height = f.height ∧ i < f'.letters.length := by
  by_cases hmem : ∃ l ∈ f.letters, l.Rune = c
  · obtain ⟨j, hj, hlt, -, -⟩ := fontLetter_of_mem hmem
    rw [hj] at h
    simp only [Option.some.injEq, Prod.mk.injEq] at h
    obtain ⟨rfl, rfl⟩ := h
    exact ⟨hf, rfl, rfl, hlt⟩
  · obtain ⟨W, hW⟩ : ∃ W : Nat, f.width = W := ⟨f.width.toNat, by omega⟩
    obtain ⟨H, hH⟩ : ∃ H : Nat, f.height = H := ⟨f.height.toNat, by omega⟩
    have hfitN : W * H ≤ 9223372036854775807 := by
      rw [hW, hH] at hfit
      exact_mod_cast hfit
    have hc' : ∀ l ∈ f.letters, l.Rune ≠ c := by
      intro l hl heq
      exact hmem ⟨l, hl, heq⟩
    rw [fontLetter_of_not_mem hW hH hfitN hc'] at h
    simp only [Option.some.injEq, Prod.mk.injEq] at h
    obtain ⟨rfl, rfl⟩ := h
    obtain ⟨hs, hnd, hr⟩ := hf
    refine ⟨⟨?_, ?_, ?_⟩, rfl, rfl, by simp⟩
    · intro l hl
      simp only [List.mem_append, List.mem_singleton] at hl
      rcases hl with hl | hl
      · exact hs l hl
      · subst hl
        refine ⟨rfl, rfl, ?_⟩
        simp only [List.length_replicate]
        rw [hW, hH]
        push_cast
        rfl
    · simp only [List.map_append, List.map_cons, List.map_nil]
      rw [List.nodup_append]
      refine ⟨hnd, List.nodup_singleton _, ?_⟩
      intro r hr1 hr2
      simp only [List.mem_singleton] at hr2
      simp only [List.mem_map] at hr1
      obtain ⟨l, hl, hlr⟩ := hr1
      exact hc' l hl (by rw [hlr, hr2])
    · intro l hl
      simp only [List.mem_append, List.mem_singleton] at hl
      rcases hl with hl | hl
      · exact hr l hl
      · subst hl
        exact hc

/-- A `Set` through a letter pointer keeps the invariants of the data model. -/
theorem WellFormed.fontSetAt {f f' : Font} {i : Nat} {x y : Int} {v : Bool}
    (hf : WellFormed f) (h : f.SetAt i x y v = some f') :
    WellFormed f' ∧ f'.width = f.width ∧ f'.height = f.height ∧
      f'.letters.length = f.letters.length := by
  obtain ⟨l, l', hl, hset, rfl⟩ := fontSetAt_letters h
  obtain ⟨hR, hw, hh, hlen⟩ := Letter.Set_Rune hset
  obtain ⟨hs, hnd, hr⟩ := hf
  have hmem : ∀ a ∈ f.letters.set i l', a = l' ∨ a ∈ f.letters := by
    intro a ha
    rcases List.mem_or_eq_of_mem_set ha with h1 | h1
    · exact Or.inr h1
    · exact Or.inl h1
  refine ⟨⟨?_, ?_, ?_⟩, rfl, rfl, by simp⟩
  · intro a ha
    rcases hmem a ha with h1 | h1
    · subst h1
      obtain ⟨s1, s2, s3⟩ := hs l (List.getElem?_mem hl)
      exact ⟨by rw [hw]; exact s1, by rw [hh]; exact s2, by rw [hlen]; exact s3⟩
    · exact hs a h1
  · show ((f.letters.set i l').map Letter.Rune).Nodup
    rw [map_Rune_set hl hR]
    exact hnd
  · intro a ha
    rcases hmem a ha with h1 | h1
    · subst h1
      rw [hR]
      exact hr l (List.getElem?_mem hl)
    · exact hr a h1

/-- Every font built from `NewFont(w, h)`, `0 ≤ w, h`, `w * h` fitting an `int`, by `Letter`
and `Set` calls on runes satisfies the invariants of the data model and keeps its size. -/
theorem WellFormed.runOps {w h : Int} (hw : 0 ≤ w) (hh : 0 ≤ h)
    (hfit : w * h ≤ 9223372036854775807) :
    ∀ (ops : List Op) (f f' : Font), f.width = w → f.height = h → WellFormed f →
      (∀ op ∈ ops, -2147483648 ≤ op.rune ∧ op.rune ≤ 2147483647) →
      Mbw.runOps f ops = some f' →
      WellFormed f' ∧ f'.width = w ∧ f'.height = h := by
  intro ops
  induction ops with
  | nil =>
    intro f f' hfw hfh hf _ hrun
    simp only [Mbw.runOps, Option.some.injEq] at hrun
    subst hrun
    exact ⟨hf, hfw, hfh⟩
  | cons op rest ih =>
    intro f f' hfw hfh hf hops hrun
    have hop := hops op (List.mem_cons_self _ _)
    have hrest : ∀ o ∈ rest, -2147483648 ≤ o.rune ∧ o.rune ≤ 2147483647 :=
      fun o ho => hops o (List.mem_cons_of_mem _ ho)
    cases h1 : op.run f with
    | none => simp [Mbw.runOps, h1] at hrun
    | some f1 =>
      simp only [Mbw.runOps, h1] at hrun
      have key : WellFormed f1 ∧ f1.width = w ∧ f1.height = h := by
        cases op with
        | letter c =>
          simp only [Op.run] at h1
          cases hL : f.Letter c with
          | none => simp [hL] at h1
          | some p =>
            obtain ⟨f2, i⟩ := p
            simp only [hL, Option.some.injEq] at h1
            subst h1
            obtain ⟨h2, h3, h4, -⟩ := WellFormed.fontLetter hf (by omega) (by omega)
              (by rw [hfw, hfh]; exact hfit) hop hL
            exact ⟨h2, by rw [h3, hfw], by rw [h4, hfh]⟩
        | set c x y v =>
          simp only [Op.run] at h1
          cases hL : f.Letter c with
          | none => simp [hL] at h1
          | some p =>
            obtain ⟨f2, i⟩ := p
            simp only [hL] at h1
            obtain ⟨h2, h3, h4, -⟩ := WellFormed.fontLetter hf (by omega) (by omega)
              (by rw [hfw, hfh]; exact hfit) hop hL
            obtain ⟨h5, h6, h7, -⟩ := WellFormed.fontSetAt h2 h1
            exact ⟨h5, by rw [h6, h3, hfw], by rw [h7, h4, hfh]⟩
      exact ih f1 f' key.2.1 key.2.2 key.1 hrest hrun

/-- C1 (as amended): round trip of a font built through the public interface.
For every font obtained from `NewFont(w, h)` with `1 ≤ w, h ≤ 65535` by any
sequence of `Letter(c)` and `Letter(c).Set(x, y, v)` calls (any runes, any
pixel patterns, any order) that has at least one letter and whose pixel count
`len(letters) * w * h` is a multiple of eight and fits an `int`, `Write`
succeeds and `Read` of exactly the bytes written succeeds and returns a font
with the same `Width()`, the same `Height()`, the same number of letters and,
for every letter of the original, a letter at the same position with the same
rune whose `At(x, y)` equals the original's for every `(x, y)`. -/
theorem C1_round_trip (w h : Int) (ops : List Op) (font : Font)
    (hw1 : 1 ≤ w) (hw2 : w ≤ 65535) (hh1 : 1 ≤ h) (hh2 : h ≤ 65535)
    (hops : ∀ op ∈ ops, -2147483648 ≤ op.rune ∧ op.rune ≤ 2147483647)
    (hrun : runOps (NewFont w h) ops = some font)
    (hne : font.letters ≠ [])
    (hfit : (font.letters.length : Int) * w * h ≤ 9223372036854775807)
    (h8 : ((font.letters.length : Int) * w * h) % 8 = 0) :
    ∃ out f, Write font = (out, .ok ()) ∧ Read out = .ok f ∧
      f.Width = font.Width ∧ f.Height = font.Height ∧
      f.Letters.length = font.Letters.length ∧
      ∀ (i : Nat) (l : Letter), font.Letters[i]? = some l →
        ∃ l', f.Letters[i]? = some l' ∧ l'.Rune = l.Rune ∧
          ∀ x y : Int, ∃ b, l.At x y = some b ∧ l'.At x y = some b := by
  have hwh : w * h ≤ 65535 * 65535 := by
    have h1 : w * h ≤ 65535 * h := mul_le_mul_of_nonneg_right hw2 (by omega)
    omega
  obtain ⟨⟨hs, hnd, hr⟩, hfw, hfh⟩ := WellFormed.runOps (w := w) (h := h) (by omega) (by omega)
    (by omega) ops (NewFont w h) font rfl rfl
    ⟨by simp [NewFont], by simp [NewFont], by simp [NewFont]⟩ hops hrun
  obtain ⟨W, hW⟩ : ∃ W : Nat, font.width = W := ⟨font.width.toNat, by omega⟩
  obtain ⟨H, hH⟩ : ∃ H : Nat, font.height = H := ⟨font.height.toNat, by omega⟩
  rw [← hfw, ← hfh, hW, hH] at hfit h8
  rw [hW, hH] at hs
  have hfitN : font.letters.length * W * H ≤ 9223372036854775807 := by exact_mod_cast hfit
  have h8N : font.letters.length * W * H % 8 = 0 := by exact_mod_cast h8
  have hWH : W * H ≤ 9223372036854775807 := by
    have : W * H ≤ 65535 * 65535 := Nat.mul_le_mul (by omega) (by omega)
    omega
  obtain ⟨out, f, hwr, hrd, hfW, hfH, hrunes, hfs, hat⟩ :=
    roundtrip hW hH (by omega) (by omega) (by omega) (by omega) hne hnd hr hs hfitN h8N
  have hlen : f.letters.length = font.letters.length := by
    have h1 := congrArg List.length hrunes
    simpa using h1
  refine ⟨out, f, hwr, hrd, hfW, hfH, hlen, ?_⟩
  intro i l hl
  have hl0 : font.letters[i]? = some l := hl
  have hi : i < f.letters.length := by
    have : i < font.letters.length := by
      by_contra hcon
      rw [List.getElem?_eq_none (by omega)] at hl0
      cases hl0
    omega
  refine ⟨f.letters[i], List.getElem?_eq_getElem hi, ?_, ?_⟩
  · have h1 : (f.letters.map Letter.Rune)[i]? = (font.letters.map Letter.Rune)[i]? := by
      rw [hrunes]
    simpa [List.getElem?_map, List.getElem?_eq_getElem hi, hl0] using h1
  · intro x y
    obtain ⟨b, hb⟩ := Letter.At_isSome (hs l (List.getElem?_mem hl0)) hWH x y
    exact ⟨b, hb, by rw [hat i l _ hl0 (List.getElem?_eq_getElem hi) x y, hb]⟩

/-- Witness for C1: the calls of the test build its 14 x 8 font. -/
theorem C1_round_trip_witness :
    runOps (NewFont 14 8)
        [.letter 65, .letter 66, .set 65 1 2 true, .set 66 2 3 true, .set 66 3 4 true] =
      some testFont ∧
    ∃ out f, Write testFont = (out, .ok ()) ∧ Read out = .ok f ∧
      f.Width = testFont.Width ∧ f.Height = testFont.Height ∧
      f.Letters.length = testFont.Letters.length :=
  ⟨by decide,
   (C1_round_trip 14 8
      [.letter 65, .letter 66, .set 65 1 2 true, .set 66 2 3 true, .set 66 3 4 true]
      testFont (by decide) (by decide) (by decide) (by decide) (by decide) (by decide)
      (by decide) (by decide) (by decide)).imp
    fun _ h => h.imp fun _ h => ⟨h.1, h.2.1, h.2.2.1, h.2.2.2.1, h.2.2.2.2.1⟩⟩

/-- C1 fails as stated: `NewFont(65536, 8)` with no further call has positive
size, `Write` succeeds, but the width is stored in sixteen bits, so the header
carries width 0 and `Read` rejects the bytes `Write` produced. -/
theorem C1_counterexample :
    runOps (NewFont 65536 8) [] = some (NewFont 65536 8) ∧
    Write (NewFont 65536 8) =
      ([0x4D, 0x42, 0x57, 0x31, 0, 0, 8, 0, 0, 0, 0, 0, 0, 0, 0, 0], .ok ()) ∧
    Read (Write (NewFont 65536 8)).1 = .error "mbw.Read: unknown file header" := by
  decide

/-! ## Claims on pixel access -/

/-- C11: out-of-range read.  For every letter and every pair of integers
`(x, y)` with `x < 0` or `x ≥ width` or `y < 0` or `y ≥ height`, `At(x, y)`
returns false and does not panic: the pixel slice is not indexed, whatever
its length. -/
theorem C11_at_out_of_range (l : Letter) (x y : Int)
    (h : x < 0 ∨ x ≥ l.width ∨ y < 0 ∨ y ≥ l.height) : l.At x y = some false :=
  Letter.At_of_outside l x y (by omega)

/-- Witness for C11: the pixel `(14, 0)` right of letter `A` of the test font. -/
theorem C11_at_out_of_range_witness :
    Letter.At { Rune := 65, width := 14, height := 8,
                set := (List.replicate 112 false).set 29 true } 14 0 = some false :=
  C11_at_out_of_range _ 14 0 (by decide)

/-- C12: out-of-range write is a no-op.  For every letter, every value `v`
and every pair of integers `(x, y)` with `x < 0` or `x ≥ width` or `y < 0` or
`y ≥ height`, `Set(x, y, v)` does not panic and leaves the letter as it was:
same rune, same size, same pixels, hence the same `At` everywhere. -/
theorem C12_set_out_of_range (l : Letter) (x y : Int) (v : Bool)
    (h : x < 0 ∨ x ≥ l.width ∨ y < 0 ∨ y ≥ l.height) :
    l.Set x y v = some l ∧
      ∀ l', l.Set x y v = some l' →
        l'.Rune = l.Rune ∧ l'.width = l.width ∧ l'.height = l.height ∧
          ∀ x' y', l'.At x' y' = l.At x' y' := by
  have hs : l.Set x y v = some l := by
    unfold Letter.Set
    rw [if_neg (by omega)]
  refine ⟨hs, ?_⟩
  intro l' hl'
  rw [hs] at hl'
  cases hl'
  exact ⟨rfl, rfl, rfl, fun _ _ => rfl⟩

/-- Witness for C12: a `Set` below the grid of letter `A` of the test font. -/
theorem C12_set_out_of_range_witness :
    Letter.Set { Rune := 65, width := 14, height := 8,
                 set := (List.replicate 112 false).set 29 true } 0 8 true =
      some { Rune := 65, width := 14, height := 8,
             set := (List.replicate 112 false).set 29 true } :=
  (C12_set_out_of_range _ 0 8 true (by decide)).1

/-- C13: in-range write then read.  For every letter of size `w × h` holding
`w * h` pixels (a slice, so the count fits an `int`), every `(x, y)` inside
the grid and every value `v`, `Set(x, y, v)` succeeds, afterwards `At(x, y)`
returns `v`, and `At(x', y')` returns what it returned before for every pair
`(x', y')` other than `(x, y)`, in range or not. -/
theorem C13_set_then_at (l : Letter) (x y : Int) (v : Bool)
    (hl : l.Sized l.width l.height)
    (hfit : l.width * l.height ≤ 9223372036854775807)
    (hx0 : 0 ≤ x) (hx : x < l.width) (hy0 : 0 ≤ y) (hy : y < l.height) :
    ∃ l', l.Set x y v = some l' ∧ l'.At x y = some v ∧
      ∀ x' y', (x', y') ≠ (x, y) → l'.At x' y' = l.At x' y' := by
  obtain ⟨l', hset, hsz, -, hs, hat⟩ := Letter.At_Set_same (v := v) hl hfit hx0 hx hy0 hy
  refine ⟨l', hset, hat, ?_⟩
  intro x' y' hne
  by_cases hin : x' ≥ 0 ∧ x' < l.width ∧ y' ≥ 0 ∧ y' < l.height
  · obtain ⟨e1, -⟩ := Letter.At_of_inside hl hfit hin.1 hin.2.1 hin.2.2.1 hin.2.2.2
    obtain ⟨e2, -⟩ := Letter.At_of_inside hsz hfit hin.1 hin.2.1 hin.2.2.1 hin.2.2.2
    obtain ⟨-, a0, a1⟩ := cell_offset hx0 hx hy0 hy hfit
    obtain ⟨-, b0, b1⟩ := cell_offset hin.1 hin.2.1 hin.2.2.1 hin.2.2.2 hfit
    rw [e1, e2, hs, List.getElem?_set]
    have hoff : (x + y * l.width).toNat ≠ (x' + y' * l.width).toNat := by
      intro heq
      have h1 : x + y * l.width = x' + y' * l.width := by omega
      have h2 : (y - y') * l.width = x' - x := by linarith
      have hy' : y = y' := by
        by_contra hyne
        rcases lt_or_gt_of_ne hyne with hlt | hgt
        · have : (y - y') * l.width ≤ (-1) * l.width :=
            mul_le_mul_of_nonneg_right (by omega) (by omega)
          omega
        · have : 1 * l.width ≤ (y - y') * l.width :=
            mul_le_mul_of_nonneg_right (by omega) (by omega)
          omega
      subst hy'
      have hx' : x = x' := by omega
      subst hx'
      exact hne rfl
    rw [if_neg hoff]
  · have hin' : ¬ (x' ≥ 0 ∧ x' < l'.width ∧ y' ≥ 0 ∧ y' < l'.height) := by
      rw [hsz.1, hsz.2.1]; exact hin
    rw [Letter.At_of_outside l x' y' hin, Letter.At_of_outside l' x' y' hin']

/-- Witness for C13: setting pixel `(1, 2)` of a blank 14 x 8 letter. -/
theorem C13_set_then_at_witness :
    ∃ l', Letter.Set { Rune := 65, width := 14, height := 8,
                       set := List.replicate 112 false } 1 2 true = some l' ∧
      l'.At 1 2 = some true :=
  (C13_set_then_at _ 1 2 true (by decide) (by decide) (by decide) (by decide) (by decide)
    (by decide)).imp fun _ h => ⟨h.1, h.2.1⟩

/-! ## Claims on fonts the format cannot hold -/

/-- Whatever happens later, the output of `Write` starts with the sixteen header bytes. -/
theorem Write_header (font : Font) :
    ∃ tail, (Write font).1 =
      ([0x4D, 0x42, 0x57, 0x31] ++ leBytes 2 (uint16 font.width) ++
        leBytes 2 (uint16 font.height) ++ leBytes 8 (uint64 font.letters.length)) ++ tail := by
  unfold Write
  simp only [binaryWriteHeader]
  cases make (0 : Nat) (Int.tdiv (int (int ((font.letters.length : Int) * font.width) *
      font.height)) 8) with
  | none => exact ⟨_, rfl⟩
  | some bits0 =>
    simp only []
    cases Write.fill font font.letters 0 bits0 with
    | none => exact ⟨_, rfl⟩
    | some bits =>
      exact ⟨binaryWriteUint32s (font.letters.map fun l : Letter => uint32 l.Rune) ++ bits,
        by simp only [List.append_assoc]⟩

/-- `Write` on a font without letters: the sixteen header bytes and nothing else. -/
theorem Write_of_no_letters {font : Font} (h : font.letters = []) :
    Write font =
      ([0x4D, 0x42, 0x57, 0x31] ++ leBytes 2 (uint16 font.width) ++
        leBytes 2 (uint16 font.height) ++ leBytes 8 0, .ok ()) := by
  have hm : make (0 : Nat) (Int.tdiv (int (int ((font.letters.length : Int) * font.width) *
      font.height)) 8) = some [] := by
    rw [h]
    simp only [List.length_nil, Nat.cast_zero, Int.zero_mul]
    have h0 : int 0 = 0 := int_eq_self (by omega) (by omega)
    rw [h0, Int.zero_mul, h0]
    rfl
  have hf : Write.fill font font.letters 0 [] = some [] := by
    rw [h]; rfl
  rw [Write_of_fill hm hf, h]
  simp [binaryWriteUint32s, uint64]

/-- C20: dimensions are stored modulo `2^16`.  For every font the width and
height fields of the header `Write` emits are the font's width and height
reduced modulo 65536; and for every font with no letters whose width or
height is a positive multiple of 65536, `Write` succeeds, emits the bare
header with a zero in that field, and `Read` rejects the output of `Write`
with the header-validation error. -/
theorem C20_dimensions_mod_65536 (font : Font) :
    (leValue (((Write font).1.drop 4).take 2) : Int) = font.width % 65536 ∧
    (leValue (((Write font).1.drop 6).take 2) : Int) = font.height % 65536 ∧
    (font.letters = [] →
      (0 < font.width ∧ font.width % 65536 = 0) ∨
        (0 < font.height ∧ font.height % 65536 = 0) →
      Write font =
        ([0x4D, 0x42, 0x57, 0x31] ++ leBytes 2 (uint16 font.width) ++
          leBytes 2 (uint16 font.height) ++ leBytes 8 0, .ok ()) ∧
      (uint16 font.width = 0 ∨ uint16 font.height = 0) ∧
      Read (Write font).1 = .error "mbw.Read: unknown file header") := by
  obtain ⟨tail, ht⟩ := Write_header font
  have hA : ([0x4D, 0x42, 0x57, 0x31] : List Nat).length = 4 := rfl
  have hB : (leBytes 2 (uint16 font.width)).length = 2 := length_leBytes 2 _
  have hC : (leBytes 2 (uint16 font.height)).length = 2 := length_leBytes 2 _
  have hw : leValue (((Write font).1.drop 4).take 2) = uint16 font.width := by
    rw [ht]
    simp only [List.append_assoc]
    rw [List.drop_left' hA, List.take_left' hB, leValue_leBytes]
    unfold uint16
    omega
  have hh : leValue (((Write font).1.drop 6).take 2) = uint16 font.height := by
    rw [ht]
    simp only [List.append_assoc]
    rw [← List.append_assoc, List.drop_left' (by simp only [List.length_append, hA, hB]),
      List.take_left' hC, leValue_leBytes]
    unfold uint16
    omega
  refine ⟨by rw [hw]; unfold uint16; omega, by rw [hh]; unfold uint16; omega, ?_⟩
  intro hnil hzero
  have hz : uint16 font.width = 0 ∨ uint16 font.height = 0 := by
    unfold uint16
    rcases hzero with h | h
    · exact Or.inl (by omega)
    · exact Or.inr (by omega)
  refine ⟨Write_of_no_letters hnil, hz, ?_⟩
  have hlen : 16 ≤ (Write font).1.length := by
    rw [ht]
    simp only [List.length_append, length_leBytes, List.length_cons, List.length_nil]
    omega
  rw [Read_of_le hlen, hw, hh, if_pos]
  rcases hz with h | h
  · exact Or.inr (Or.inl h)
  · exact Or.inr (Or.inr h)

/-- Witness for C20: the empty font of size 65536 x 8. -/
theorem C20_dimensions_mod_65536_witness :
    (NewFont 65536 8).letters = [] ∧
      Read (Write (NewFont 65536 8)).1 = .error "mbw.Read: unknown file header" :=
  ⟨rfl, ((C20_dimensions_mod_65536 (NewFont 65536 8)).2.2 rfl
    (Or.inl (by decide))).2.2⟩

/-- C18 fails on the code: `Write` of the empty 14 x 8 font emits the sixteen
header bytes with letter count 0, and `Read` of those bytes through a
`bytes.Reader` does not return a font: the zero-length `r.Read(bits)` at the
end of the stream reports `io.EOF`, which `Read` returns as the bitmap-data
read error. -/
theorem C18_empty_font_rejected :
    Write (NewFont 14 8) =
      ([0x4D, 0x42, 0x57, 0x31, 14, 0, 8, 0, 0, 0, 0, 0, 0, 0, 0, 0], .ok ()) ∧
    Read [0x4D, 0x42, 0x57, 0x31, 14, 0, 8, 0, 0, 0, 0, 0, 0, 0, 0, 0] =
      .error "mbw.Read failed to read bitmap data: EOF" := by
  decide

/-- C17 fails on the code: a 3 x 3 font with the one letter `A` has 9 bits,
so `Write` and `Read` allocate a one-byte bitmap buffer but loop over all nine
pixels.  With `A` blank, `Write` succeeds and `Read` of its output panics on
`bits[1]` at bit index 8; with pixel `(2, 2)` set, `Write` itself panics on
`bits[1]`. -/
theorem C17_unaligned_total_panics :
    Write { width := 3, height := 3,
            letters := [{ Rune := 65, width := 3, height := 3,
                          set := List.replicate 9 false }] } =
      ([0x4D, 0x42, 0x57, 0x31, 3, 0, 3, 0, 1, 0, 0, 0, 0, 0, 0, 0, 65, 0, 0, 0, 0],
        .ok ()) ∧
    Read [0x4D, 0x42, 0x57, 0x31, 3, 0, 3, 0, 1, 0, 0, 0, 0, 0, 0, 0, 65, 0, 0, 0, 0] =
      .panic ∧
    (Write { width := 3, height := 3,
             letters := [{ Rune := 65, width := 3, height := 3,
                           set := (List.replicate 9 false).set 8 true }] }).2 = .panic := by
  decide

/-! ## Sorting -/

theorem index_nat {α : Type} (s : List α) (i : Nat) : index s (i : Int) = s[i]? := by
  rw [index_eq_getElem? _ (Int.ofNat_nonneg _), Int.toNat_ofNat]

theorem assign_nat {α : Type} (s : List α) {i : Nat} (h : i < s.length) (v : α) :
    assign s (i : Int) v = some (s.set i v) := by
  unfold assign
  rw [if_pos ⟨Int.ofNat_nonneg _, by omega⟩, Int.toNat_ofNat]

theorem getElem?_append_add {α : Type} (pre l : List α) (k : Nat) :
    (pre ++ l)[pre.length + k]? = l[k]? := by
  rw [List.getElem?_append_right (by omega)]
  congr 1
  omega

/-- Comparing two adjacent letters. -/
theorem sortable.Less_adjacent (f : Font) (pre post : List Letter) (a x : Letter) :
    sortable.Less { f with letters := pre ++ a :: x :: post }
        ((pre.length + 1 : Nat) : Int) (pre.length : Int) =
      some (decide (x.Rune < a.Rune)) := by
  have h1 : (pre ++ a :: x :: post)[pre.length]? = some a :=
    getElem?_append_add pre (a :: x :: post) 0
  have h2 : (pre ++ a :: x :: post)[pre.length + 1]? = some x := by
    rw [getElem?_append_add pre (a :: x :: post) 1]
    simp
  unfold sortable.Less
  rw [index_nat, index_nat]
  simp only [h1, h2]

/-- Swapping two adjacent letters. -/
theorem sortable.Swap_adjacent (f : Font) (pre post : List Letter) (a x : Letter) :
    sortable.Swap { f with letters := pre ++ a :: x :: post }
        ((pre.length + 1 : Nat) : Int) (pre.length : Int) =
      some { f with letters := pre ++ x :: a :: post } := by
  unfold sortable.Swap
  rw [index_nat, index_nat]
  have h1 : (pre ++ a :: x :: post)[pre.length]? = some a :=
    getElem?_append_add pre (a :: x :: post) 0
  have h2 : (pre ++ a :: x :: post)[pre.length + 1]? = some x := by
    rw [getElem?_append_add pre (a :: x :: post) 1]
    simp
  simp only [h1, h2]
  rw [assign_nat _ (by simp)]
  simp only []
  rw [assign_nat _ (by simp)]
  have e1 : (pre ++ a :: x :: post).set (pre.length + 1) a = pre ++ a :: a :: post := by
    rw [List.set_append_right _ _ (by omega)]
    simp
  have e2 : (pre ++ a :: a :: post).set pre.length x = pre ++ x :: a :: post := by
    rw [List.set_append_right _ _ (by omega)]
    simp
  rw [e1, e2]

/-- The inner loop of the insertion sort: the letter `x` behind the prefix `rp.reverse` moves
left past the letters with a greater rune.  The result is a permutation, is sorted when the
prefix was, and nothing moves when the last letter of the prefix is not greater than `x`. -/
theorem sort.insert_spec (f : Font) (x : Letter) :
    ∀ (rp post : List Letter),
      ∃ res, sort.insert { f with letters := rp.reverse ++ x :: post } rp.length =
          some { f with letters := res ++ post } ∧
        res.Perm (x :: rp) ∧ res.length = rp.length + 1 ∧
        (rp.reverse.Pairwise (fun a b => a.Rune ≤ b.Rune) →
          res.Pairwise (fun a b => a.Rune ≤ b.Rune)) ∧
        ((∀ a, rp.head? = some a → a.Rune ≤ x.Rune) → res = rp.reverse ++ [x]) := by
  intro rp
  induction rp with
  | nil =>
    intro post
    exact ⟨[x], rfl, List.Perm.refl _, rfl, fun _ => List.pairwise_singleton _ _,
      fun _ => rfl⟩
  | cons a r ih =>
    intro post
    have hlist : (a :: r).reverse ++ x :: post = r.reverse ++ a :: x :: post := by
      simp
    have hless := sortable.Less_adjacent f r.reverse post a x
    have hswap := sortable.Swap_adjacent f r.reverse post a x
    rw [List.length_reverse] at hless hswap
    rw [hlist]
    by_cases hlt : x.Rune < a.Rune
    · obtain ⟨res, hins, hperm, hlen, hsorted, -⟩ := ih (a :: post)
      refine ⟨res ++ [a], ?_, ?_, by simp [hlen], ?_, ?_⟩
      · simp only [List.length_cons, sort.insert]
        rw [hless, decide_eq_true hlt]
        simp only []
        rw [hswap]
        simp only []
        rw [hins]
        simp
      · have h1 : (res ++ [a]).Perm (a :: res) := List.perm_append_singleton a res
        exact h1.trans ((List.Perm.cons a hperm).trans (List.Perm.swap x a r))
      · intro hs
        rw [List.reverse_cons, List.pairwise_append] at hs
        obtain ⟨hs1, -, hs3⟩ := hs
        rw [List.pairwise_append]
        refine ⟨hsorted hs1, List.pairwise_singleton _ _, ?_⟩
        intro b hb c hc
        simp only [List.mem_singleton] at hc
        subst hc
        have hb' := hperm.subset hb
        simp only [List.mem_cons] at hb'
        rcases hb' with hb' | hb'
        · subst hb'
          omega
        · exact hs3 b (List.mem_reverse.mpr hb') c (by simp)
      · intro hh
        have := hh a rfl
        omega
    · refine ⟨r.reverse ++ [a, x], ?_, ?_, by simp, ?_, ?_⟩
      · simp only [List.length_cons, sort.insert]
        rw [hless, decide_eq_false hlt]
        simp
      · have h1 : (r.reverse ++ [a, x]).Perm ([a, x] ++ r.reverse) := List.perm_append_comm
        have h2 : ([a, x] ++ r.reverse).Perm (a :: x :: r) :=
          List.Perm.cons a (List.Perm.cons x (List.reverse_perm r))
        exact h1.trans (h2.trans (List.Perm.swap x a r))
      · intro hs
        rw [List.reverse_cons, List.pairwise_append] at hs
        obtain ⟨hs1, -, hs3⟩ := hs
        rw [List.pairwise_append]
        refine ⟨hs1, ?_, ?_⟩
        · rw [List.pairwise_cons]
          refine ⟨?_, List.pairwise_singleton _ _⟩
          intro c hc
          simp only [List.mem_singleton] at hc
          subst hc
          omega
        · intro b hb c hc
          have hba := hs3 b hb a (by simp)
          simp only [List.mem_cons, List.mem_singleton, List.not_mem_nil, or_false] at hc
          rcases hc with hc | hc
          · subst hc; exact hba
          · subst hc; omega
      · intro _
        simp

/-- The outer loop of the insertion sort, from a sorted non-empty prefix `pre` on. -/
theorem sort.loop_spec (f : Font) :
    ∀ (post pre : List Letter), pre.Pairwise (fun a b => a.Rune ≤ b.Rune) →
      ∃ res, (List.range' pre.length post.length).foldlM (fun x i => sort.insert x i)
          { f with letters := pre ++ post } = some { f with letters := res } ∧
        res.Perm (pre ++ post) ∧
        res.Pairwise (fun a b => a.Rune ≤ b.Rune) ∧
        ((pre ++ post).Pairwise (fun a b => a.Rune ≤ b.Rune) → res = pre ++ post) := by
  intro post
  induction post with
  | nil =>
    intro pre hpre
    exact ⟨pre, by simp, by simp, hpre, by simp⟩
  | cons x post ih =>
    intro pre hpre
    obtain ⟨res1, hins, hperm1, hlen1, hsorted1, hnoop1⟩ :=
      sort.insert_spec f x pre.reverse post
    simp only [List.reverse_reverse, List.length_reverse] at hins hlen1 hsorted1 hnoop1
    obtain ⟨res, hfold, hperm, hsorted, hnoop⟩ := ih res1 (hsorted1 hpre)
    refine ⟨res, ?_, ?_, hsorted, ?_⟩
    · rw [List.length_cons, List.range'_succ, List.foldlM_cons, hins]
      rw [hlen1] at hfold
      exact hfold
    · have h1 : (res1 ++ post).Perm ((x :: pre.reverse) ++ post) :=
        List.Perm.append_right post hperm1
      have h2 : ((x :: pre.reverse) ++ post).Perm (pre ++ x :: post) := by
        have h3 : (x :: pre.reverse).Perm (pre ++ [x]) :=
          (List.Perm.cons x (List.reverse_perm pre)).trans
            (List.perm_append_singleton x pre).symm
        have h4 := List.Perm.append_right post h3
        simpa using h4
      exact hperm.trans (h1.trans h2)
    · intro hs
      have hs' := hs
      rw [List.pairwise_append] at hs'
      have hres1 : res1 = pre ++ [x] := by
        apply hnoop1
        intro a ha
        have hmem : a ∈ pre := by
          have := List.mem_of_mem_head? ha
          exact List.mem_reverse.mp this
        exact hs'.2.2 a hmem x (by simp)
      subst hres1
      have := hnoop (by simpa using hs)
      rw [this]
      simp

/-- `Font.Sort` always ends, and it returns the font with its letters permuted into a sequence
sorted by rune; a sequence that is sorted already is left as it is. -/
theorem fontSort_spec (f : Font) :
    ∃ ls, f.Sort = some { f with letters := ls } ∧ ls.Perm f.letters ∧
      ls.Pairwise (fun a b => a.Rune ≤ b.Rune) ∧
      (f.letters.Pairwise (fun a b => a.Rune ≤ b.Rune) → ls = f.letters) := by
  unfold Font.Sort sort.Sort sort.insertionSort sortable.Len
  rw [Int.toNat_ofNat]
  cases hl : f.letters with
  | nil =>
    refine ⟨[], ?_, List.Perm.refl _, List.Pairwise.nil, fun _ => rfl⟩
    simp only [List.length_nil, Nat.zero_sub, List.range'_zero, List.foldlM_nil]
    rw [← hl]
    rfl
  | cons a post =>
    obtain ⟨res, hfold, hperm, hsorted, hnoop⟩ :=
      sort.loop_spec f post [a] (List.pairwise_singleton _ _)
    refine ⟨res, ?_, hperm, hsorted, hnoop⟩
    have hf : f = { f with letters := [a] ++ post } := by
      cases f
      simp only [Font.mk.injEq, true_and]
      exact hl
    simp only [List.length_cons, List.length_nil, Nat.zero_add, Nat.add_sub_cancel] at hfold ⊢
    rw [hf]
    exact hfold

/-- Letters with pairwise distinct runes have one order sorted by rune only. -/
theorem sorted_perm_unique {ls ls' : List Letter} (hperm : ls'.Perm ls)
    (hnd : (ls.map Letter.Rune).Nodup)
    (hs : ls.Pairwise (fun a b => a.Rune ≤ b.Rune))
    (hs' : ls'.Pairwise (fun a b => a.Rune ≤ b.Rune)) : ls' = ls := by
  have strict : ∀ l : List Letter, (l.map Letter.Rune).Nodup →
      l.Pairwise (fun a b => a.Rune ≤ b.Rune) → l.Pairwise (fun a b => a.Rune < b.Rune) := by
    intro l h1 h2
    have h3 : l.Pairwise (fun a b => a.Rune ≠ b.Rune) := List.pairwise_map.mp h1
    exact (h2.and h3).imp (fun h => lt_of_le_of_ne h.1 h.2)
  have hnd' : (ls'.map Letter.Rune).Nodup := ((hperm.map Letter.Rune).nodup_iff).mpr hnd
  haveI : IsAntisymm Letter (fun a b => a.Rune < b.Rune) :=
    ⟨fun a b h1 h2 => absurd h1 (not_lt.mpr (le_of_lt h2))⟩
  exact List.eq_of_perm_of_sorted hperm (strict ls' hnd' hs') (strict ls hnd hs)

/-! ## Claims on sorting -/

/-- C14: sort correctness.  For every font `Sort()` ends; afterwards the
runes of `Letters()` are non-decreasing (every earlier rune is at most every
later one, in particular each adjacent pair is in order) and the letter
sequence is a permutation of the sequence before the call, each letter
keeping its rune, size and bitmap; width and height are unchanged. -/
theorem C14_sort_correct (f : Font) :
    ∃ f', f.Sort = some f' ∧
      (f'.Letters.map Letter.Rune).Pairwise (· ≤ ·) ∧
      (f'.Letters.map Letter.Rune).Chain' (· ≤ ·) ∧
      f'.Letters.Perm f.Letters ∧
      f'.Width = f.Width ∧ f'.Height = f.Height := by
  obtain ⟨ls, hsort, hperm, hsorted, -⟩ := fontSort_spec f
  have hp : (ls.map Letter.Rune).Pairwise (· ≤ ·) := List.pairwise_map.mpr hsorted
  exact ⟨_, hsort, hp, hp.chain', hperm, rfl, rfl⟩

/-- C15: `Sort` is a no-op on sorted and empty fonts.  For every font whose
letter sequence is empty or non-decreasing by rune (each adjacent pair in
order), `Sort()` ends and leaves the font exactly as it was; `Sort` applied
twice gives what `Sort` applied once gives; and a font with pairwise distinct
runes has no other arrangement sorted by rune than the one it is in, so the
no-op does not depend on the sorting algorithm. -/
theorem C15_sort_noop (f : Font) :
    (f.Letters.Chain' (fun a b => a.Rune ≤ b.Rune) → f.Sort = some f) ∧
    (f.Sort.bind Font.Sort = f.Sort) ∧
    (f.Letters.Chain' (fun a b => a.Rune ≤ b.Rune) →
      (f.Letters.map Letter.Rune).Nodup →
      ∀ ls : List Letter, ls.Perm f.Letters → ls.Chain' (fun a b => a.Rune ≤ b.Rune) →
        ls = f.Letters) := by
  haveI : IsTrans Letter (fun a b => a.Rune ≤ b.Rune) :=
    ⟨fun a b c h1 h2 => le_trans h1 h2⟩
  have noop : ∀ g : Font, g.letters.Pairwise (fun a b => a.Rune ≤ b.Rune) →
      g.Sort = some g := by
    intro g hg
    obtain ⟨ls, hsort, -, -, hnoop⟩ := fontSort_spec g
    rw [hsort, hnoop hg]
  refine ⟨fun h => noop f (List.chain'_iff_pairwise.mp h), ?_, ?_⟩
  · obtain ⟨ls, hsort, -, hsorted, -⟩ := fontSort_spec f
    rw [hsort]
    exact noop _ hsorted
  · intro h hnd ls hperm hls
    exact sorted_perm_unique hperm hnd (List.chain'_iff_pairwise.mp h)
      (List.chain'_iff_pairwise.mp hls)

/-- Witness for C15: the letters `A`, `B` of the test font are in order. -/
theorem C15_sort_noop_witness :
    testFont.Letters.Chain' (fun a b => a.Rune ≤ b.Rune) ∧ testFont.Sort = some testFont :=
  ⟨by simp [Font.Letters, testFont],
   (C15_sort_noop testFont).1 (by simp [Font.Letters, testFont])⟩

/-! ## The invariants of the data model -/

theorem foldlM_invariant {σ α : Type} (Inv : σ → Prop) (F : σ → α → Option σ) (l : List α)
    (hF : ∀ s a s', Inv s → F s a = some s' → Inv s') :
    ∀ s s', Inv s → l.foldlM F s = some s' → Inv s' := by
  induction l with
  | nil =>
    intro s s' hs h
    simp only [List.foldlM_nil, Option.pure_def, Option.some.injEq] at h
    rw [← h]
    exact hs
  | cons a rest ih =>
    intro s s' hs h
    rw [List.foldlM_cons] at h
    cases h1 : F s a with
    | none => simp [h1] at h
    | some s1 =>
      rw [h1] at h
      exact ih s1 s' (hF s a s1 hs h1) h

/-- `Font.Letter` keeps the invariants, with the pixel count `width * height` taken in `int`
arithmetic, and the size of the font. -/
theorem Invariant.ofLetter {f f' : Font} {c : Int} {i : Nat}
    (hf : Invariant (int (f.width * f.height)) f) (h : f.Letter c = some (f', i)) :
    Invariant (int (f.width * f.height)) f' ∧ f'.width = f.width ∧ f'.height = f.height := by
  by_cases hmem : ∃ l ∈ f.letters, l.Rune = c
  · obtain ⟨j, hj, -, -, -⟩ := fontLetter_of_mem hmem
    rw [hj] at h
    simp only [Option.some.injEq, Prod.mk.injEq] at h
    obtain ⟨rfl, -⟩ := h
    exact ⟨hf, rfl, rfl⟩
  · have hc' : ∀ l ∈ f.letters, l.Rune ≠ c := fun l hl heq => hmem ⟨l, hl, heq⟩
    unfold Font.Letter at h
    rw [findLetter_eq_none.mpr hc'] at h
    simp only [] at h
    unfold newLetter make at h
    by_cases hn : 0 ≤ int (f.width * f.height)
    · rw [if_pos hn] at h
      simp only [Option.some.injEq, Prod.mk.injEq] at h
      obtain ⟨rfl, -⟩ := h
      obtain ⟨hs, hnd⟩ := hf
      refine ⟨⟨?_, ?_⟩, rfl, rfl⟩
      · intro l hl
        simp only [List.mem_append, List.mem_singleton] at hl
        rcases hl with hl | hl
        · exact hs l hl
        · subst hl
          refine ⟨rfl, rfl, ?_⟩
          simp only [List.length_replicate]
          omega
      · simp only [List.map_append, List.map_cons, List.map_nil]
        rw [List.nodup_append]
        refine ⟨hnd, List.nodup_singleton _, ?_⟩
        intro r hr1 hr2
        simp only [List.mem_singleton] at hr2
        simp only [List.mem_map] at hr1
        obtain ⟨l, hl, hlr⟩ := hr1
        exact hc' l hl (by rw [hlr, hr2])
    · rw [if_neg hn] at h
      simp at h

/-- A `Set` through a letter pointer keeps the invariants and the size of the font. -/
theorem Invariant.ofSetAt {n : Int} {f f' : Font} {i : Nat} {x y : Int} {v : Bool}
    (hf : Invariant n f) (h : f.SetAt i x y v = some f') :
    Invariant n f' ∧ f'.width = f.width ∧ f'.height = f.height := by
  obtain ⟨l, l', hl, hset, rfl⟩ := fontSetAt_letters h
  obtain ⟨hR, hw, hh, hlen⟩ := Letter.Set_Rune hset
  obtain ⟨hs, hnd⟩ := hf
  refine ⟨⟨?_, ?_⟩, rfl, rfl⟩
  · intro a ha
    rcases List.mem_or_eq_of_mem_set ha with h1 | h1
    · exact hs a h1
    · subst h1
      obtain ⟨s1, s2, s3⟩ := hs l (List.getElem?_mem hl)
      exact ⟨by rw [hw]; exact s1, by rw [hh]; exact s2, by rw [hlen]; exact s3⟩
  · show ((f.letters.set i l').map Letter.Rune).Nodup
    rw [map_Rune_set hl hR]
    exact hnd

/-- `Font.Sort` keeps the invariants and the size of the font. -/
theorem Invariant.ofSort {n : Int} {f f' : Font} (hf : Invariant n f)
    (h : f.Sort = some f') :
    Invariant n f' ∧ f'.width = f.width ∧ f'.height = f.height := by
  obtain ⟨ls, hsort, hperm, -, -⟩ := fontSort_spec f
  rw [hsort] at h
  simp only [Option.some.injEq] at h
  subst h
  obtain ⟨hs, hnd⟩ := hf
  refine ⟨⟨fun l hl => hs l (hperm.subset hl), ?_⟩, rfl, rfl⟩
  exact ((hperm.map Letter.Rune).nodup_iff).mpr hnd

/-- Every sequence of `Letter`, `Set` and `Sort` calls keeps the invariants and the size of
the font. -/
theorem Invariant.runCalls {w h : Int} :
    ∀ (calls : List Call) (f f' : Font), f.width = w → f.height = h →
      Invariant (int (w * h)) f → Mbw.runCalls f calls = some f' →
      Invariant (int (w * h)) f' ∧ f'.width = w ∧ f'.height = h := by
  intro calls
  induction calls with
  | nil =>
    intro f f' hfw hfh hf hrun
    simp only [Mbw.runCalls, Option.some.injEq] at hrun
    subst hrun
    exact ⟨hf, hfw, hfh⟩
  | cons c rest ih =>
    intro f f' hfw hfh hf hrun
    cases h1 : c.run f with
    | none => simp [Mbw.runCalls, h1] at hrun
    | some f1 =>
      simp only [Mbw.runCalls, h1] at hrun
      have hf0 : Invariant (int (f.width * f.height)) f := by rw [hfw, hfh]; exact hf
      have key : Invariant (int (f.width * f.height)) f1 ∧ f1.width = f.width ∧
          f1.height = f.height := by
        cases c with
        | sort => exact Invariant.ofSort hf0 h1
        | op o =>
          cases o with
          | letter c =>
            simp only [Call.run, Op.run] at h1
            cases hL : f.Letter c with
            | none => simp [hL] at h1
            | some p =>
              obtain ⟨f2, i⟩ := p
              simp only [hL, Option.some.injEq] at h1
              subst h1
              exact Invariant.ofLetter hf0 hL
          | set c x y v =>
            simp only [Call.run, Op.run] at h1
            cases hL : f.Letter c with
            | none => simp [hL] at h1
            | some p =>
              obtain ⟨f2, i⟩ := p
              simp only [hL] at h1
              obtain ⟨h2, h3, h4⟩ := Invariant.ofLetter hf0 hL
              obtain ⟨h5, h6, h7⟩ := Invariant.ofSetAt h2 h1
              exact ⟨h5, by rw [h6, h3], by rw [h7, h4]⟩
      rw [hfw, hfh] at key
      exact ih f1 f' key.2.1 key.2.2 key.1 hrun

theorem Invariant.readPixel {w h : Int} {bits : List Nat} {i p y x : Nat} {f f' : Font}
    (hf : Invariant (int (w * h)) f ∧ f.width = w ∧ f.height = h)
    (hp : Read.pixel bits i p y x f = some f') :
    Invariant (int (w * h)) f' ∧ f'.width = w ∧ f'.height = h := by
  unfold Read.pixel at hp
  cases hi : index bits (Int.tdiv (bitIndex f i y x) 8) with
  | none => simp [hi] at hp
  | some b =>
    simp only [hi] at hp
    split at hp
    · obtain ⟨h1, h2, h3⟩ := Invariant.ofSetAt hf.1 hp
      exact ⟨h1, by rw [h2, hf.2.1], by rw [h3, hf.2.2]⟩
    · simp only [Option.some.injEq] at hp
      subst hp
      exact hf

theorem Invariant.readRows {w h : Int} {bits : List Nat} {i p : Nat} {f f' : Font}
    (hf : Invariant (int (w * h)) f ∧ f.width = w ∧ f.height = h)
    (hp : Read.rows bits i p f = some f') :
    Invariant (int (w * h)) f' ∧ f'.width = w ∧ f'.height = h := by
  unfold Read.rows at hp
  refine foldlM_invariant
    (fun g : Font => Invariant (int (w * h)) g ∧ g.width = w ∧ g.height = h) _ _ ?_ f f' hf hp
  intro g y g' hg hrow
  unfold Read.row at hrow
  exact foldlM_invariant
    (fun g : Font => Invariant (int (w * h)) g ∧ g.width = w ∧ g.height = h) _ _
    (fun g1 x g2 hg1 hpix => Invariant.readPixel hg1 hpix) g g' hg hrow

theorem Invariant.readFill {w h : Int} {bits : List Nat} :
    ∀ (us : List Nat) (i : Nat) (f f' : Font),
      Invariant (int (w * h)) f ∧ f.width = w ∧ f.height = h →
      Read.fill bits us i f = some f' →
      Invariant (int (w * h)) f' ∧ f'.width = w ∧ f'.height = h := by
  intro us
  induction us with
  | nil =>
    intro i f f' hf hfill
    simp only [Read.fill, Option.some.injEq] at hfill
    subst hfill
    exact hf
  | cons u rest ih =>
    intro i f f' hf hfill
    simp only [Read.fill] at hfill
    cases hL : f.Letter (rune u) with
    | none => simp [hL] at hfill
    | some q =>
      obtain ⟨f1, p⟩ := q
      simp only [hL] at hfill
      cases hR : Read.rows bits i p f1 with
      | none => simp [hR] at hfill
      | some f2 =>
        simp only [hR] at hfill
        have hf0 : Invariant (int (f.width * f.height)) f := by
          rw [hf.2.1, hf.2.2]; exact hf.1
        obtain ⟨h1, h2, h3⟩ := Invariant.ofLetter hf0 hL
        simp only [hf.2.1, hf.2.2] at h1 h2 h3
        exact ih (i + 1) f2 f' (Invariant.readRows ⟨h1, h2, h3⟩ hR) hfill

/-- A font that `Read` returns was filled from an empty font of the size the header states,
and the header is valid. -/
theorem Read_ok {s : List Nat} {f : Font} (h : Read s = .ok f) :
    16 ≤ s.length ∧ leValue ((s.drop 4).take 2) ≠ 0 ∧ leValue ((s.drop 6).take 2) ≠ 0 ∧
    ∃ bits runes, Read.fill bits runes 0
      (NewFont (leValue ((s.drop 4).take 2) : Int) (leValue ((s.drop 6).take 2) : Int)) =
        some f := by
  have h16 : 16 ≤ s.length := by
    by_contra hcon
    rcases Read_of_lt (s := s) (by omega) with h1 | h1 <;> rw [h1] at h <;> cases h
  rw [Read_of_le h16] at h
  split at h
  · cases h
  · rename_i hvalid
    simp only [not_or, ne_eq, Decidable.not_not] at hvalid
    refine ⟨h16, hvalid.2.1, hvalid.2.2, ?_⟩
    rw [Read.data] at h
    simp only [] at h
    split at h
    · cases h
    · split at h
      · cases h
      · cases h
      · split at h
        · cases h
        · split at h
          · cases h
          · split at h
            · cases h
            · rename_i bits _ _ _ runes _ _ _ _ _ _ _ _ f0 hfill
              simp only [Outcome.ok.injEq] at h
              subst h
              exact ⟨_, _, hfill⟩

theorem leValue_lt (l : List Nat) (h : ∀ b ∈ l, b < 256) : leValue l < 256 ^ l.length := by
  induction l with
  | nil => simp [leValue]
  | cons a rest ih =>
    have ha := h a (List.mem_cons_self _ _)
    have hr := ih (fun b hb => h b (List.mem_cons_of_mem _ hb))
    simp only [leValue, List.length_cons, pow_succ]
    omega

/-- A sixteen-bit field of a stream of bytes is at most 65535. -/
theorem leValue_field_le (s : List Nat) (k : Nat) (h : ∀ b ∈ s, b < 256) :
    leValue ((s.drop k).take 2) ≤ 65535 := by
  have h1 := leValue_lt ((s.drop k).take 2)
    (fun b hb => h b (List.mem_of_mem_drop (List.mem_of_mem_take hb)))
  have h2 : ((s.drop k).take 2).length ≤ 2 := by
    rw [List.length_take]
    exact Nat.min_le_left _ _
  have h3 : 256 ^ ((s.drop k).take 2).length ≤ 256 ^ 2 :=
    Nat.pow_le_pow_right (by omega) h2
  omega

/-- C16 (as amended): font invariants.  Every font reachable from
`NewFont(w, h)` with positive `w`, `h` by any sequence of `Font.Letter`,
`Letter.Set` (on a letter of the font) and `Font.Sort` calls keeps width `w`
and height `h`, has no two letters with the same rune, and every letter has
the font's width and height and holds exactly `w * h` pixels, the product
taken in Go's `int` arithmetic, hence exactly `w * h` pixels whenever
`w * h` fits an `int`.  Every font returned by a successful `Read` of a
stream of bytes has positive width and height, no two letters with the same
rune, and every letter has the font's width and height and holds exactly
`width * height` pixels. -/
theorem C16_font_invariants (w h : Int) (calls : List Call) (f : Font) (s : List Nat)
    (g : Font) :
    (0 < w → 0 < h → runCalls (NewFont w h) calls = some f →
      f.width = w ∧ f.height = h ∧ (f.letters.map Letter.Rune).Nodup ∧
      (∀ l ∈ f.letters,
        l.width = w ∧ l.height = h ∧ (l.set.length : Int) = int (w * h)) ∧
      (w * h ≤ 9223372036854775807 → ∀ l ∈ f.letters, (l.set.length : Int) = w * h)) ∧
    ((∀ b ∈ s, b < 256) → Read s = .ok g →
      0 < g.width ∧ 0 < g.height ∧ (g.letters.map Letter.Rune).Nodup ∧
      ∀ l ∈ g.letters,
        l.width = g.width ∧ l.height = g.height ∧
          (l.set.length : Int) = g.width * g.height) := by
  constructor
  · intro hw hh hrun
    obtain ⟨⟨hs, hnd⟩, hfw, hfh⟩ := Invariant.runCalls (w := w) (h := h) calls
      (NewFont w h) f rfl rfl
      ⟨by simp [NewFont], by simp [NewFont]⟩ hrun
    refine ⟨hfw, hfh, hnd, ?_, ?_⟩
    · intro l hl
      obtain ⟨h1, h2, h3⟩ := hs l hl
      exact ⟨by rw [h1, hfw], by rw [h2, hfh], h3⟩
    · intro hfit l hl
      have hpos : 0 ≤ w * h := by positivity
      rw [(hs l hl).2.2, int_eq_self (by omega) hfit]
  · intro hbytes hread
    obtain ⟨-, hW0, hH0, bits, runes, hfill⟩ := Read_ok hread
    have hW := leValue_field_le s 4 hbytes
    have hH := leValue_field_le s 6 hbytes
    obtain ⟨⟨hs, hnd⟩, hfw, hfh⟩ := Invariant.readFill
      (w := (leValue ((s.drop 4).take 2) : Int)) (h := (leValue ((s.drop 6).take 2) : Int))
      runes 0 _ g ⟨⟨by simp [NewFont], by simp [NewFont]⟩, rfl, rfl⟩ hfill
    have hprod : (leValue ((s.drop 4).take 2) : Int) * (leValue ((s.drop 6).take 2) : Int) ≤
        65535 * 65535 := by
      have : leValue ((s.drop 4).take 2) * leValue ((s.drop 6).take 2) ≤ 65535 * 65535 :=
        Nat.mul_le_mul hW hH
      exact_mod_cast this
    have hpos : (0 : Int) ≤
        (leValue ((s.drop 4).take 2) : Int) * (leValue ((s.drop 6).take 2) : Int) := by
      positivity
    refine ⟨by rw [hfw]; omega, by rw [hfh]; omega, hnd, ?_⟩
    intro l hl
    obtain ⟨h1, h2, h3⟩ := hs l hl
    refine ⟨h1, h2, ?_⟩
    rw [h3, hfw, hfh, int_eq_self (by omega) (by omega)]

/-- Witness for C16: the calls of the test followed by `Sort`, and the stream
`Write` produces for the font of the test. -/
theorem C16_font_invariants_witness :
    (runCalls (NewFont 14 8)
        [.op (.letter 66), .op (.letter 65), .op (.set 65 1 2 true), .sort] =
      some { width := 14, height := 8,
             letters :=
               [{ Rune := 65, width := 14, height := 8,
                  set := (List.replicate 112 false).set 29 true },
                { Rune := 66, width := 14, height := 8,
                  set := List.replicate 112 false }] }) ∧
    Read (Write testFont).1 = .ok testFont ∧
    ([(65 : Int), 66]).Nodup ∧
    (testFont.letters.map Letter.Rune).Nodup :=
  have h := C16_font_invariants 14 8
    [.op (.letter 66), .op (.letter 65), .op (.set 65 1 2 true), .sort]
    { width := 14, height := 8,
      letters :=
        [{ Rune := 65, width := 14, height := 8,
           set := (List.replicate 112 false).set 29 true },
         { Rune := 66, width := 14, height := 8,
           set := List.replicate 112 false }] }
    (Write testFont).1 testFont
  ⟨by decide, by decide, (h.1 (by decide) (by decide) (by decide)).2.2.1,
   (h.2 (by decide) (by decide)).2.2.1⟩

/-- C16 fails as stated: `NewFont(1 << 32, 1 << 32)` has positive size, and
after `Letter('A')` its letter holds no pixel, not `width * height` pixels:
the product wraps to zero in `int` arithmetic. -/
theorem C16_counterexample :
    runCalls (NewFont 4294967296 4294967296) [.op (.letter 65)] =
      some { width := 4294967296, height := 4294967296,
             letters := [{ Rune := 65, width := 4294967296, height := 4294967296,
                           set := [] }] } ∧
    (([] : List Bool).length : Int) ≠ 4294967296 * 4294967296 := by
  decide

theorem set_of_getElem? {α : Type} {l : List α} {n : Nat} {a : α} (h : l[n]? = some a) :
    l.set n a = l := by
  apply List.ext_getElem?
  intro m
  rw [List.getElem?_set]
  split
  · rename_i hnm
    subst hnm
    split
    · exact h.symm
    · rename_i hlt
      rw [List.getElem?_eq_none (by omega)]
  · rfl

/-- Inside the grid, a pixel read through a letter position is the entry of the pixel
slice at its offset. -/
theorem fontAtAt_iff_lit {g : Font} {p : Nat} {l : Letter} {W H : Nat}
    (hget : g.letters[p]? = some l) (hsz : l.Sized W H) (hWH : W * H ≤ 9223372036854775807)
    {x y : Nat} (hx : x < W) (hy : y < H) :
    g.AtAt p x y = some true ↔ Read.lit p g (x + y * W) := by
  unfold Font.AtAt Read.lit
  simp only [hget]
  rw [(Letter.At_nat hsz hWH hx hy).1]
  simp

/-- The pixel loops of `Read` for table entry `i`, run on the letter at position `p0`: the
bits of block `i` are OR-ed into that letter and nothing else changes. -/
theorem Read.rows_merges {bits : List Nat} {W H N : Nat}
    (hfit : N * W * H ≤ 9223372036854775807) (hlen : N * W * H ≤ 8 * bits.length)
    (f1 : Font) {i p0 : Nat} {l1 : Letter} (hW : f1.width = W) (hH : f1.height = H)
    (hi : i < N) (hs : ∀ l ∈ f1.letters, l.Sized W H) (hget : f1.letters[p0]? = some l1) :
    ∃ f2, Read.rows bits i p0 f1 = some f2 ∧ f2.width = W ∧ f2.height = H ∧
      (∀ l ∈ f2.letters, l.Sized W H) ∧
      f2.letters.map Letter.Rune = f1.letters.map Letter.Rune ∧
      ∀ (p y x : Nat), y < H → x < W →
        (f2.AtAt p x y = some true ↔
          f1.AtAt p x y = some true ∨ (p = p0 ∧ bitSet bits (i * W * H + y * W + x))) := by
  have hWH : W * H ≤ 9223372036854775807 := by
    have : 1 * (W * H) ≤ N * (W * H) := Nat.mul_le_mul_right _ (by omega)
    rw [Nat.one_mul, ← Nat.mul_assoc] at this
    omega
  have hp0 : p0 < f1.letters.length := by
    by_contra hcon
    rw [List.getElem?_eq_none (by omega)] at hget
    cases hget
  have hsz1 : l1.Sized W H := hs l1 (List.getElem?_mem hget)
  have hframe : Read.Frame f1 p0 W H l1.Rune f1 :=
    ⟨hW, hH, hp0, l1, (set_of_getElem? hget).symm, hsz1, rfl⟩
  obtain ⟨f2, hrows, ⟨hW2, hH2, -, l2, hl2, hsz2, hr2⟩, hlit⟩ :=
    Read.rows_reads hfit hlen hi hframe
  have hget2 : f2.letters[p0]? = some l2 := by
    rw [hl2, List.getElem?_set]
    simp [hp0]
  refine ⟨f2, hrows, hW2, hH2, ?_, ?_, ?_⟩
  · intro l hl
    rw [hl2] at hl
    rcases List.mem_or_eq_of_mem_set hl with h | h
    · exact hs l h
    · rw [h]; exact hsz2
  · rw [hl2, List.map_set, hr2]
    apply set_of_getElem?
    rw [List.getElem?_map, hget]
    rfl
  · intro p y x hy hx
    by_cases hp : p = p0
    · subst hp
      rw [fontAtAt_iff_lit hget2 hsz2 hWH hx hy, fontAtAt_iff_lit hget hsz1 hWH hx hy, hlit]
      constructor
      · rintro (h | ⟨v, w, hv, hw, hb, hk⟩)
        · exact Or.inl h
        · obtain ⟨rfl, rfl⟩ := offset_inj hx hw hk
          exact Or.inr ⟨rfl, hb⟩
      · rintro (h | ⟨-, hb⟩)
        · exact Or.inl h
        · exact Or.inr ⟨y, x, hy, hx, hb, rfl⟩
    · have hsame : f2.letters[p]? = f1.letters[p]? := by
        rw [hl2, List.getElem?_set_ne (fun h => hp h.symm)]
      unfold Font.AtAt
      rw [hsame]
      constructor
      · intro h
        exact Or.inl h
      · rintro (h | ⟨h, -⟩)
        · exact h
        · exact absurd h hp

/-- One turn of the loop over the character table in `Read`: the letter of the entry is
looked up or appended blank, and the bits of block `i` are OR-ed into it. -/
theorem Read.entry_merges {bits : List Nat} {W H N : Nat}
    (hfit : N * W * H ≤ 9223372036854775807) (hlen : N * W * H ≤ 8 * bits.length)
    {f : Font} {i : Nat} (u : Nat) (hW : f.width = W) (hH : f.height = H) (hi : i < N)
    (hs : ∀ l ∈ f.letters, l.Sized W H) :
    ∃ f1 p0 f2, f.Letter (rune u) = some (f1, p0) ∧ Read.rows bits i p0 f1 = some f2 ∧
      f2.width = W ∧ f2.height = H ∧ (∀ l ∈ f2.letters, l.Sized W H) ∧
      f2.letters.map Letter.Rune =
        (if rune u ∈ f.letters.map Letter.Rune then f.letters.map Letter.Rune
         else f.letters.map Letter.Rune ++ [rune u]) ∧
      (f2.letters.map Letter.Rune)[p0]? = some (rune u) ∧
      ∀ (p y x : Nat), y < H → x < W →
        (f2.AtAt p x y = some true ↔
          f.AtAt p x y = some true ∨ (p = p0 ∧ bitSet bits (i * W * H + y * W + x))) := by
  have hWH : W * H ≤ 9223372036854775807 := by
    have : 1 * (W * H) ≤ N * (W * H) := Nat.mul_le_mul_right _ (by omega)
    rw [Nat.one_mul, ← Nat.mul_assoc] at this
    omega
  by_cases hmem : rune u ∈ f.letters.map Letter.Rune
  · have hex : ∃ l ∈ f.letters, l.Rune = rune u := by
      simpa only [List.mem_map] using hmem
    obtain ⟨p0, hL, hp0, hr0, -⟩ := fontLetter_of_mem hex
    have hget : f.letters[p0]? = some (f.letters.get ⟨p0, hp0⟩) :=
      List.getElem?_eq_getElem hp0
    obtain ⟨f2, hrows, hW2, hH2, hs2, hrunes, hpix⟩ :=
      Read.rows_merges hfit hlen f hW hH hi hs hget
    refine ⟨f, p0, f2, hL, hrows, hW2, hH2, hs2, ?_, ?_, hpix⟩
    · rw [if_pos hmem, hrunes]
    · rw [hrunes, List.getElem?_map]
      exact hr0
  · have hc : ∀ l ∈ f.letters, l.Rune ≠ rune u := by
      intro l hl heq
      exact hmem (List.mem_map.mpr ⟨l, hl, heq⟩)
    have hL := fontLetter_of_not_mem hW hH hWH hc
    have hblank : ({ Rune := rune u, width := f.width,
                        height := f.height, set := List.replicate (W * H) false } : Letter).Sized W H :=
      ⟨hW, hH, by simp⟩
    have hs1 : ∀ l ∈ f.letters ++
        [({ Rune := rune u, width := f.width,
                        height := f.height, set := List.replicate (W * H) false } : Letter)], l.Sized W H := by
      intro l hl
      simp only [List.mem_append, List.mem_singleton] at hl
      rcases hl with hl | hl
      · exact hs l hl
      · rw [hl]; exact hblank
    have hget : (f.letters ++
        [({ Rune := rune u, width := f.width,
                        height := f.height, set := List.replicate (W * H) false } : Letter)])[f.letters.length]? =
        some { Rune := rune u, width := f.width,
                        height := f.height, set := List.replicate (W * H) false } := by
      simp
    obtain ⟨f2, hrows, hW2, hH2, hs2, hrunes, hpix⟩ :=
      Read.rows_merges hfit hlen
        ({ f with letters := f.letters ++
          [{ Rune := rune u, width := f.width,
                        height := f.height, set := List.replicate (W * H) false }] }) hW hH hi hs1 hget
    refine ⟨_, _, f2, hL, hrows, hW2, hH2, hs2, ?_, ?_, ?_⟩
    · rw [if_neg hmem, hrunes]
      simp
    · rw [hrunes]
      simp
    · intro p y x hy hx
      rw [hpix p y x hy hx]
      have hold : Font.AtAt { f with letters := f.letters ++
          [{ Rune := rune u, width := f.width,
                        height := f.height, set := List.replicate (W * H) false }] } p x y = some true ↔
          f.AtAt p x y = some true := by
        unfold Font.AtAt
        rcases Nat.lt_trichotomy p f.letters.length with hp | hp | hp
        · simp only [List.getElem?_append_left hp]
        · subst hp
          simp only [hget, List.getElem?_eq_none (Nat.le_refl _)]
          rw [(Letter.At_nat hblank hWH hx hy).1]
          simp only [List.getElem?_replicate]
          constructor
          · intro h
            split at h <;> cases h
          · intro h
            cases h
        · rw [List.getElem?_eq_none (by simp; omega), List.getElem?_eq_none (by omega)]
      rw [hold]

/-- The loop over the character table in `Read` on an arbitrary table: the runes of the
letters are the distinct table entries in the order of their first occurrence, and the
blocks of all entries with the rune of a letter are OR-ed into that letter. -/
theorem Read.fill_merges {bits : List Nat} {W H N : Nat}
    (hfit : N * W * H ≤ 9223372036854775807) (hlen : N * W * H ≤ 8 * bits.length) :
    ∀ (us : List Nat) (i : Nat) (f : Font), f.width = W → f.height = H →
      i + us.length ≤ N → (∀ l ∈ f.letters, l.Sized W H) →
      (f.letters.map Letter.Rune).Nodup →
      ∃ f', Read.fill bits us i f = some f' ∧ f'.width = W ∧ f'.height = H ∧
        (∀ l ∈ f'.letters, l.Sized W H) ∧
        f'.letters.map Letter.Rune =
          List.eraseDups.loop (us.map rune) (f.letters.map Letter.Rune).reverse ∧
        (f'.letters.map Letter.Rune).Nodup ∧
        f.letters.map Letter.Rune <+: f'.letters.map Letter.Rune ∧
        (∀ c, c ∈ f'.letters.map Letter.Rune ↔
          c ∈ f.letters.map Letter.Rune ∨ c ∈ us.map rune) ∧
        ∀ (p : Nat) (c : Int) (y x : Nat), (f'.letters.map Letter.Rune)[p]? = some c →
          y < H → x < W →
          (f'.AtAt p x y = some true ↔
            f.AtAt p x y = some true ∨
              ∃ k v, us[k]? = some v ∧ rune v = c ∧
                bitSet bits ((i + k) * W * H + y * W + x)) := by
  intro us
  induction us with
  | nil =>
    intro i f hW hH _ hs hnd
    refine ⟨f, rfl, hW, hH, hs, ?_, hnd, List.prefix_refl _, ?_, ?_⟩
    · simp [List.eraseDups.loop]
    · intro c
      simp
    · intro p c y x _ _ _
      simp
  | cons u rest ih =>
    intro i f hW hH hN hs hnd
    have hi : i < N := by simp at hN; omega
    obtain ⟨f1, p0, f2, hL, hrows, hW2, hH2, hs2, hrunes2, hp0, hpix2⟩ :=
      Read.entry_merges hfit hlen u hW hH hi hs
    have hnd2 : (f2.letters.map Letter.Rune).Nodup := by
      rw [hrunes2]
      split
      · exact hnd
      · rename_i hmem
        rw [List.nodup_append]
        refine ⟨hnd, List.nodup_singleton _, ?_⟩
        intro a ha hb
        rw [List.mem_singleton] at hb
        subst hb
        exact hmem ha
    obtain ⟨f', hfill, hW', hH', hs', hrunes', hnd', hpre', hmem', hpix'⟩ :=
      ih (i + 1) f2 hW2 hH2 (by simp at hN; omega) hs2 hnd2
    have hpre2 : f.letters.map Letter.Rune <+: f2.letters.map Letter.Rune := by
      rw [hrunes2]
      split
      · exact List.prefix_refl _
      · exact List.prefix_append _ _
    have hp0' : (f'.letters.map Letter.Rune)[p0]? = some (rune u) := by
      obtain ⟨t, ht⟩ := hpre'
      have hlt : p0 < (f2.letters.map Letter.Rune).length := by
        by_contra hcon
        rw [List.getElem?_eq_none (by omega)] at hp0
        cases hp0
      rw [← ht, List.getElem?_append_left hlt]
      exact hp0
    refine ⟨f', ?_, hW', hH', hs', ?_, hnd', hpre2.trans hpre', ?_, ?_⟩
    · simp only [Read.fill, hL, hrows]
      exact hfill
    · rw [hrunes', hrunes2]
      simp only [List.map_cons, List.eraseDups.loop]
      by_cases hmem : rune u ∈ f.letters.map Letter.Rune
      · have he : List.elem (rune u) (f.letters.map Letter.Rune).reverse = true := by
          simp only [List.elem_eq_mem, List.mem_reverse, decide_eq_true_eq]
          exact hmem
        rw [he, if_pos hmem]
      · have he : List.elem (rune u) (f.letters.map Letter.Rune).reverse = false := by
          simp only [List.elem_eq_mem, List.mem_reverse, decide_eq_false_iff_not]
          exact hmem
        rw [he, if_neg hmem]
        simp only [List.reverse_append, List.reverse_cons, List.reverse_nil, List.nil_append,
          List.singleton_append]
    · intro c
      rw [hmem' c, hrunes2]
      by_cases hmem : rune u ∈ f.letters.map Letter.Rune
      · rw [if_pos hmem]
        simp only [List.map_cons, List.mem_cons]
        constructor
        · rintro (h | h)
          · exact Or.inl h
          · exact Or.inr (Or.inr h)
        · rintro (h | h | h)
          · exact Or.inl h
          · exact Or.inl (h ▸ hmem)
          · exact Or.inr h
      · rw [if_neg hmem]
        simp only [List.map_cons, List.mem_cons, List.mem_append, List.not_mem_nil, or_false]
        constructor
        · rintro ((h | h) | h)
          · exact Or.inl h
          · exact Or.inr (Or.inl h)
          · exact Or.inr (Or.inr h)
        · rintro (h | h | h)
          · exact Or.inl (Or.inl h)
          · exact Or.inl (Or.inr h)
          · exact Or.inr h
    · intro p c y x hc hy hx
      have hpc : p = p0 ↔ rune u = c := by
        constructor
        · intro h
          subst h
          rw [hp0'] at hc
          exact Option.some.inj hc
        · intro h
          subst h
          have hlt : p < (f'.letters.map Letter.Rune).length := by
            by_contra hcon
            rw [List.getElem?_eq_none (by omega)] at hc
            cases hc
          exact List.getElem?_inj hlt hnd' (hc.trans hp0'.symm)
      rw [hpix' p c y x hc hy hx, hpix2 p y x hy hx]
      constructor
      · rintro ((h | ⟨hp, hb⟩) | ⟨k, v, hk, hv, hb⟩)
        · exact Or.inl h
        · exact Or.inr ⟨0, u, by simp, hpc.mp hp, by simpa using hb⟩
        · refine Or.inr ⟨k + 1, v, by simpa using hk, hv, ?_⟩
          have : i + (k + 1) = i + 1 + k := by omega
          rw [this]
          exact hb
      · rintro (h | ⟨k, v, hk, hv, hb⟩)
        · exact Or.inl (Or.inl h)
        · cases k with
          | zero =>
            simp only [List.getElem?_cons_zero, Option.some.injEq] at hk
            subst hk
            exact Or.inl (Or.inr ⟨hpc.mpr hv, by simpa using hb⟩)
          | succ k =>
            simp only [List.getElem?_cons_succ] at hk
            refine Or.inr ⟨k, v, hk, hv, ?_⟩
            have : i + 1 + k = i + (k + 1) := by omega
            rw [this]
            exact hb

/-- The part of `Read` after the header check, on a stream that holds a complete table of
`N` characters, equal or not, and a complete bitmap of `N * W * H / 8 ≥ 1` bytes. -/
theorem Read.data_merges (header : fileHeader) (r : List Nat) {W H N : Nat}
    (hW : header.FontWidth = W) (hH : header.FontHeight = H) (hN : header.LetterCount = N)
    (hN1 : 1 ≤ N) (hW1 : 1 ≤ W) (hH1 : 1 ≤ H) (h8 : N * W * H % 8 = 0)
    (h4N : 4 * N ≤ 9223372036854775807) (hfit : N * W * H ≤ 9223372036854775807)
    (hlen : 4 * N + N * W * H / 8 ≤ r.length) :
    ∃ f, Read.data header r = .ok f ∧ f.width = W ∧ f.height = H ∧
      (∀ l ∈ f.letters, l.Sized W H) ∧
      f.letters.map Letter.Rune = List.eraseDups ((decodeUint32s N r).map rune) ∧
      (f.letters.map Letter.Rune).Nodup ∧
      (∀ c, c ∈ f.letters.map Letter.Rune ↔ c ∈ (decodeUint32s N r).map rune) ∧
      ∀ (p : Nat) (c : Int) (y x : Nat), (f.letters.map Letter.Rune)[p]? = some c →
        y < H → x < W →
        (f.AtAt p x y = some true ↔
          ∃ k v, (decodeUint32s N r)[k]? = some v ∧ rune v = c ∧
            bitSet (r.drop (4 * N)) (k * W * H + y * W + x)) := by
  have hNle : N ≤ N * W * H := by
    have h1 : N * 1 ≤ N * W := Nat.mul_le_mul_left _ hW1
    have h2 : N * W * 1 ≤ N * W * H := Nat.mul_le_mul_left _ hH1
    omega
  have hL1 : 1 ≤ N * W * H / 8 := by
    have : 8 ≤ N * W * H := by
      have := Nat.mul_pos (Nat.mul_pos hN1 hW1) hH1
      omega
    omega
  have hm : makeUint64 (0 : Nat) header.LetterCount = some (List.replicate N 0) := by
    unfold makeUint64
    rw [hN, if_pos (by omega)]
  have htab : decodeUint32s N (r.take (4 * N)) = decodeUint32s N r := by
    rw [decodeUint32s_eq_map, decodeUint32s_eq_map]
    apply List.map_congr_left
    intro i hi
    have hi' : i < N := List.mem_range.mp hi
    rw [List.drop_take, List.take_take, Nat.min_eq_left (by omega)]
  have hrd : binaryReadUint32s r header.LetterCount =
      some (.ok (decodeUint32s N r), r.drop (4 * N)) := by
    unfold binaryReadUint32s
    rw [hN, if_pos h4N, ioReadFull_of_le (by omega)]
    simp only [htab]
  have hmk : make (0 : Nat) (Int.tdiv (int (int (int (header.LetterCount : Int) *
      (header.FontWidth : Int)) * (header.FontHeight : Int))) 8) =
      some (List.replicate (N * W * H / 8) 0) := by
    rw [hN, hW, hH, int_eq_self (z := (N : Int)) (by omega) (by omega), bitmap_length hfit]
    unfold make
    rw [if_pos (Int.ofNat_nonneg _), Int.toNat_ofNat]
  have hbr : bytesReaderRead (r.drop (4 * N)) (List.replicate (N * W * H / 8) 0) =
      ((r.drop (4 * N)).take (N * W * H / 8), none,
        (r.drop (4 * N)).drop (N * W * H / 8)) := by
    have hlen' : N * W * H / 8 ≤ (r.drop (4 * N)).length := by
      rw [List.length_drop]; omega
    unfold bytesReaderRead
    cases hr : r.drop (4 * N) with
    | nil =>
      rw [hr] at hlen'
      simp at hlen'
      omega
    | cons a rest =>
      rw [hr] at hlen'
      simp only [List.length_replicate, List.length_take, Prod.mk.injEq, and_true]
      rw [Nat.min_eq_left hlen', List.drop_of_length_le (by simp), List.append_nil]
  obtain ⟨f, hfill, hfW, hfH, hs, hrunes, hnd, -, hmem, hpix⟩ :=
    Read.fill_merges hfit
      (show N * W * H ≤ 8 * ((r.drop (4 * N)).take (N * W * H / 8)).length by
        rw [List.length_take, List.length_drop, Nat.min_eq_left (by omega)]; omega)
      (decodeUint32s N r) 0 (NewFont (W : Int) (H : Int)) rfl rfl
      (by rw [length_decodeUint32s]; omega) (by simp [NewFont]) (by simp [NewFont])
  refine ⟨f, ?_, hfW, hfH, hs, ?_, hnd, ?_, ?_⟩
  · rw [Read.data]
    simp only [hm, hrd, hmk, hbr]
    rw [hW, hH, hfill]
  · rw [hrunes]
    rfl
  · intro c
    rw [hmem c]
    simp [NewFont]
  · intro p c y x hc hy hx
    rw [hpix p c y x hc hy hx]
    have hnone : (NewFont (W : Int) (H : Int)).AtAt p x y ≠ some true := by
      simp [Font.AtAt, NewFont]
    have hbit : ∀ k v, (decodeUint32s N r)[k]? = some v →
        (bitSet ((r.drop (4 * N)).take (N * W * H / 8)) (k * W * H + y * W + x) ↔
          bitSet (r.drop (4 * N)) (k * W * H + y * W + x)) := by
      intro k v hk
      apply bitSet_take
      have hkN : k < N := by
        by_contra hcon
        rw [List.getElem?_eq_none (by rw [length_decodeUint32s]; omega)] at hk
        cases hk
      have := (bitIndex_eq (show (NewFont (W : Int) (H : Int)).width = W from rfl)
        (show (NewFont (W : Int) (H : Int)).height = H from rfl) hfit hkN hy hx).2
      omega
    constructor
    · rintro (h | ⟨k, v, hk, hv, hb⟩)
      · exact absurd h hnone
      · refine ⟨k, v, hk, hv, ?_⟩
        rw [Nat.zero_add] at hb
        exact (hbit k v hk).mp hb
    · rintro ⟨k, v, hk, hv, hb⟩
      refine Or.inr ⟨k, v, hk, hv, ?_⟩
      rw [Nat.zero_add]
      exact (hbit k v hk).mpr hb

/-- C19: duplicate characters in a decoded table are merged.  For every stream with a
valid header (letter count `N`, non-zero width `W` and height `H`), `N * W * H` divisible
by 8, a complete table and a complete bitmap section, whose table holds the same character
at two indices, `Read` succeeds and returns a font with strictly fewer than `N` letters:
their runes are pairwise distinct and are the table entries with duplicates erased, in the
order of first occurrence, and inside the grid `At(x, y)` of a letter is true if and only
if bit `(x, y)` is set in at least one of the bitmap blocks `i` whose table entry is the
rune of that letter. -/
theorem C19_duplicates_merged (s : List Nat) (W H N : Nat)
    (hmagic : s.take 4 = [0x4D, 0x42, 0x57, 0x31])
    (hW : leValue ((s.drop 4).take 2) = W) (hH : leValue ((s.drop 6).take 2) = H)
    (hN : leValue ((s.drop 8).take 8) = N)
    (hW0 : W ≠ 0) (hH0 : H ≠ 0) (h8 : N * W * H % 8 = 0)
    (h4N : 4 * N ≤ 9223372036854775807) (hfit : N * W * H ≤ 9223372036854775807)
    (hlen : 16 + 4 * N + N * W * H / 8 ≤ s.length)
    (hdup : ∃ i j, i < j ∧ j < N ∧
      rune (leValue ((s.drop (16 + 4 * i)).take 4)) =
        rune (leValue ((s.drop (16 + 4 * j)).take 4))) :
    ∃ f, Read s = .ok f ∧ f.width = W ∧ f.height = H ∧ f.letters.length < N ∧
      (f.letters.map Letter.Rune =
        List.eraseDups
          ((List.range N).map fun i => rune (leValue ((s.drop (16 + 4 * i)).take 4)))) ∧
      (f.letters.map Letter.Rune).Nodup ∧
      (∀ c, c ∈ f.letters.map Letter.Rune ↔
        ∃ i, i < N ∧ rune (leValue ((s.drop (16 + 4 * i)).take 4)) = c) ∧
      (∀ l ∈ f.letters, l.Sized W H) ∧
      ∀ (p : Nat) (l : Letter) (x y : Int), f.letters[p]? = some l →
        0 ≤ x → x < W → 0 ≤ y → y < H →
        (l.At x y = some true ↔
          ∃ i, i < N ∧ rune (leValue ((s.drop (16 + 4 * i)).take 4)) = l.Rune ∧
            bitSet (s.drop (16 + 4 * N)) ((i : Int) * W * H + y * W + x).toNat) := by
  have hN1 : 1 ≤ N := by
    obtain ⟨i, j, -, hj, -⟩ := hdup
    omega
  have htable : (decodeUint32s N (s.drop 16)).map rune =
      (List.range N).map fun i => rune (leValue ((s.drop (16 + 4 * i)).take 4)) := by
    rw [decodeUint32s_eq_map, List.map_map]
    apply List.map_congr_left
    intro i _
    simp only [Function.comp, List.drop_drop]
  have hentry : ∀ k v, (decodeUint32s N (s.drop 16))[k]? = some v ↔
      k < N ∧ leValue ((s.drop (16 + 4 * k)).take 4) = v := by
    intro k v
    rw [decodeUint32s_eq_map, List.getElem?_map]
    by_cases hk : k < N
    · rw [List.getElem?_range hk]
      simp only [Option.map_some', Option.some.injEq, List.drop_drop, hk, true_and]
    · rw [List.getElem?_eq_none (by rw [List.length_range]; omega)]
      simp [hk]
  obtain ⟨f, hread, hfW, hfH, hs, hrunes, hnd, hmem, hpix⟩ :=
    Read.data_merges
      { Version := s.take 4, FontWidth := leValue ((s.drop 4).take 2),
        FontHeight := leValue ((s.drop 6).take 2),
        LetterCount := leValue ((s.drop 8).take 8) }
      (s.drop 16) hW hH hN hN1 (by omega) (by omega) h8 h4N hfit
      (by rw [List.length_drop]; omega)
  rw [htable] at hrunes hmem
  refine ⟨f, ?_, hfW, hfH, ?_, hrunes, hnd, ?_, hs, ?_⟩
  · rw [Read_of_le (by omega), if_neg (by simp [hmagic, hW, hH, hW0, hH0])]
    exact hread
  · by_contra hge
    have hsub : f.letters.map Letter.Rune ⊆
        (List.range N).map fun i => rune (leValue ((s.drop (16 + 4 * i)).take 4)) :=
      fun c hc => (hmem c).mp hc
    have hperm := (List.subperm_of_subset hnd hsub).perm_of_length_le
      (by simp only [List.length_map, List.length_range]; omega)
    have hndT := hperm.nodup_iff.mp hnd
    obtain ⟨i, j, hij, hj, heq⟩ := hdup
    have hgi : ((List.range N).map fun i =>
        rune (leValue ((s.drop (16 + 4 * i)).take 4)))[i]? =
        some (rune (leValue ((s.drop (16 + 4 * i)).take 4))) := by
      rw [List.getElem?_map, List.getElem?_range (by omega)]
      rfl
    have hgj : ((List.range N).map fun i =>
        rune (leValue ((s.drop (16 + 4 * i)).take 4)))[j]? =
        some (rune (leValue ((s.drop (16 + 4 * j)).take 4))) := by
      rw [List.getElem?_map, List.getElem?_range hj]
      rfl
    have := List.getElem?_inj (by simp only [List.length_map, List.length_range]; omega)
      hndT (hgi.trans (heq ▸ hgj.symm))
    omega
  · intro c
    rw [hmem c]
    simp only [List.mem_map, List.mem_range]
  · intro p l x y hl hx0 hx hy0 hy
    obtain ⟨x', rfl⟩ : ∃ x' : Nat, x = x' := ⟨x.toNat, by omega⟩
    obtain ⟨y', rfl⟩ : ∃ y' : Nat, y = y' := ⟨y.toNat, by omega⟩
    have hc : ∀ i : Nat,
        ((i : Int) * (W : Int) * (H : Int) + (y' : Int) * (W : Int) + (x' : Int)).toNat =
          i * W * H + y' * W + x' := by
      intro i
      rw [← Nat.cast_mul, ← Nat.cast_mul, ← Nat.cast_mul, ← Nat.cast_add, ← Nat.cast_add,
        Int.toNat_ofNat]
    have hp := hpix p l.Rune y' x' (by rw [List.getElem?_map, hl]; rfl) (by omega) (by omega)
    have hat : f.AtAt p x' y' = l.At x' y' := by
      unfold Font.AtAt
      simp only [hl]
    rw [hat] at hp
    rw [hp]
    simp only [hc, List.drop_drop]
    constructor
    · rintro ⟨k, v, hk, hv, hb⟩
      obtain ⟨hkN, hkv⟩ := (hentry k v).mp hk
      exact ⟨k, hkN, by rw [hkv]; exact hv, hb⟩
    · rintro ⟨k, hkN, hv, hb⟩
      exact ⟨k, _, (hentry k _).mpr ⟨hkN, rfl⟩, hv, hb⟩

/-- Witness for C19: a 2 × 2 font stream whose table holds `'A'` twice; the two blocks
`1000` and `0001` are OR-ed into the one letter. -/
theorem C19_duplicates_merged_witness :
    Read [77, 66, 87, 49, 2, 0, 2, 0, 2, 0, 0, 0, 0, 0, 0, 0, 65, 0, 0, 0, 65, 0, 0, 0, 129] =
      .ok { width := 2, height := 2,
            letters := [{ Rune := 65, width := 2, height := 2,
                          set := [true, false, false, true] }] } ∧
    ∃ f, Read [77, 66, 87, 49, 2, 0, 2, 0, 2, 0, 0, 0, 0, 0, 0, 0, 65, 0, 0, 0, 65, 0, 0, 0,
        129] = .ok f ∧ f.letters.length < 2 :=
  ⟨by decide,
   (C19_duplicates_merged
      [77, 66, 87, 49, 2, 0, 2, 0, 2, 0, 0, 0, 0, 0, 0, 0, 65, 0, 0, 0, 65, 0, 0, 0, 129]
      2 2 2 (by decide) (by decide) (by decide) (by decide) (by decide) (by decide)
      (by decide) (by decide) (by decide) (by decide)
      ⟨0, 1, by decide, by decide, by decide⟩).imp fun _ h => ⟨h.1, h.2.2.2.1⟩⟩
end Mbw
